import Mathlib

/-!
# XrdFileCache::File : block cache engine of one open remote file

Shallow embedding of `src/XrdFileCache/XrdFileCacheFile.cc`.

* Machine integers (`int`, `long long`) are mathematical integers; C division is
  `Int.tdiv` (truncation toward zero).  No claim below depends on wrap-around.
* A `Block*` is the key under which the block sits in `m_block_map`.
* The cache coordinator (`Cache::GetInstance()`), the transport (`m_input`), the
  data file (`m_output`) and the bitmap (`m_cfi`) are external.  What the file
  asks of them is recorded in fields of the state (`c_...`, `m_fetches`, `m_disk`,
  the three bit sets); what they answer is an argument of the operation.
* Locks are not modelled: every operation below runs a critical section of the
  source as one step.  `Read` gives up the download lock while it waits; what
  other threads do meanwhile is the `Event` lists of its environment.
-/

namespace XrdFileCache

/-- Retry bound of the write-back loop (source line 50). -/
def PREFETCH_MAX_ATTEMPTS : Int := 10

/-- Value of `EINTR` in `errno.h`. -/
def EINTR : Int := 4

inductive PrefetchState where
  | kOn
  | kHold
  | kCanceled
  deriving DecidableEq, Repr

/-- Modelled from the spec: class `Block` is declared in `XrdFileCacheFile.hh`, which is
not among the sources.  Attributes as in section 3 of the specification: absolute
offset, buffer (with the length asked at construction), download flag, error flag and
code, prefetch-origin flag, reference count. -/
structure Block where
  m_offset : Int
  m_size : Int
  m_buff : List Nat
  m_prefetch : Bool
  m_refcnt : Int
  m_downloaded : Bool
  m_failed : Bool
  m_errno : Int
  deriving DecidableEq, Repr

/-- Modelled from the spec: `is_ok()` reports the successful terminal outcome. -/
def Block.is_ok (b : Block) : Bool := b.m_downloaded

/-- Modelled from the spec: `is_failed()` reports the failed terminal outcome. -/
def Block.is_failed (b : Block) : Bool := b.m_failed

/-- Modelled from the spec: `is_finished()` is true once the block is either downloaded
successfully or marked failed. -/
def Block.is_finished (b : Block) : Bool := b.m_downloaded || b.m_failed

/-- Modelled from the spec: `set_error_and_free(errno)` marks terminal failure and
records the error code (the buffer is given up). -/
def Block.set_error_and_free (b : Block) (err : Int) : Block :=
  { b with m_failed := true, m_errno := err, m_buff := [] }

/-- Modelled from the spec: the constructor `Block(file, off, size, prefetch)`; a new
block is unfinished and has reference count 0 (comment at source line 321). -/
def Block.new (off size : Int) (pf : Bool) : Block :=
  { m_offset := off, m_size := size, m_buff := [], m_prefetch := pf, m_refcnt := 0,
    m_downloaded := false, m_failed := false, m_errno := 0 }

/-- The block map `std::map<int, Block*>`, kept in key order. -/
abbrev BlockMap := List (Int × Block)

/-- The lookup `m_block_map.find(i)`. -/
def BlockMap.find (m : BlockMap) (i : Int) : Option Block :=
  match m with
  | [] => none
  | (k, v) :: t => if i = k then some v else BlockMap.find t i

/-- The removal `m_block_map.erase(i)`. -/
def BlockMap.erase (m : BlockMap) (i : Int) : BlockMap :=
  match m with
  | [] => []
  | (k, v) :: t => if k = i then BlockMap.erase t i else (k, v) :: BlockMap.erase t i

/-- The assignment `m_block_map[i] = b`. -/
def BlockMap.insert (m : BlockMap) (i : Int) (b : Block) : BlockMap :=
  match m with
  | [] => [(i, b)]
  | (k, v) :: t =>
    if i < k then (i, b) :: (k, v) :: t
    else if i = k then (i, b) :: t
    else (k, v) :: BlockMap.insert t i b

/-- In-place update of the block a pointer refers to. -/
def BlockMap.modify (m : BlockMap) (i : Int) (f : Block → Block) : BlockMap :=
  match m with
  | [] => []
  | (k, v) :: t =>
    if k = i then (k, f v) :: BlockMap.modify t i f else (k, v) :: BlockMap.modify t i f

/-- The local data file: the bytes written so far, latest first. -/
abbrev Disk := List (Int × Nat)

/-- Byte of the data file at a position, if one was written there. -/
def Disk.byteAt (d : Disk) (pos : Int) : Option Nat :=
  match d with
  | [] => none
  | (p, v) :: t => if pos = p then some v else Disk.byteAt t pos

/-- Positioned write of the storage backend: the bytes land at `pos, pos+1, ...`. -/
def Disk.write (d : Disk) (pos : Int) (bytes : List Nat) : Disk :=
  match bytes with
  | [] => d
  | x :: xs => (pos, x) :: Disk.write d (pos + 1) xs

/-- Positioned read of the storage backend, `n` bytes from `pos`. -/
def Disk.read (d : Disk) (pos : Int) (n : Nat) : List (Option Nat) :=
  match n with
  | 0 => []
  | k + 1 => d.byteAt pos :: Disk.read d (pos + 1) k

/-- State of one `File` together with what it has asked of its collaborators. -/
structure File where
  /-- The configured block size, `m_cfi.GetBufferSize()`. -/
  BS : Int
  /-- The number of bitmap bits, `m_cfi.GetSizeInBits()`. -/
  sizeInBits : Int
  m_offset : Int
  m_fileSize : Int
  /-- The configuration value `m_prefetch_max_blocks`. -/
  m_prefetch_max_blocks : Nat
  m_block_map : BlockMap
  /-- Indices whose fetched bit is set in `m_cfi`. -/
  m_fetched : List Int
  /-- Indices whose write-called bit is set in `m_cfi`. -/
  m_writeCalled : List Int
  /-- Indices whose prefetch bit is set in `m_cfi`. -/
  m_prefetchBits : List Int
  m_disk : Disk
  m_writes_during_sync : List Int
  m_in_sync : Bool
  m_non_flushed_cnt : Int
  m_prefetchState : PrefetchState
  m_prefetchReadCnt : Int
  m_prefetchHitCnt : Int
  m_prefetchCurrentCnt : Int
  m_stopping : Bool
  /-- The `errno` of the thread that calls `Read`. -/
  m_errno : Int
  /-- Set when `assert(b->m_refcnt >= 0)` (source line 779) is violated. -/
  a_refcnt : Bool
  /-- Set when the assertion on the fetched bit (source line 703) is violated. -/
  a_fetched : Bool
  /-- Set when `assert(iUserSize >= bytes_read)` (source line 644) is violated. -/
  a_read : Bool
  /-- Asynchronous reads issued to the transport: block index, offset, length, prefetch. -/
  m_fetches : List (Int × Int × Int × Bool)
  /-- Whether the coordinator has the file in its prefetch-candidate set. -/
  c_registered : Bool
  c_registerCalls : Nat
  c_deregisterCalls : Nat
  /-- Number of RAM blocks the coordinator granted to this file. -/
  c_ramGranted : Nat
  /-- Number of `RAMBlockReleased` calls. -/
  c_ramReleased : Nat
  /-- Blocks handed over by `AddWriteTask` and not yet taken by a writer. -/
  c_writeQ : List Int
  /-- Number of times `m_syncer` was scheduled. -/
  c_syncScheduled : Nat
  deriving DecidableEq, Repr

/-- State after the constructor and a successful `Open()` of a file without cached
content: nothing in flight, no bit set, registered for prefetching (source lines 73-98
and 269). -/
def File.fresh (bs bits off size : Int) (maxBlocks : Nat) : File :=
  { BS := bs, sizeInBits := bits, m_offset := off, m_fileSize := size,
    m_prefetch_max_blocks := maxBlocks, m_block_map := [], m_fetched := [],
    m_writeCalled := [], m_prefetchBits := [], m_disk := [], m_writes_during_sync := [],
    m_in_sync := false, m_non_flushed_cnt := 0, m_prefetchState := PrefetchState.kOn,
    m_prefetchReadCnt := 0, m_prefetchHitCnt := 0, m_prefetchCurrentCnt := 0,
    m_stopping := false, m_errno := 0, a_refcnt := false, a_fetched := false,
    a_read := false, m_fetches := [],
    c_registered := true, c_registerCalls := 1, c_deregisterCalls := 0, c_ramGranted := 0,
    c_ramReleased := 0, c_writeQ := [], c_syncScheduled := 0 }

/-- The bitmap test `m_cfi.TestBit(i)`. -/
def File.TestBit (st : File) (i : Int) : Bool := decide (i ∈ st.m_fetched)

/-- The bitmap update `m_cfi.SetBitFetched(i)`. -/
def File.SetBitFetched (st : File) (i : Int) : File :=
  { st with m_fetched := if i ∈ st.m_fetched then st.m_fetched else i :: st.m_fetched }

/-- The bitmap update `m_cfi.SetBitWriteCalled(i)`. -/
def File.SetBitWriteCalled (st : File) (i : Int) : File :=
  { st with m_writeCalled :=
      if i ∈ st.m_writeCalled then st.m_writeCalled else i :: st.m_writeCalled }

/-- The coordinator call `cache()->RegisterPrefetchFile(this)`. -/
def File.RegisterPrefetchFile (st : File) : File :=
  { st with c_registered := true, c_registerCalls := st.c_registerCalls + 1 }

/-- The coordinator call `cache()->DeRegisterPrefetchFile(this)`. -/
def File.DeRegisterPrefetchFile (st : File) : File :=
  { st with c_registered := false, c_deregisterCalls := st.c_deregisterCalls + 1 }

/-- Source lines 864-867. -/
def File.offsetIdx (st : File) (iIdx : Int) : Int :=
  iIdx - Int.tdiv st.m_offset st.BS

/-- Source lines 282-311: `none` is the `false` result (outputs untouched), `some (off,
blk_off, size)` the `true` result with its three outputs. -/
def overlap (blk blk_size req_off req_size : Int) : Option (Int × Int × Int) :=
  let beg := blk * blk_size
  let blk_end := beg + blk_size
  let req_end := req_off + req_size
  if req_off < blk_end ∧ req_end > beg then
    let ovlp_beg := max beg req_off
    let ovlp_end := min blk_end req_end
    some (ovlp_beg - req_off, ovlp_beg - beg, ovlp_end - ovlp_beg)
  else
    none

/-- The three output variables after a call of `overlap` whose result the caller does
not test (source lines 366, 397, 597); they are read only for blocks of the request. -/
def overlapOut (blk blk_size req_off req_size : Int) : Int × Int × Int :=
  (overlap blk blk_size req_off req_size).getD (0, 0, 0)

/-- Source lines 766-771. -/
def File.inc_ref_count (st : File) (b : Int) : File :=
  { st with m_block_map := st.m_block_map.modify b (fun x => { x with m_refcnt := x.m_refcnt + 1 }) }

/-- Source lines 787-807; `b` is the pointer, the erased key is computed from the
block's offset as in the source.  `delete m_block_map[i]` creates the entry when there
is none, so `erase` always returns 1 and `RAMBlockReleased` is always called. -/
def File.free_block (st : File) (b : Int) : File :=
  match st.m_block_map.find b with
  | none => st
  | some blk =>
    let i := Int.tdiv blk.m_offset st.BS
    let st1 : File :=
      { st with m_block_map := st.m_block_map.erase i, c_ramReleased := st.c_ramReleased + 1 }
    if st1.m_prefetchState = PrefetchState.kHold ∧
        st1.m_block_map.length < st1.m_prefetch_max_blocks then
      { st1 with m_prefetchState := PrefetchState.kOn }.RegisterPrefetchFile
    else st1

/-- Source lines 775-785. -/
def File.dec_ref_count (st : File) (b : Int) : File :=
  match st.m_block_map.find b with
  | none => st
  | some blk =>
    let m1 := st.m_block_map.modify b (fun x => { x with m_refcnt := x.m_refcnt - 1 })
    let bad := st.a_refcnt || decide (blk.m_refcnt - 1 < 0)
    let st1 : File := { st with m_block_map := m1, a_refcnt := bad }
    if blk.m_refcnt - 1 = 0 ∧ blk.is_finished then st1.free_block b else st1

/-- Source lines 316-346.  `new` never yields a null pointer, so the result is the key
of the new block. -/
def File.RequestBlock (st : File) (i : Int) (pf : Bool) : File :=
  let BS := st.BS
  let last_block := st.sizeInBits - 1
  let off := i * BS
  let this_bs := if i = last_block then st.m_fileSize - off else BS
  let b := Block.new off this_bs pf
  let issued := st.m_fetches ++ [(i, off, this_bs, pf)]
  let st1 : File := { st with m_fetches := issued, m_block_map := st.m_block_map.insert i b }
  if st1.m_prefetchState = PrefetchState.kOn ∧
      st1.m_block_map.length > st1.m_prefetch_max_blocks then
    { st1 with m_prefetchState := PrefetchState.kHold }.DeRegisterPrefetchFile
  else st1

/-- Source lines 811-849; `err` is the value of `errno` of the completing thread when the
completion arrives.  `errno` is per thread: the field `m_errno` of the state is the
`errno` of the thread that calls `Read`, which line 840 does not touch. -/
def File.ProcessBlockResponse (st : File) (b : Int) (res err : Int) : File :=
  match st.m_block_map.find b with
  | none => st
  | some blk =>
    if res ≥ 0 then
      let m1 := st.m_block_map.modify b (fun x => { x with m_downloaded := true })
      let st1 : File := { st with m_block_map := m1 }
      if ¬ st.m_stopping then
        let st2 := st1.inc_ref_count b
        { st2 with c_writeQ := st2.c_writeQ ++ [b] }
      else if blk.m_prefetch ∧ blk.m_refcnt = 0 then st1.free_block b
      else st1
    else
      let m1 := st.m_block_map.modify b (fun x => x.set_error_and_free err)
      let st1 : File := { st with m_block_map := m1 }
      st1.inc_ref_count b

/-- Source lines 100-106. -/
def File.BlockRemovedFromWriteQ (st : File) (b : Int) : File :=
  st.dec_ref_count b

/-- Outcome of the retry loop of `WriteBlockToDisk`. -/
structure WriteLoopResult where
  /-- Whether the function left through the `return` at source line 694. -/
  abandoned : Bool
  disk : Disk
  buffer_remaining : Int
  /-- Number of calls of `m_output->Write`. -/
  calls : Nat
  deriving DecidableEq, Repr

/-- The data file after `m_output->Write(buff, pos, n)` returned `retval`: a positive
result means that many bytes, taken from `buff` on, are in the file from `pos` on. -/
def storageWrite (d : Disk) (data : List Nat) (buff pos retval : Int) : Disk :=
  if retval > 0 then d.write pos ((data.drop buff.toNat).take retval.toNat) else d

/-- The loop at source lines 678-696.  `write k` is what the `k`-th call (from 0) of
`m_output->Write` returns and the `errno` it leaves.  `buff` is the position of the
pointer `buff` in the block buffer, `buffer_offset` the variable of that name.  The
loop body runs at most `PREFETCH_MAX_ATTEMPTS + 1` times, which is the fuel
`WriteBlockToDisk` gives; fuel 0 is reached only after the `return`. -/
def writeLoop (write : Nat → Int × Int) (data : List Nat) (offset buffer_offset : Int) :
    Nat → Int → Int → Int → Disk → Nat → WriteLoopResult
  | 0, buffer_remaining, _, _, disk, calls =>
    { abandoned := true, disk := disk, buffer_remaining := buffer_remaining, calls := calls }
  | fuel + 1, buffer_remaining, buff, cnt, disk, calls =>
    if buffer_remaining > 0 then
      let r := write calls
      let retval := r.1
      let disk1 := storageWrite disk data buff (offset + buffer_offset) retval
      if retval ≠ -1 ∨ r.2 = EINTR then
        let buffer_remaining1 := buffer_remaining - retval
        let buff1 := buff + retval
        let cnt1 := cnt + 1
        if cnt1 > PREFETCH_MAX_ATTEMPTS then
          { abandoned := true, disk := disk1, buffer_remaining := buffer_remaining1,
            calls := calls + 1 }
        else
          writeLoop write data offset buffer_offset fuel buffer_remaining1 buff1 cnt1 disk1
            (calls + 1)
      else
        { abandoned := false, disk := disk1, buffer_remaining := buffer_remaining,
          calls := calls + 1 }
    else
      { abandoned := false, disk := disk, buffer_remaining := buffer_remaining, calls := calls }

/-- Source lines 670-696 on block `blk`: clipped length and retry loop. -/
def File.writeAttempt (st : File) (blk : Block) (write : Nat → Int × Int) : WriteLoopResult :=
  let offset := blk.m_offset - st.m_offset
  let size := if offset + st.BS > st.m_fileSize then st.m_fileSize - offset else st.BS
  writeLoop write blk.m_buff offset 0 (PREFETCH_MAX_ATTEMPTS + 1).toNat size 0 0 st.m_disk 0

/-- Source lines 713-739: the write is noted in the deferred list when a sync is in
progress, else the write-called bit is set and the counter may schedule a sync. -/
def File.noteWritten (st : File) (pfIdx : Int) : File :=
  if st.m_in_sync then
    { st with m_writes_during_sync := st.m_writes_during_sync ++ [pfIdx] }
  else
    let st3 := st.SetBitWriteCalled pfIdx
    let st4 : File := { st3 with m_non_flushed_cnt := st3.m_non_flushed_cnt + 1 }
    if st4.m_non_flushed_cnt ≥ 100 then
      { st4 with m_in_sync := true, m_non_flushed_cnt := 0,
                 c_syncScheduled := st4.c_syncScheduled + 1 }
    else st4

/-- Source lines 700-705: the assertion on the fetched bit and `SetBitFetched`. -/
def File.markFetched (st : File) (pfIdx : Int) : File :=
  ({ st with a_fetched := st.a_fetched || st.TestBit pfIdx } : File).SetBitFetched pfIdx

/-- Source lines 668-740. -/
def File.WriteBlockToDisk (st : File) (b : Int) (write : Nat → Int × Int) : File :=
  match st.m_block_map.find b with
  | none => st
  | some blk =>
    let r := st.writeAttempt blk write
    let st0 : File := { st with m_disk := r.disk }
    if r.abandoned then st0
    else
      let pfIdx := Int.tdiv (blk.m_offset - st.m_offset) st.BS
      ((st0.markFetched pfIdx).dec_ref_count b).noteWritten pfIdx

/-- Source lines 744-762 (the flushes leave the modelled state alone). -/
def File.Sync (st : File) : File :=
  let st1 := st.m_writes_during_sync.foldl (fun s i => s.SetBitWriteCalled (s.offsetIdx i)) st
  { st1 with m_non_flushed_cnt := (st1.m_writes_during_sync.length : Int),
             m_writes_during_sync := [], m_in_sync := false }

/-- The purge loop at source lines 171-181 over the entries the iterator meets. -/
def File.purgeFailed (st : File) (keys : List Int) : File :=
  keys.foldl (fun s k =>
    match s.m_block_map.find k with
    | some blk => if blk.is_failed ∧ blk.m_refcnt = 1 then s.free_block k else s
    | none => s) st

/-- Source lines 148-154: the first call cancels prefetching, deregisters the file and
sets the stopping flag. -/
def File.markStopping (st : File) : File :=
  if ¬ st.m_stopping then
    { ({ st with m_prefetchState := PrefetchState.kCanceled } : File).DeRegisterPrefetchFile
      with m_stopping := true }
  else st

/-- Source lines 143-199; the result is the new state and the returned flag. -/
def File.InitiateClose (st : File) : File × Bool :=
  let st1 := st.markStopping
  let isPrefetching := decide (st1.m_prefetchCurrentCnt > 0)
  if isPrefetching = false then
    let st2 := st1.purgeFailed (st1.m_block_map.map Prod.fst)
    let blockMapEmpty := st2.m_block_map.isEmpty
    if blockMapEmpty ∧ st2.m_in_sync = false then (st2, false) else (st2, true)
  else (st1, true)

/-- Source lines 960-966. -/
def File.MarkPrefetch (st : File) : File :=
  { st with m_prefetchCurrentCnt := st.m_prefetchCurrentCnt + 1 }

/-- Source lines 969-974. -/
def File.UnMarkPrefetch (st : File) : File :=
  { st with m_prefetchCurrentCnt := st.m_prefetchCurrentCnt - 1 }

/-- The scan at source lines 899-916: the block index taken, if any.  The loop variable
`f` is shifted by `m_offset/BS` inside the body as in the source.  With a base offset
that is not negative `f` grows in every round, so `sizeInBits` rounds are enough. -/
def File.prefetchScan (st : File) : Nat → Int → Option Int
  | 0, _ => none
  | fuel + 1, f =>
    if f < st.sizeInBits then
      if ¬ st.TestBit f then
        let f1 := f + Int.tdiv st.m_offset st.BS
        match st.m_block_map.find f1 with
        | none => some f1
        | some _ => File.prefetchScan st fuel (f1 + 1)
      else File.prefetchScan st fuel (f + 1)
    else none

/-- The coordinator call `cache()->RequestRAMBlock()` with its answer. -/
def File.RequestRAMBlock (st : File) (granted : Bool) : File :=
  if granted then { st with c_ramGranted := st.c_ramGranted + 1 } else st

/-- Source line 910 (the score, a `float`, is left out). -/
def File.countPrefetchRead (st : File) : File :=
  { st with m_prefetchReadCnt := st.m_prefetchReadCnt + 1 }

/-- Source lines 889-930; `granted` is the answer of `RequestRAMBlock`, which the
source does not look at. -/
def File.Prefetch (st : File) (granted : Bool) : File :=
  let st1 :=
    if st.m_prefetchState = PrefetchState.kOn then
      match st.prefetchScan st.sizeInBits.toNat 0 with
      | some f => ((st.RequestRAMBlock granted).RequestBlock f true).countPrefetchRead
      | none => st.DeRegisterPrefetchFile
    else st
  st1.UnMarkPrefetch

/-- Source lines 934-942. -/
def File.CheckPrefetchStatRAM (st : File) (blk : Block) : File :=
  if st.m_prefetch_max_blocks ≠ 0 ∧ blk.m_prefetch then
    { st with m_prefetchHitCnt := st.m_prefetchHitCnt + 1 }
  else st

/-- Source lines 945-951. -/
def File.CheckPrefetchStatDisk (st : File) (idx : Int) : File :=
  if st.m_prefetch_max_blocks ≠ 0 ∧ st.offsetIdx idx ∈ st.m_prefetchBits then
    { st with m_prefetchHitCnt := st.m_prefetchHitCnt + 1 }
  else st

/-- What another thread does to the file while a `Read` has given up the download lock,
and the steps of the file's life between reads.  The transport completes every fetch
once, and a write task is run or dropped once, so a completion acts only on a block
that is in flight and a write-back only on a block waiting in the write queue. -/
inductive Event where
  /-- The transport fills the buffer with `data` and calls `BlockResponseHandler::Done`. -/
  | response (b : Int) (res err : Int) (data : List Nat)
  /-- A writer takes the block from the write queue and calls `WriteBlockToDisk`. -/
  | writeBack (b : Int) (write : Nat → Int × Int)
  /-- The coordinator drops the write task and calls `BlockRemovedFromWriteQ`. -/
  | removedFromWriteQ (b : Int)
  /-- The scheduler marks the file and calls `Prefetch`. -/
  | prefetchCall (granted : Bool)
  /-- The scheduled `DiskSyncer` job runs `Sync`. -/
  | sync
  /-- The owner calls `InitiateClose`. -/
  | initiateClose

/-- Whether the block is in the map and its fetch has not completed yet. -/
def File.inFlight (st : File) (b : Int) : Bool :=
  match st.m_block_map.find b with
  | some blk => ! blk.is_finished
  | none => false

/-- The transport writes the bytes it received into the buffer of the block. -/
def File.fillBuffer (st : File) (b : Int) (data : List Nat) : File :=
  { st with m_block_map := st.m_block_map.modify b (fun x => { x with m_buff := data }) }

/-- The completion of the fetch of block `b`, if that fetch is in flight. -/
def File.deliver (st : File) (b res err : Int) (data : List Nat) : File :=
  if st.inFlight b then (st.fillBuffer b data).ProcessBlockResponse b res err else st

/-- A write task leaves the write queue of the coordinator. -/
def File.takeWrite (st : File) (b : Int) : File :=
  { st with c_writeQ := st.c_writeQ.erase b }

/-- A writer runs the write task of block `b`, if there is one. -/
def File.runWriteTask (st : File) (b : Int) (write : Nat → Int × Int) : File :=
  if b ∈ st.c_writeQ then (st.takeWrite b).WriteBlockToDisk b write else st

/-- The coordinator drops the write task of block `b`, if there is one. -/
def File.dropWriteTask (st : File) (b : Int) : File :=
  if b ∈ st.c_writeQ then (st.takeWrite b).BlockRemovedFromWriteQ b else st

/-- The state after one event. -/
def File.applyEvent (st : File) : Event → File
  | Event.response b res err data => st.deliver b res err data
  | Event.writeBack b write => st.runWriteTask b write
  | Event.removedFromWriteQ b => st.dropWriteTask b
  | Event.prefetchCall granted => st.MarkPrefetch.Prefetch granted
  | Event.sync => st.Sync
  | Event.initiateClose => st.InitiateClose.1

/-- The state after a list of events. -/
def File.applyEvents (st : File) (es : List Event) : File :=
  es.foldl File.applyEvent st

/-- The completion aggregator of the pass-through reads (`DirectResponseHandler`);
`signals` counts the calls of `m_cond.Signal()`. -/
structure DirectResponseHandler where
  m_to_wait : Int
  m_errno : Int
  signals : Nat
  deriving DecidableEq, Repr

/-- The constructor `DirectResponseHandler(to_wait)`. -/
def DirectResponseHandler.new (to_wait : Int) : DirectResponseHandler :=
  { m_to_wait := to_wait, m_errno := 0, signals := 0 }

/-- Source lines 991-1007; `err` is `errno` at the time of the call. -/
def DirectResponseHandler.Done (h : DirectResponseHandler) (res err : Int) :
    DirectResponseHandler :=
  let h1 : DirectResponseHandler := { h with m_to_wait := h.m_to_wait - 1 }
  let h2 : DirectResponseHandler := if res < 0 then { h1 with m_errno := err } else h1
  if h2.m_to_wait = 0 then { h2 with signals := h2.signals + 1 } else h2

/-- The four lists `Read` sorts the blocks of a request into. -/
structure ReadLists where
  blks_to_process : List Int
  blks_on_disk : List Int
  blks_direct : List Int
  deriving DecidableEq, Repr

/-- The loop at source lines 449-498 over `n` block indices from `block_idx` on;
`grant i` is the answer of `HaveFreeWritingSlots() && RequestRAMBlock()` for block `i`. -/
def File.classify (grant : Int → Bool) : Nat → Int → File → ReadLists → File × ReadLists
  | 0, _, st, l => (st, l)
  | n + 1, block_idx, st, l =>
    match st.m_block_map.find block_idx with
    | some _ =>
      File.classify grant n (block_idx + 1) (st.inc_ref_count block_idx)
        { l with blks_to_process := block_idx :: l.blks_to_process }
    | none =>
      if st.TestBit (st.offsetIdx block_idx) then
        File.classify grant n (block_idx + 1) st
          { l with blks_on_disk := l.blks_on_disk ++ [block_idx] }
      else if grant block_idx then
        let st1 := (st.RequestRAMBlock true).RequestBlock block_idx false
        File.classify grant n (block_idx + 1) (st1.inc_ref_count block_idx)
          { l with blks_to_process := l.blks_to_process ++ [block_idx] }
      else
        File.classify grant n (block_idx + 1) st
          { l with blks_direct := l.blks_direct ++ [block_idx] }

/-- Source lines 350-375: the returned total and the sub-reads sent to the transport
(offset in the user buffer, remote offset, length). -/
def File.RequestBlocksDirect (st : File) (blocks : List Int) (req_off req_size : Int) :
    Int × List (Int × Int × Int) :=
  blocks.foldl (fun acc ii =>
    let o := overlapOut ii st.BS req_off req_size
    (acc.1 + o.2.2, acc.2 ++ [(o.1, ii * st.BS + o.2.1, o.2.2)])) (0, [])

/-- A copy into the user buffer: offset there and the bytes. -/
abbrev Copies := List (Int × List (Option Nat))

/-- Source lines 379-421; `diskRead pos size` is what `m_output->Read` returns for that
position and size.  Result: state (prefetch hits), return value, bytes delivered. -/
def File.ReadBlocksFromDisk (diskRead : Int → Int → Int) (req_off req_size : Int) :
    List Int → File → Int → Copies → File × Int × Copies
  | [], st, total, cp => (st, total, cp)
  | ii :: rest, st, total, cp =>
    let o := overlapOut ii st.BS req_off req_size
    let pos := ii * st.BS + o.2.1 - st.m_offset
    let rs := diskRead pos o.2.2
    let cp1 := cp ++ [(o.1, st.m_disk.read pos rs.toNat)]
    if rs < 0 then (st, rs, cp)
    else if rs ≠ o.2.2 then (st, -1, cp1)
    else
      File.ReadBlocksFromDisk diskRead req_off req_size rest (st.CheckPrefetchStatDisk ii)
        (total + rs) cp1

/-- Whether the pointer refers to a block of the map for which `is_finished()` holds. -/
def File.finished (st : File) (b : Int) : Bool :=
  match st.m_block_map.find b with
  | some blk => blk.is_finished
  | none => false

/-- The loop over `finished` at source lines 587-613: state (prefetch hits, `errno`),
`bytes_read` and the bytes copied.  A failed block ends the loop. -/
def File.processFinished (iUserOff iUserSize : Int) :
    List Int → File → Int → Copies → File × Int × Copies
  | [], st, bytes_read, cp => (st, bytes_read, cp)
  | b :: rest, st, bytes_read, cp =>
    match st.m_block_map.find b with
    | none => File.processFinished iUserOff iUserSize rest st bytes_read cp
    | some blk =>
      if blk.is_ok then
        let o := overlapOut (Int.tdiv blk.m_offset st.BS) st.BS iUserOff iUserSize
        let bytes := ((blk.m_buff.drop o.2.1.toNat).take o.2.2.toNat).map some
        File.processFinished iUserOff iUserSize rest (st.CheckPrefetchStatRAM blk)
          (bytes_read + o.2.2) (cp ++ [(o.1, bytes)])
      else
        ({ st with m_errno := blk.m_errno }, -1, cp)

/-- What the loop at source lines 548-617 hands on. -/
structure WaitResult where
  st : File
  blks_to_process : List Int
  blks_processed : List Int
  bytes_read : Int
  copies : Copies

/-- The loop at source lines 548-617.  `waits` lists what the other threads do during
each `m_downloadCond.Wait()`; when the thread waits and nothing more happens the call
never returns, which is the result `none`.  Each round either waits or takes a block
off `blks_to_process`, so `waits.length + blks_to_process.length + 1` rounds of fuel
are never used up. -/
def File.waitLoop (iUserOff iUserSize : Int) :
    Nat → List (List Event) → File → List Int → List Int → Int → Copies → Option WaitResult
  | 0, _, _, _, _, _, _ => none
  | fuel + 1, waits, st, blks_to_process, blks_processed, bytes_read, cp =>
    if blks_to_process ≠ [] ∧ bytes_read ≥ 0 then
      let finished := blks_to_process.filter (fun b => st.finished b)
      let remaining := blks_to_process.filter (fun b => ! st.finished b)
      if finished = [] then
        match waits with
        | [] => none
        | w :: ws =>
          File.waitLoop iUserOff iUserSize fuel ws (st.applyEvents w) blks_to_process
            blks_processed bytes_read cp
      else
        let r := st.processFinished iUserOff iUserSize finished bytes_read cp
        File.waitLoop iUserOff iUserSize fuel waits r.1 remaining (blks_processed ++ finished)
          r.2.1 r.2.2
    else
      some { st := st, blks_to_process := blks_to_process, blks_processed := blks_processed,
             bytes_read := bytes_read, copies := cp }

/-- The loops `for (...) dec_ref_count(*i)` at source lines 503, 522 and 655. -/
def File.releaseAll (st : File) (bs : List Int) : File :=
  bs.foldl File.dec_ref_count st

/-- What the collaborators and the other threads do during one `Read`. -/
structure ReadEnv where
  /-- Answer of `HaveFreeWritingSlots() && RequestRAMBlock()` for a block index. -/
  grant : Int → Bool
  /-- Result of `m_output->Read` for a position and a size. -/
  diskRead : Int → Int → Int
  /-- Events after the classification and before the first look at the blocks. -/
  pre : List Event
  /-- Events during each wait on the download condition. -/
  waits : List (List Event)
  /-- Result and `errno` of each completion of a pass-through sub-read. -/
  directDone : List (Int × Int)
  /-- Events while the call waits for the pass-through reads. -/
  post : List Event

/-- Everything observable of one `Read`. -/
structure ReadResult where
  st : File
  /-- The returned value. -/
  ret : Int
  /-- The lists at the end of the classification. -/
  lists : ReadLists
  /-- The pointers given to `dec_ref_count` by the call, in order. -/
  released : List Int
  /-- The pass-through sub-reads sent. -/
  directReqs : List (Int × Int × Int)
  /-- The bytes copied into the user buffer from disk and from blocks. -/
  copies : Copies

/-- Source lines 443-498: the block range of the request and its classification. -/
def File.classifyRequest (st : File) (grant : Int → Bool) (iUserOff iUserSize : Int) :
    File × ReadLists :=
  let idx_first := Int.tdiv iUserOff st.BS
  let idx_last := Int.tdiv (iUserOff + iUserSize - 1) st.BS
  st.classify grant (idx_last - idx_first + 1).toNat idx_first
    { blks_to_process := [], blks_on_disk := [], blks_direct := [] }

/-- Source lines 515-519: the pass-through reads are sent if there are any. -/
def File.sendDirect (st : File) (blks_direct : List Int) (iUserOff iUserSize : Int) :
    Int × List (Int × Int × Int) :=
  if blks_direct ≠ [] then st.RequestBlocksDirect blks_direct iUserOff iUserSize else (0, [])

/-- Source lines 531-545: the blocks on disk are read if there are any; the second
component is `bytes_read` afterwards. -/
def File.readDisk (st : File) (diskRead : Int → Int → Int) (iUserOff iUserSize : Int)
    (blks_on_disk : List Int) : File × Int × Copies :=
  if blks_on_disk ≠ [] then
    File.ReadBlocksFromDisk diskRead iUserOff iUserSize blks_on_disk st 0 []
  else (st, 0, [])

/-- The aggregator after all the completions that arrive for `n` sub-reads. -/
def directHandler (n : Nat) (directDone : List (Int × Int)) : DirectResponseHandler :=
  directDone.foldl (fun h r => h.Done r.1 r.2) (DirectResponseHandler.new n)

/-- Source lines 622-643: `bytes_read` after the pass-through reads were waited for. -/
def readTotal (hasDirect : Bool) (bytes_read : Int) (h : DirectResponseHandler)
    (direct_size : Int) : Int :=
  if hasDirect ∧ bytes_read ≥ 0 then
    if h.m_errno = 0 then bytes_read + direct_size else -1
  else bytes_read

/-- Source lines 622-643: `errno` after the pass-through reads were waited for. -/
def readErrno (hasDirect : Bool) (bytes_read : Int) (h : DirectResponseHandler)
    (errno : Int) : Int :=
  if hasDirect ∧ bytes_read ≥ 0 ∧ h.m_errno ≠ 0 then h.m_errno else errno

/-- Source lines 644-663: the assertion, then every block of `blks_processed` (with the
rest of `blks_to_process` appended) is released. -/
def File.finishRead (st : File) (l : ReadLists) (w : WaitResult) (h : DirectResponseHandler)
    (d : Int × List (Int × Int × Int)) (iUserSize : Int) : ReadResult :=
  let hasDirect := decide (l.blks_direct ≠ [])
  let bytes_read := readTotal hasDirect w.bytes_read h d.1
  let st4 : File :=
    { st with m_errno := readErrno hasDirect w.bytes_read h st.m_errno,
              a_read := st.a_read || decide (¬ (iUserSize ≥ bytes_read)) }
  let blks_processed := w.blks_processed ++ w.blks_to_process
  { st := st4.releaseAll blks_processed, ret := bytes_read, lists := l,
    released := blks_processed, directReqs := d.2, copies := w.copies }

/-- Source lines 521-526: the exit taken when sending the pass-through reads failed. -/
def File.abortRead (st : File) (l : ReadLists) (d : Int × List (Int × Int × Int)) :
    ReadResult :=
  { st := st.releaseAll l.blks_to_process, ret := -1, lists := l,
    released := l.blks_to_process, directReqs := d.2, copies := [] }

/-- Source lines 425-664.  `none`: the call never returns (it waits on a condition that
is not signalled any more).  `RequestBlock` cannot return a null pointer, so the exit at
lines 502-506 is not taken and is left out. -/
def File.Read (st : File) (env : ReadEnv) (iUserOff iUserSize : Int) : Option ReadResult :=
  let c := st.classifyRequest env.grant iUserOff iUserSize
  let l := c.2
  let d := c.1.sendDirect l.blks_direct iUserOff iUserSize
  if l.blks_direct ≠ [] ∧ d.1 < 0 then some (c.1.abortRead l d)
  else
    let rd := c.1.readDisk env.diskRead iUserOff iUserSize l.blks_on_disk
    let fuel := env.waits.length + l.blks_to_process.length + 1
    match (rd.1.applyEvents env.pre).waitLoop iUserOff iUserSize fuel env.waits
        l.blks_to_process [] rd.2.1 rd.2.2 with
    | none => none
    | some w =>
      let h := directHandler l.blks_direct.length env.directDone
      if l.blks_direct ≠ [] ∧ w.bytes_read ≥ 0 ∧ h.m_to_wait > 0 then none
      else some ((w.st.applyEvents env.post).finishRead l w h d iUserSize)

/-- Every block of the map sits under the index of its offset, and the block size is
positive: what `RequestBlock` establishes for the blocks it creates. -/
def File.WF (st : File) : Prop :=
  0 < st.BS ∧ ∀ k b, st.m_block_map.find k = some b → b.m_offset = k * st.BS

/-- End of the part of the request `[off, off+len)` that lies before block `j`. -/
def reqCut (BS off len j : Int) : Int := max off (min (j * BS) (off + len))

/-- Sum of `f` over the `n` indices from `i` on. -/
def rangeSum (f : Int → Int) : Int → Nat → Int
  | _, 0 => 0
  | i, n + 1 => f i + rangeSum f (i + 1) n

/-- Bytes of the request `[off, off+len)` that `overlap` assigns to the blocks of a list. -/
def sizeSum (BS off len : Int) (l : List Int) : Int :=
  (l.map (fun i => (overlapOut i BS off len).2.2)).sum

/-- Every block of the map has property `P`. -/
def File.AllBlocks (st : File) (P : Block → Prop) : Prop :=
  ∀ k b, st.m_block_map.find k = some b → P b

/-- The property is kept by the field updates the operations make on a block whose
fetch does not fail, and holds for a new block. -/
def Block.Stable (P : Block → Prop) : Prop :=
  (∀ x : Block, P x → P { x with m_refcnt := x.m_refcnt + 1 }) ∧
  (∀ x : Block, P x → P { x with m_refcnt := x.m_refcnt - 1 }) ∧
  (∀ x : Block, P x → P { x with m_downloaded := true }) ∧
  (∀ (x : Block) (d : List Nat), P x → P { x with m_buff := d }) ∧
  (∀ (o s : Int) (pf : Bool), P (Block.new o s pf))

/-- The event is the completion of a fetch with a negative result. -/
def Event.isFailure : Event → Bool
  | Event.response _ res _ _ => decide (res < 0)
  | _ => false

/-- The file of the scenarios: block size 4, size 10, three blocks, nothing cached. -/
def scenarioFile : File := File.fresh 4 3 0 10 10

/-- Both blocks of `Read(buf, 2, 5)` get RAM and their fetches succeed during the wait. -/
def scenarioFetchEnv : ReadEnv :=
  { grant := fun _ => true, diskRead := fun _ n => n, pre := [],
    waits := [[Event.response 0 4 0 [10, 11, 12, 13], Event.response 1 4 0 [14, 15, 16, 17]]],
    directDone := [], post := [] }

/-- The coordinator has no RAM block to give, and the one pass-through read succeeds. -/
def scenarioDirectEnv : ReadEnv :=
  { grant := fun _ => false, diskRead := fun _ n => n, pre := [], waits := [],
    directDone := [(4, 0)], post := [] }

/-- The reference counts account for their holders: a failed block keeps one reference,
every write task in the queue holds one, and so does every entry of `H`, the blocks a
running `Read` has taken; a block with a holder is in the map; the assertion of
`dec_ref_count` has not failed. -/
def File.RefInv (st : File) (H : List Int) : Prop :=
  st.a_refcnt = false ∧
  (∀ k b, st.m_block_map.find k = some b →
    (if b.m_failed then 1 else 0) + (st.c_writeQ.count k : Int) + (H.count k : Int)
      ≤ b.m_refcnt) ∧
  (∀ k, st.m_block_map.find k = none → st.c_writeQ.count k = 0 ∧ H.count k = 0)

/-- The states a file goes through: it is opened, other threads act on it (each fetch
completes once, each write task is run or dropped once), and reads run. -/
inductive File.Reachable : File → Prop where
  | fresh (bs bits off size : Int) (maxBlocks : Nat) (h : 0 < bs) :
      File.Reachable (File.fresh bs bits off size maxBlocks)
  | event (st : File) (e : Event) : File.Reachable st → File.Reachable (st.applyEvent e)
  | read (st : File) (env : ReadEnv) (off len : Int) (r : ReadResult) :
      File.Reachable st → st.Read env off len = some r → File.Reachable r.st

/-- Reference count of the block under key `k`, 0 when there is none. -/
def File.refcntOf (st : File) (k : Int) : Int :=
  match st.m_block_map.find k with
  | some b => b.m_refcnt
  | none => 0

/-- What a reading thread sees of block index `k` besides the map: its `errno` and the
fetches issued so far for `k`. -/
def File.view (st : File) (k : Int) : Int × List (Int × Int × Int × Bool) :=
  (st.m_errno, st.m_fetches.filter (fun f => decide (f.1 = k)))

/-- A file with block 0 on disk and block 1 in the map, failed with error code 7 and
holding the reference a failure leaves. -/
def failedBlockFile : File :=
  { scenarioFile with
    m_fetched := [0],
    m_block_map := [(1, { m_offset := 4, m_size := 4, m_buff := [], m_prefetch := false,
                          m_refcnt := 1, m_downloaded := false, m_failed := true,
                          m_errno := 7 })] }

/-- Disk reads succeed; nothing else happens. -/
def quietEnv : ReadEnv :=
  { grant := fun _ => true, diskRead := fun _ n => n, pre := [], waits := [],
    directDone := [], post := [] }

/-- The file of the scenarios after a prefetch of block 0 whose fetch failed with error
code 5: block 0 is in the map, failed, with the reference its failure left. -/
def failedPrefetchFile : File :=
  (scenarioFile.applyEvent (Event.prefetchCall true)).applyEvent (Event.response 0 (-1) 5 [])

/-- The file of the scenarios with block 0 downloaded (bytes 10, 11, 12, 13) and handed
to the write queue: the state after a prefetch of block 0 and the completion of its
fetch. -/
def downloadedFile : File :=
  (scenarioFile.applyEvent (Event.prefetchCall true)).applyEvent
    (Event.response 0 4 0 [10, 11, 12, 13])

/-- The storage write fails at once with `EIO` (5), an error that is not retried. -/
def writeFailsHard : Nat → Int × Int := fun _ => (-1, 5)

/-- The storage write is interrupted (`EINTR`) at every attempt. -/
def writeAlwaysInterrupted : Nat → Int × Int := fun _ => (-1, EINTR)

/-- The storage write is short: two bytes at each of the two calls. -/
def writeInTwoHalves : Nat → Int × Int := fun _ => (2, 0)

/-- The storage write takes all the bytes at the first call. -/
def writeComplete : Nat → Int × Int := fun _ => (4, 0)

/-- A file with base offset 4 (block size 4, size 10) while a sync is in progress; its
block at absolute offset 8, which is bitmap index 1, is downloaded and waits in the write
queue. -/
def offsetFileInSync : File :=
  { File.fresh 4 3 4 10 10 with
    m_in_sync := true,
    c_writeQ := [2],
    m_block_map := [(2, { m_offset := 8, m_size := 4, m_buff := [20, 21, 22, 23],
                          m_prefetch := false, m_refcnt := 1, m_downloaded := true,
                          m_failed := false, m_errno := 0 })] }

/-- During `Read(buf, 0, 8)` the fetch of block 0 fails with error code 5; the fetch of
block 1 is still in flight when the call returns. -/
def firstFetchFailsEnv : ReadEnv :=
  { grant := fun _ => true, diskRead := fun _ n => n, pre := [],
    waits := [[Event.response 0 (-1) 5 []]], directDone := [], post := [] }

/-- The state after that read, if it returns, else the file of the scenarios. -/
def afterFailedRead : File :=
  match scenarioFile.Read firstFetchFailsEnv 0 8 with
  | some r => r.st
  | none => scenarioFile

/-- Then the file is closed, and afterwards the fetch of block 1 completes. -/
def closedThenCompleted : File :=
  (afterFailedRead.applyEvent Event.initiateClose).applyEvent
    (Event.response 1 4 0 [14, 15, 16, 17])

/-- The file of the scenarios after one prefetch call: block 0 is in the map, its fetch
in flight. -/
def prefetchingFile : File := scenarioFile.applyEvent (Event.prefetchCall true)

/-- What the sync bookkeeping consists of: the in-sync flag, the counter of writes not
yet flushed and the number of times the sync job was scheduled. -/
def File.syncView (st : File) : Bool × Int × Nat :=
  (st.m_in_sync, st.m_non_flushed_cnt, st.c_syncScheduled)

/-- Whether the event is a write-back that runs `WriteBlockToDisk` to its end: the block
has a write task, is in the map, and the retry loop does not give up. -/
def File.writesBack (st : File) : Event → Bool
  | Event.writeBack b write =>
    decide (b ∈ st.c_writeQ) &&
      (match st.m_block_map.find b with
       | some blk => ! (st.writeAttempt blk write).abandoned
       | none => false)
  | _ => false

/-- Number of write-backs of a run that run `WriteBlockToDisk` to its end. -/
def File.successfulWrites (st : File) : List Event → Nat
  | [] => 0
  | e :: es => (if st.writesBack e then 1 else 0) + File.successfulWrites (st.applyEvent e) es

/-- The event is a run of the sync job. -/
def Event.isSync : Event → Bool
  | Event.sync => true
  | _ => false

/-- The file with block 0 downloaded and queued for write-back when 99 writes are not yet
flushed. -/
def nearSyncFile : File := { downloadedFile with m_non_flushed_cnt := 99 }

/-- What prefetch admission consists of: the stopping flag, the prefetch state, the size
of the block map, the configured ceiling, and the registration with the coordinator
(whether the file is a prefetch candidate, and how often it was registered). -/
def File.adm (st : File) : Bool × PrefetchState × Nat × Nat × Bool × Nat :=
  (st.m_stopping, st.m_prefetchState, st.m_block_map.length, st.m_prefetch_max_blocks,
    st.c_registered, st.c_registerCalls)

/-- A property of the admission data that is kept by the steps that change them:
`free_block`, `RequestBlock`, the deregistration in `Prefetch` and the first part of
`InitiateClose`. -/
def File.AdmInv (I : File → Prop) : Prop :=
  (∀ s t : File, s.adm = t.adm → I s → I t) ∧
  (∀ (s : File) (b : Int), I s → I (s.free_block b)) ∧
  (∀ (s : File) (i : Int) (pf : Bool), I s → I (s.RequestBlock i pf)) ∧
  (∀ s : File, I s → s.m_prefetchState = PrefetchState.kOn → I s.DeRegisterPrefetchFile) ∧
  (∀ s : File, I s → I s.markStopping)

/-- The admission rule while the file is not stopping: the prefetch state is On or Hold;
in state On the block map is no larger than the ceiling; in state Hold the file is not a
prefetch candidate and the block map is no smaller than the ceiling. -/
def File.HoldInv (st : File) : Prop :=
  st.m_stopping = false →
    st.m_prefetchState ≠ PrefetchState.kCanceled ∧
    (st.m_prefetchState = PrefetchState.kOn →
      st.m_block_map.length ≤ st.m_prefetch_max_blocks) ∧
    (st.m_prefetchState = PrefetchState.kHold →
      st.c_registered = false ∧ st.m_prefetch_max_blocks ≤ st.m_block_map.length)

/-- A file with ceiling 1 after two prefetch calls: blocks 0 and 1 are in flight. -/
def heldFile : File :=
  ((File.fresh 4 3 0 10 1).applyEvent (Event.prefetchCall true)).applyEvent
    (Event.prefetchCall true)

/-- Then block 0 is downloaded and written back, and block 1 is downloaded: one block is
left in the map, with the reference of its write task. -/
def heldFileOneLeft : File :=
  heldFile.applyEvents [Event.response 0 4 0 [10, 11, 12, 13], Event.writeBack 0 writeComplete,
    Event.response 1 4 0 [14, 15, 16, 17]]

/-- The test of the purge loop of `InitiateClose` (source line 173) on the block under
key `k`: it is failed and its reference count is exactly 1. -/
def File.purgeable (st : File) (k : Int) : Bool :=
  match st.m_block_map.find k with
  | some blk => blk.is_failed && decide (blk.m_refcnt = 1)
  | none => false

/-- The result of `n + 1` calls of `InitiateClose` in a row: the state after them and the
flag the last one returns. -/
def File.InitiateCloseTimes (st : File) : Nat → File × Bool
  | 0 => st.InitiateClose
  | n + 1 => (File.InitiateCloseTimes st n).1.InitiateClose

/-- A file with base offset 8 (block size 4, three bitmap bits, nothing cached): bit `j`
of the bitmap stands for block `j + 2`.  One prefetch call has been made, so block 2 (bit
0) is in the map with its fetch in flight. -/
def offsetPrefetchingFile : File :=
  (File.fresh 4 3 8 10 10).applyEvent (Event.prefetchCall true)

/-- The file of the scenarios after a prefetch call for which the coordinator has no RAM
block to give. -/
def deniedPrefetchFile : File := scenarioFile.applyEvent (Event.prefetchCall false)

/-- A run in which blocks 0 to `n - 1` are, one after the other, prefetched, downloaded
and written back with a write that takes all the bytes at once. -/
def writeRun : Nat → List Event
  | 0 => []
  | n + 1 => writeRun n ++ [Event.prefetchCall true, Event.response n 4 0 [1, 2, 3, 4],
      Event.writeBack n writeComplete]

/-- The storage write takes no byte at each of the first ten calls and all four bytes at
the eleventh. -/
def writeCompleteAtEleventh : Nat → Int × Int := fun k => if k < 10 then (0, 0) else (4, 0)

/-- The storage write takes no byte at each of the first nine calls and all four bytes at
the tenth. -/
def writeCompleteAtTenth : Nat → Int × Int := fun k => if k < 9 then (0, 0) else (4, 0)

/-- The `errno` values captured at the failed completions (negative result) of a sequence
of completions, in order. -/
def failedErrnos (done : List (Int × Int)) : List Int :=
  (done.filter (fun r => decide (r.1 < 0))).map Prod.snd

/-- Source line 673: the number of bytes `WriteBlockToDisk` sets out to write for a
block, clipped at the end of the file. -/
def File.writeSize (st : File) (blk : Block) : Int :=
  let offset := blk.m_offset - st.m_offset
  if offset + st.BS > st.m_fileSize then st.m_fileSize - offset else st.BS

/-- The file of the scenarios with a request for block 2, the last one. -/
def lastBlockFile : File := scenarioFile.RequestBlock 2 false

/-- The bookkeeping of the write-called bits: the in-sync flag, the deferred-write list,
the counter of writes not yet flushed and the write-called bits. -/
def File.syncData (st : File) : Bool × List Int × Int × List Int :=
  (st.m_in_sync, st.m_writes_during_sync, st.m_non_flushed_cnt, st.m_writeCalled)

/-- A view of the state that `Read` itself leaves alone: nothing `Read` does under its own
name changes it, so during a `Read` it changes only through the steps of other threads. -/
def File.ReadFrame {α : Type} (g : File → α) : Prop :=
  (∀ (s : File) (b : Int), g (s.inc_ref_count b) = g s) ∧
  (∀ (s : File) (b : Int), g (s.dec_ref_count b) = g s) ∧
  (∀ (s : File) (i : Int), g ((s.RequestRAMBlock true).RequestBlock i false) = g s) ∧
  (∀ (s : File) (i : Int), g (s.CheckPrefetchStatDisk i) = g s) ∧
  (∀ (s : File) (blk : Block), g (s.CheckPrefetchStatRAM blk) = g s) ∧
  (∀ (s : File) (e : Int) (a : Bool), g { s with m_errno := e, a_read := a } = g s)

/-- The deferred-write list is non-empty only while the in-sync flag is set. -/
def File.Deferred (st : File) : Prop :=
  st.m_writes_during_sync ≠ [] → st.m_in_sync = true

/-- The file with block 0 downloaded and queued for write-back while a sync is in
progress. -/
def downloadedFileInSync : File := { downloadedFile with m_in_sync := true }

/-- What the fetched bits are read through: block size, base offset, the fetched bits
and the flag of the assertion on them. -/
def File.fetchData (st : File) : Int × Int × List Int × Bool :=
  (st.BS, st.m_offset, st.m_fetched, st.a_fetched)

/-- The discipline of the fetched bits: the assertion of `WriteBlockToDisk` has not
failed; no block has two write tasks; the fetched bit of a block with a write task is
unset; and a block whose fetch is in flight has its bit unset and no write task. -/
def File.FetchInv (st : File) : Prop :=
  st.a_fetched = false ∧
  st.c_writeQ.Nodup ∧
  (∀ k ∈ st.c_writeQ, st.TestBit (st.offsetIdx k) = false) ∧
  (∀ k blk, st.m_block_map.find k = some blk → blk.is_finished = false →
    st.TestBit (st.offsetIdx k) = false ∧ k ∉ st.c_writeQ)

/-- The second state arises from the first by steps that issue no fetch, make no write
task and set no fetched bit: write tasks may be gone, and blocks may be finished or
gone. -/
def File.Settles (s t : File) : Prop :=
  t.fetchData = s.fetchData ∧ List.Sublist t.c_writeQ s.c_writeQ ∧
  (∀ k blk1, t.m_block_map.find k = some blk1 → blk1.is_finished = false →
    ∃ blk, s.m_block_map.find k = some blk ∧ blk.is_finished = false)

/-! ## Lookup in the block map -/

theorem BlockMap.find_modify (m : BlockMap) (i k : Int) (f : Block → Block) :
    BlockMap.find (BlockMap.modify m i f) k
      = if k = i then (BlockMap.find m k).map f else BlockMap.find m k := by
  induction m with
  | nil => simp [BlockMap.modify, BlockMap.find]
  | cons e t ih =>
    obtain ⟨a, v⟩ := e
    unfold BlockMap.modify
    by_cases hai : a = i
    · rw [if_pos hai]; unfold BlockMap.find; rw [ih]
      by_cases hk : k = a
      · simp [hk, hai]
      · simp [hk]
    · rw [if_neg hai]; unfold BlockMap.find; rw [ih]
      by_cases hk : k = a
      · have : ¬ k = i := by omega
        simp [hk, hai]
      · simp [hk]

theorem BlockMap.find_erase (m : BlockMap) (i k : Int) :
    BlockMap.find (BlockMap.erase m i) k = if k = i then none else BlockMap.find m k := by
  induction m with
  | nil => simp [BlockMap.erase, BlockMap.find]
  | cons e t ih =>
    obtain ⟨a, v⟩ := e
    unfold BlockMap.erase
    by_cases hai : a = i
    · rw [if_pos hai, ih]
      by_cases hk : k = i
      · simp [hk]
      · have : ¬ k = a := by omega
        simp [BlockMap.find, hk, this]
    · rw [if_neg hai]; unfold BlockMap.find; rw [ih]
      by_cases hk : k = a
      · have : ¬ k = i := by omega
        simp [hk, hai]
      · simp [hk]

theorem BlockMap.find_insert (m : BlockMap) (i k : Int) (b : Block) :
    BlockMap.find (BlockMap.insert m i b) k = if k = i then some b else BlockMap.find m k := by
  induction m with
  | nil => simp [BlockMap.insert, BlockMap.find]
  | cons e t ih =>
    obtain ⟨a, v⟩ := e
    unfold BlockMap.insert
    by_cases h1 : i < a
    · rw [if_pos h1]; simp [BlockMap.find]
    · rw [if_neg h1]
      by_cases h2 : i = a
      · rw [if_pos h2]; subst h2
        by_cases hk : k = i <;> simp [BlockMap.find, hk]
      · rw [if_neg h2]; unfold BlockMap.find; rw [ih]
        by_cases hk : k = a
        · have : ¬ a = i := by omega
          simp [hk, this]
        · simp [hk]

/-! ## What each primitive does to the block map -/

theorem File.free_block_BS (st : File) (b : Int) : (st.free_block b).BS = st.BS := by
  unfold File.free_block File.RegisterPrefetchFile
  split
  · rfl
  · dsimp only; split_ifs <;> rfl

theorem File.free_block_map (st : File) (b : Int) :
    (st.free_block b).m_block_map =
      match st.m_block_map.find b with
      | none => st.m_block_map
      | some blk => st.m_block_map.erase (Int.tdiv blk.m_offset st.BS) := by
  unfold File.free_block File.RegisterPrefetchFile
  split
  · rfl
  · dsimp only; split_ifs <;> rfl

theorem File.RequestBlock_BS (st : File) (i : Int) (pf : Bool) :
    (st.RequestBlock i pf).BS = st.BS := by
  unfold File.RequestBlock File.DeRegisterPrefetchFile
  dsimp only; split_ifs <;> rfl

theorem File.RequestBlock_map (st : File) (i : Int) (pf : Bool) :
    (st.RequestBlock i pf).m_block_map =
      st.m_block_map.insert i (Block.new (i * st.BS)
        (if i = st.sizeInBits - 1 then st.m_fileSize - i * st.BS else st.BS) pf) := by
  unfold File.RequestBlock File.DeRegisterPrefetchFile
  dsimp only; split_ifs <;> rfl

theorem File.dec_ref_count_BS (st : File) (b : Int) : (st.dec_ref_count b).BS = st.BS := by
  unfold File.dec_ref_count
  split
  · rfl
  · dsimp only; split_ifs
    · rw [File.free_block_BS]
    · rfl

/-! ## The offset invariant is kept by every operation -/

theorem File.WF_of_map {st st1 : File} (h : st.WF) (hbs : st1.BS = st.BS)
    (hm : ∀ k b1, st1.m_block_map.find k = some b1 →
      b1.m_offset = k * st.BS ∨ ∃ b, st.m_block_map.find k = some b ∧ b1.m_offset = b.m_offset) :
    st1.WF := by
  refine ⟨by rw [hbs]; exact h.1, fun k b1 hk => ?_⟩
  rw [hbs]
  rcases hm k b1 hk with h1 | ⟨b, hb, hb1⟩
  · exact h1
  · rw [hb1]; exact h.2 k b hb

theorem BlockMap.find_modify_offset {m : BlockMap} {i k : Int} {f : Block → Block} {b1 : Block}
    (hk : BlockMap.find (BlockMap.modify m i f) k = some b1)
    (hf : ∀ x, (f x).m_offset = x.m_offset) :
    ∃ b, BlockMap.find m k = some b ∧ b1.m_offset = b.m_offset := by
  rw [BlockMap.find_modify] at hk
  split at hk
  · cases hfd : BlockMap.find m k with
    | none => simp [hfd] at hk
    | some x => simp [hfd] at hk; exact ⟨x, rfl, by rw [← hk, hf]⟩
  · exact ⟨b1, hk, rfl⟩

theorem File.WF_modify {st : File} (h : st.WF) (i : Int) (f : Block → Block)
    (hf : ∀ x, (f x).m_offset = x.m_offset) {st1 : File} (hbs : st1.BS = st.BS)
    (hm : st1.m_block_map = st.m_block_map.modify i f) : st1.WF :=
  File.WF_of_map h hbs fun _ _ hk => Or.inr (BlockMap.find_modify_offset (hm ▸ hk) hf)

theorem File.inc_ref_count_WF {st : File} (b : Int) (h : st.WF) : (st.inc_ref_count b).WF :=
  File.WF_modify h b (fun x => { x with m_refcnt := x.m_refcnt + 1 }) (fun _ => rfl) rfl rfl

theorem File.free_block_WF {st : File} (b : Int) (h : st.WF) : (st.free_block b).WF := by
  refine File.WF_of_map h (File.free_block_BS st b) fun k b1 hk => Or.inr ⟨b1, ?_, rfl⟩
  rw [File.free_block_map] at hk
  split at hk
  · exact hk
  · rw [BlockMap.find_erase] at hk
    split at hk
    · exact absurd hk (by simp)
    · exact hk

theorem File.dec_ref_count_WF {st : File} (b : Int) (h : st.WF) : (st.dec_ref_count b).WF := by
  unfold File.dec_ref_count
  split
  · exact h
  · rename_i blk _
    have h1 : ({ st with
        m_block_map := st.m_block_map.modify b (fun x => { x with m_refcnt := x.m_refcnt - 1 }),
        a_refcnt := st.a_refcnt || decide (blk.m_refcnt - 1 < 0) } : File).WF :=
      File.WF_modify h b (fun x => { x with m_refcnt := x.m_refcnt - 1 }) (fun _ => rfl) rfl rfl
    dsimp only
    split_ifs
    · exact File.free_block_WF b h1
    · exact h1

theorem File.RequestBlock_WF {st : File} (i : Int) (pf : Bool) (h : st.WF) :
    (st.RequestBlock i pf).WF := by
  refine File.WF_of_map h (File.RequestBlock_BS st i pf) fun k b1 hk => ?_
  rw [File.RequestBlock_map, BlockMap.find_insert] at hk
  split at hk
  · left
    rename_i hki
    simp only [Option.some.injEq] at hk
    rw [← hk, hki]; rfl
  · exact Or.inr ⟨b1, hk, rfl⟩

/-! ## Projections of the primitives -/

@[simp] theorem File.inc_ref_count_BS (st : File) (b : Int) :
    (st.inc_ref_count b).BS = st.BS := rfl

@[simp] theorem File.inc_ref_count_writeQ (st : File) (b : Int) :
    (st.inc_ref_count b).c_writeQ = st.c_writeQ := rfl

@[simp] theorem File.inc_ref_count_a_refcnt (st : File) (b : Int) :
    (st.inc_ref_count b).a_refcnt = st.a_refcnt := rfl

theorem File.inc_ref_count_map (st : File) (b : Int) :
    (st.inc_ref_count b).m_block_map
      = st.m_block_map.modify b (fun x => { x with m_refcnt := x.m_refcnt + 1 }) := rfl

@[simp] theorem File.free_block_writeQ (st : File) (b : Int) :
    (st.free_block b).c_writeQ = st.c_writeQ := by
  unfold File.free_block File.RegisterPrefetchFile
  split
  · rfl
  · dsimp only; split_ifs <;> rfl

@[simp] theorem File.free_block_a_refcnt (st : File) (b : Int) :
    (st.free_block b).a_refcnt = st.a_refcnt := by
  unfold File.free_block File.RegisterPrefetchFile
  split
  · rfl
  · dsimp only; split_ifs <;> rfl

theorem File.dec_ref_count_a_refcnt (st : File) (b : Int) :
    (st.dec_ref_count b).a_refcnt =
      (st.a_refcnt || match st.m_block_map.find b with
        | some blk => decide (blk.m_refcnt - 1 < 0)
        | none => false) := by
  unfold File.dec_ref_count
  cases h : st.m_block_map.find b with
  | none => simp
  | some blk =>
    dsimp only; split_ifs
    · rw [File.free_block_a_refcnt]
    · rfl

theorem File.dec_ref_count_map (st : File) (b : Int) :
    (st.dec_ref_count b).m_block_map =
      match st.m_block_map.find b with
      | none => st.m_block_map
      | some blk =>
        if blk.m_refcnt - 1 = 0 ∧ blk.is_finished then
          (st.m_block_map.modify b (fun x => { x with m_refcnt := x.m_refcnt - 1 })).erase
            (Int.tdiv blk.m_offset st.BS)
        else st.m_block_map.modify b (fun x => { x with m_refcnt := x.m_refcnt - 1 }) := by
  unfold File.dec_ref_count
  split
  · rfl
  · rename_i blk hb
    dsimp only; split_ifs
    · rw [File.free_block_map]
      simp [BlockMap.find_modify, hb]
    · rfl

@[simp] theorem File.RequestBlock_writeQ (st : File) (i : Int) (pf : Bool) :
    (st.RequestBlock i pf).c_writeQ = st.c_writeQ := by
  unfold File.RequestBlock File.DeRegisterPrefetchFile
  dsimp only; split_ifs <;> rfl

@[simp] theorem File.RequestBlock_a_refcnt (st : File) (i : Int) (pf : Bool) :
    (st.RequestBlock i pf).a_refcnt = st.a_refcnt := by
  unfold File.RequestBlock File.DeRegisterPrefetchFile
  dsimp only; split_ifs <;> rfl

@[simp] theorem File.ProcessBlockResponse_BS (st : File) (b res err : Int) :
    (st.ProcessBlockResponse b res err).BS = st.BS := by
  unfold File.ProcessBlockResponse
  split
  · rfl
  · dsimp only; split_ifs <;> first | rfl | rw [File.free_block_BS]

@[simp] theorem File.ProcessBlockResponse_a_refcnt (st : File) (b res err : Int) :
    (st.ProcessBlockResponse b res err).a_refcnt = st.a_refcnt := by
  unfold File.ProcessBlockResponse
  split
  · rfl
  · dsimp only; split_ifs <;> first | rfl | rw [File.free_block_a_refcnt]

theorem File.ProcessBlockResponse_writeQ (st : File) (b res err : Int) :
    (st.ProcessBlockResponse b res err).c_writeQ =
      if (st.m_block_map.find b).isSome ∧ res ≥ 0 ∧ ¬ st.m_stopping then st.c_writeQ ++ [b]
      else st.c_writeQ := by
  unfold File.ProcessBlockResponse
  split
  · rename_i h; simp [h]
  · rename_i blk h
    dsimp only; split_ifs <;> simp_all [File.inc_ref_count]

theorem File.ProcessBlockResponse_map (st : File) (b res err : Int) :
    (st.ProcessBlockResponse b res err).m_block_map =
      match st.m_block_map.find b with
      | none => st.m_block_map
      | some blk =>
        if res ≥ 0 then
          if ¬ st.m_stopping then
            (st.m_block_map.modify b (fun x => { x with m_downloaded := true })).modify b
              (fun x => { x with m_refcnt := x.m_refcnt + 1 })
          else if blk.m_prefetch ∧ blk.m_refcnt = 0 then
            (st.m_block_map.modify b (fun x => { x with m_downloaded := true })).erase
              (Int.tdiv blk.m_offset st.BS)
          else st.m_block_map.modify b (fun x => { x with m_downloaded := true })
        else
          (st.m_block_map.modify b (fun x => x.set_error_and_free err)).modify b
            (fun x => { x with m_refcnt := x.m_refcnt + 1 }) := by
  unfold File.ProcessBlockResponse
  split
  · rfl
  · rename_i blk hb
    dsimp only; split_ifs
    all_goals first
      | rfl
      | (rw [File.free_block_map]; simp [BlockMap.find_modify, hb])

theorem File.WF_congr (st : File) {st1 : File} (h : st.WF) (hbs : st1.BS = st.BS)
    (hm : st1.m_block_map = st.m_block_map) : st1.WF :=
  ⟨by rw [hbs]; exact h.1, by rw [hbs, hm]; exact h.2⟩

@[simp] theorem File.markFetched_BS (st : File) (i : Int) : (st.markFetched i).BS = st.BS := rfl

@[simp] theorem File.markFetched_map (st : File) (i : Int) :
    (st.markFetched i).m_block_map = st.m_block_map := rfl

@[simp] theorem File.markFetched_writeQ (st : File) (i : Int) :
    (st.markFetched i).c_writeQ = st.c_writeQ := rfl

@[simp] theorem File.markFetched_a_refcnt (st : File) (i : Int) :
    (st.markFetched i).a_refcnt = st.a_refcnt := rfl

@[simp] theorem File.noteWritten_BS (st : File) (i : Int) : (st.noteWritten i).BS = st.BS := by
  unfold File.noteWritten; dsimp only; split_ifs <;> rfl

@[simp] theorem File.noteWritten_map (st : File) (i : Int) :
    (st.noteWritten i).m_block_map = st.m_block_map := by
  unfold File.noteWritten; dsimp only; split_ifs <;> rfl

@[simp] theorem File.noteWritten_writeQ (st : File) (i : Int) :
    (st.noteWritten i).c_writeQ = st.c_writeQ := by
  unfold File.noteWritten; dsimp only; split_ifs <;> rfl

@[simp] theorem File.noteWritten_a_refcnt (st : File) (i : Int) :
    (st.noteWritten i).a_refcnt = st.a_refcnt := by
  unfold File.noteWritten; dsimp only; split_ifs <;> rfl

theorem File.ProcessBlockResponse_WF {st : File} (b res err : Int) (h : st.WF) :
    (st.ProcessBlockResponse b res err).WF := by
  unfold File.ProcessBlockResponse
  split
  · exact h
  · rename_i blk _
    dsimp only
    have hd : ({ st with m_block_map :=
        st.m_block_map.modify b (fun x => { x with m_downloaded := true }) } : File).WF :=
      File.WF_modify h b (fun x => { x with m_downloaded := true }) (fun _ => rfl) rfl rfl
    have he : ({ st with m_block_map :=
        st.m_block_map.modify b (fun x => x.set_error_and_free err) } : File).WF :=
      File.WF_modify h b (fun x => x.set_error_and_free err) (fun _ => rfl) rfl rfl
    have hi := File.inc_ref_count_WF b hd
    split_ifs
    all_goals first
      | exact hd
      | exact File.free_block_WF b hd
      | exact File.inc_ref_count_WF b he
      | exact ⟨hi.1, hi.2⟩

theorem File.WriteBlockToDisk_WF {st : File} (b : Int) (write : Nat → Int × Int) (h : st.WF) :
    (st.WriteBlockToDisk b write).WF := by
  unfold File.WriteBlockToDisk
  split
  · exact h
  · rename_i blk _
    dsimp only
    split_ifs
    · exact File.WF_congr st h rfl rfl
    · have h1 : (({ st with m_disk := (st.writeAttempt blk write).disk } : File).markFetched
          (Int.tdiv (blk.m_offset - st.m_offset) st.BS)).WF := File.WF_congr st h rfl rfl
      exact File.WF_congr _ (File.dec_ref_count_WF b h1) (by simp) (by simp)

theorem File.Sync_BS (st : File) : st.Sync.BS = st.BS := by
  unfold File.Sync
  dsimp only
  generalize st.m_writes_during_sync = l
  induction l generalizing st with
  | nil => rfl
  | cons x t ih => exact ih (st.SetBitWriteCalled (st.offsetIdx x))

theorem File.Sync_map (st : File) : st.Sync.m_block_map = st.m_block_map := by
  unfold File.Sync
  dsimp only
  generalize st.m_writes_during_sync = l
  induction l generalizing st with
  | nil => rfl
  | cons x t ih => exact ih (st.SetBitWriteCalled (st.offsetIdx x))

theorem File.Sync_writeQ (st : File) : st.Sync.c_writeQ = st.c_writeQ := by
  unfold File.Sync
  dsimp only
  generalize st.m_writes_during_sync = l
  induction l generalizing st with
  | nil => rfl
  | cons x t ih => exact ih (st.SetBitWriteCalled (st.offsetIdx x))

theorem File.Sync_a_refcnt (st : File) : st.Sync.a_refcnt = st.a_refcnt := by
  unfold File.Sync
  dsimp only
  generalize st.m_writes_during_sync = l
  induction l generalizing st with
  | nil => rfl
  | cons x t ih => exact ih (st.SetBitWriteCalled (st.offsetIdx x))

theorem File.Sync_WF {st : File} (h : st.WF) : st.Sync.WF :=
  File.WF_congr st h st.Sync_BS st.Sync_map

theorem File.purgeFailed_WF {st : File} (keys : List Int) (h : st.WF) :
    (st.purgeFailed keys).WF := by
  unfold File.purgeFailed
  induction keys generalizing st with
  | nil => exact h
  | cons k t ih =>
    rw [List.foldl_cons]
    apply ih
    split
    · split_ifs
      · exact File.free_block_WF k h
      · exact h
    · exact h

theorem File.markStopping_WF {st : File} (h : st.WF) : st.markStopping.WF := by
  unfold File.markStopping
  split_ifs
  · exact File.WF_congr st h rfl rfl
  · exact h

theorem File.InitiateClose_WF {st : File} (h : st.WF) : st.InitiateClose.1.WF := by
  unfold File.InitiateClose
  dsimp only
  split_ifs
  all_goals first
    | exact File.markStopping_WF h
    | exact File.purgeFailed_WF _ (File.markStopping_WF h)

@[simp] theorem File.RequestRAMBlock_BS (st : File) (g : Bool) :
    (st.RequestRAMBlock g).BS = st.BS := by
  unfold File.RequestRAMBlock; split_ifs <;> rfl

@[simp] theorem File.RequestRAMBlock_map (st : File) (g : Bool) :
    (st.RequestRAMBlock g).m_block_map = st.m_block_map := by
  unfold File.RequestRAMBlock; split_ifs <;> rfl

@[simp] theorem File.RequestRAMBlock_writeQ (st : File) (g : Bool) :
    (st.RequestRAMBlock g).c_writeQ = st.c_writeQ := by
  unfold File.RequestRAMBlock; split_ifs <;> rfl

@[simp] theorem File.RequestRAMBlock_a_refcnt (st : File) (g : Bool) :
    (st.RequestRAMBlock g).a_refcnt = st.a_refcnt := by
  unfold File.RequestRAMBlock; split_ifs <;> rfl

theorem File.Prefetch_WF {st : File} (g : Bool) (h : st.WF) : (st.Prefetch g).WF := by
  unfold File.Prefetch
  dsimp only
  split_ifs
  · split
    · rename_i f _
      have h0 : (st.RequestRAMBlock g).WF := File.WF_congr st h (by simp) (by simp)
      exact File.WF_congr _ (File.RequestBlock_WF f true h0) rfl rfl
    · exact File.WF_congr st h rfl rfl
  · exact File.WF_congr st h rfl rfl

@[simp] theorem File.fillBuffer_BS (st : File) (b : Int) (data : List Nat) :
    (st.fillBuffer b data).BS = st.BS := rfl

@[simp] theorem File.fillBuffer_a_refcnt (st : File) (b : Int) (data : List Nat) :
    (st.fillBuffer b data).a_refcnt = st.a_refcnt := rfl

@[simp] theorem File.takeWrite_BS (st : File) (b : Int) : (st.takeWrite b).BS = st.BS := rfl

@[simp] theorem File.takeWrite_map (st : File) (b : Int) :
    (st.takeWrite b).m_block_map = st.m_block_map := rfl

@[simp] theorem File.takeWrite_a_refcnt (st : File) (b : Int) :
    (st.takeWrite b).a_refcnt = st.a_refcnt := rfl

theorem File.takeWrite_writeQ (st : File) (b : Int) :
    (st.takeWrite b).c_writeQ = st.c_writeQ.erase b := rfl

@[simp] theorem File.WriteBlockToDisk_BS (st : File) (b : Int) (write : Nat → Int × Int) :
    (st.WriteBlockToDisk b write).BS = st.BS := by
  unfold File.WriteBlockToDisk
  split
  · rfl
  · dsimp only; split_ifs
    · rfl
    · simp [File.dec_ref_count_BS]

@[simp] theorem File.Prefetch_BS (st : File) (g : Bool) : (st.Prefetch g).BS = st.BS := by
  unfold File.Prefetch File.UnMarkPrefetch
  dsimp only
  split_ifs
  · split
    · simp [File.RequestBlock_BS, File.countPrefetchRead]
    · rfl
  · rfl

theorem File.purgeFailed_BS (s : File) (keys : List Int) : (s.purgeFailed keys).BS = s.BS := by
  unfold File.purgeFailed
  induction keys generalizing s with
  | nil => rfl
  | cons k t ih =>
    rw [List.foldl_cons, ih]
    split
    · split_ifs
      · rw [File.free_block_BS]
      · rfl
    · rfl

@[simp] theorem File.markStopping_BS (st : File) : st.markStopping.BS = st.BS := by
  unfold File.markStopping; split_ifs <;> rfl

@[simp] theorem File.markStopping_map (st : File) :
    st.markStopping.m_block_map = st.m_block_map := by
  unfold File.markStopping; split_ifs <;> rfl

@[simp] theorem File.markStopping_writeQ (st : File) :
    st.markStopping.c_writeQ = st.c_writeQ := by
  unfold File.markStopping; split_ifs <;> rfl

@[simp] theorem File.markStopping_a_refcnt (st : File) :
    st.markStopping.a_refcnt = st.a_refcnt := by
  unfold File.markStopping; split_ifs <;> rfl

theorem File.InitiateClose_BS (st : File) : st.InitiateClose.1.BS = st.BS := by
  unfold File.InitiateClose
  dsimp only
  split_ifs
  all_goals first
    | exact File.markStopping_BS st
    | (rw [File.purgeFailed_BS]; exact File.markStopping_BS st)

theorem File.deliver_WF {st : File} (b res err : Int) (data : List Nat) (h : st.WF) :
    (st.deliver b res err data).WF := by
  unfold File.deliver
  split_ifs
  · exact File.ProcessBlockResponse_WF b res err
      (File.WF_modify h b (fun x => { x with m_buff := data }) (fun _ => rfl) rfl rfl)
  · exact h

theorem File.runWriteTask_WF {st : File} (b : Int) (write : Nat → Int × Int) (h : st.WF) :
    (st.runWriteTask b write).WF := by
  unfold File.runWriteTask
  split_ifs
  · exact File.WriteBlockToDisk_WF b write (File.WF_congr st h rfl rfl)
  · exact h

theorem File.dropWriteTask_WF {st : File} (b : Int) (h : st.WF) : (st.dropWriteTask b).WF := by
  unfold File.dropWriteTask
  split_ifs
  · exact File.dec_ref_count_WF b (File.WF_congr st h rfl rfl)
  · exact h

theorem File.applyEvent_WF {st : File} (e : Event) (h : st.WF) : (st.applyEvent e).WF := by
  cases e with
  | response b res err data => exact File.deliver_WF b res err data h
  | writeBack b write => exact File.runWriteTask_WF b write h
  | removedFromWriteQ b => exact File.dropWriteTask_WF b h
  | prefetchCall g => exact File.Prefetch_WF g (File.WF_congr st h rfl rfl)
  | sync => exact File.Sync_WF h
  | initiateClose => exact File.InitiateClose_WF h

theorem File.applyEvents_WF {st : File} (es : List Event) (h : st.WF) : (st.applyEvents es).WF := by
  unfold File.applyEvents
  induction es generalizing st with
  | nil => exact h
  | cons e t ih => exact ih (File.applyEvent_WF e h)

theorem File.applyEvent_BS (st : File) (e : Event) : (st.applyEvent e).BS = st.BS := by
  cases e with
  | response b res err data =>
    show (st.deliver b res err data).BS = st.BS
    unfold File.deliver; split_ifs <;> simp
  | writeBack b write =>
    show (st.runWriteTask b write).BS = st.BS
    unfold File.runWriteTask; split_ifs <;> simp
  | removedFromWriteQ b =>
    show (st.dropWriteTask b).BS = st.BS
    unfold File.dropWriteTask File.BlockRemovedFromWriteQ
    split_ifs <;> simp [File.dec_ref_count_BS]
  | prefetchCall g =>
    show (st.MarkPrefetch.Prefetch g).BS = st.BS
    rw [File.Prefetch_BS]; rfl
  | sync => exact File.Sync_BS st
  | initiateClose => exact File.InitiateClose_BS st

theorem File.applyEvents_BS (st : File) (es : List Event) : (st.applyEvents es).BS = st.BS := by
  unfold File.applyEvents
  induction es generalizing st with
  | nil => rfl
  | cons e t ih => rw [List.foldl_cons, ih, File.applyEvent_BS]

/-! ## Arithmetic of `overlap` -/

theorem overlap_in_range {BS off len i : Int} (hBS : 0 < BS)
    (h1 : off / BS ≤ i) (h2 : i ≤ (off + len - 1) / BS) :
    overlap i BS off len
      = some (max (i * BS) off - off, max (i * BS) off - i * BS,
          min (i * BS + BS) (off + len) - max (i * BS) off) := by
  have a1 : i * BS ≤ off + len - 1 := (Int.le_ediv_iff_mul_le hBS).1 h2
  have a2 : off < (i + 1) * BS := (Int.ediv_lt_iff_lt_mul hBS).1 (by omega)
  have a3 : (i + 1) * BS = i * BS + BS := by ring
  unfold overlap
  simp only
  rw [if_pos ⟨by omega, by omega⟩]

theorem overlapOut_size {BS off len i : Int} (hBS : 0 < BS) (hlen : 0 < len)
    (h1 : off / BS ≤ i) (h2 : i ≤ (off + len - 1) / BS) :
    (overlapOut i BS off len).2.2 = reqCut BS off len (i + 1) - reqCut BS off len i := by
  have a1 : i * BS ≤ off + len - 1 := (Int.le_ediv_iff_mul_le hBS).1 h2
  have a2 : off < (i + 1) * BS := (Int.ediv_lt_iff_lt_mul hBS).1 (by omega)
  have a3 : (i + 1) * BS = i * BS + BS := by ring
  unfold overlapOut reqCut
  rw [overlap_in_range hBS h1 h2, a3]
  simp only [Option.getD_some]
  omega

theorem overlapOut_size_pos {BS off len i : Int} (hBS : 0 < BS) (hlen : 0 < len)
    (h1 : off / BS ≤ i) (h2 : i ≤ (off + len - 1) / BS) :
    0 < (overlapOut i BS off len).2.2 := by
  have a1 : i * BS ≤ off + len - 1 := (Int.le_ediv_iff_mul_le hBS).1 h2
  have a2 : off < (i + 1) * BS := (Int.ediv_lt_iff_lt_mul hBS).1 (by omega)
  have a3 : (i + 1) * BS = i * BS + BS := by ring
  unfold overlapOut
  rw [overlap_in_range hBS h1 h2]
  simp only [Option.getD_some]
  omega

theorem rangeSum_overlap {BS off len : Int} (hBS : 0 < BS) (hlen : 0 < len) (n : Nat) (i : Int)
    (h1 : off / BS ≤ i) (h2 : i + n ≤ (off + len - 1) / BS + 1) :
    rangeSum (fun j => (overlapOut j BS off len).2.2) i n
      = reqCut BS off len (i + n) - reqCut BS off len i := by
  induction n generalizing i with
  | zero => simp [rangeSum]
  | succ n ih =>
    unfold rangeSum
    rw [ih (i + 1) (by omega) (by push_cast at h2 ⊢; omega),
      overlapOut_size hBS hlen h1 (by push_cast at h2; omega)]
    push_cast
    have : i + 1 + (n : Int) = i + ((n : Int) + 1) := by ring
    rw [this]; ring

theorem rangeSum_request {BS off len : Int} (hBS : 0 < BS) (hlen : 0 < len) :
    rangeSum (fun j => (overlapOut j BS off len).2.2) (off / BS)
      ((off + len - 1) / BS - off / BS + 1).toNat = len := by
  have hle : off / BS ≤ (off + len - 1) / BS := Int.ediv_le_ediv hBS (by omega)
  have hn : (((off + len - 1) / BS - off / BS + 1).toNat : Int)
      = (off + len - 1) / BS - off / BS + 1 := Int.toNat_of_nonneg (by omega)
  rw [rangeSum_overlap hBS hlen _ _ le_rfl (by rw [hn]; omega), hn]
  have e1 : off / BS + ((off + len - 1) / BS - off / BS + 1) = (off + len - 1) / BS + 1 := by ring
  rw [e1]
  have a1 : (off / BS) * BS ≤ off := Int.ediv_mul_le off (by omega)
  have a2 : off + len - 1 < ((off + len - 1) / BS + 1) * BS := by
    have := Int.lt_ediv_add_one_mul_self (off + len - 1) hBS
    exact this
  unfold reqCut
  omega

/-! ## The steps of `Read` -/

@[simp] theorem sizeSum_nil (BS off len : Int) : sizeSum BS off len [] = 0 := rfl

@[simp] theorem sizeSum_cons (BS off len i : Int) (l : List Int) :
    sizeSum BS off len (i :: l) = (overlapOut i BS off len).2.2 + sizeSum BS off len l := by
  simp [sizeSum]

@[simp] theorem sizeSum_append (BS off len : Int) (l1 l2 : List Int) :
    sizeSum BS off len (l1 ++ l2) = sizeSum BS off len l1 + sizeSum BS off len l2 := by
  simp [sizeSum]

theorem sizeSum_filter (BS off len : Int) (p : Int → Bool) (l : List Int) :
    sizeSum BS off len (l.filter p) + sizeSum BS off len (l.filter (fun b => ! p b))
      = sizeSum BS off len l := by
  induction l with
  | nil => simp
  | cons x t ih =>
    by_cases hp : p x
    · simp [List.filter_cons, hp]; omega
    · simp [List.filter_cons, hp]; omega

theorem File.classify_BS (grant : Int → Bool) (n : Nat) (i : Int) (st : File) (l : ReadLists) :
    (File.classify grant n i st l).1.BS = st.BS := by
  induction n generalizing i st l with
  | zero => rfl
  | succ n ih =>
    unfold File.classify
    split
    · rw [ih]; rfl
    · split_ifs
      · rw [ih]
      · dsimp only; rw [ih]; simp [File.RequestBlock_BS]
      · rw [ih]

theorem File.classify_WF (grant : Int → Bool) (n : Nat) (i : Int) (st : File) (l : ReadLists)
    (h : st.WF) : (File.classify grant n i st l).1.WF := by
  induction n generalizing i st l with
  | zero => exact h
  | succ n ih =>
    unfold File.classify
    split
    · exact ih _ _ _ (File.inc_ref_count_WF i h)
    · split_ifs
      · exact ih _ _ _ h
      · exact ih _ _ _ (File.inc_ref_count_WF i (File.RequestBlock_WF i false
          (File.WF_congr st h (by simp) (by simp))))
      · exact ih _ _ _ h

theorem File.classify_sum (grant : Int → Bool) (BS off len : Int) (n : Nat) (i : Int)
    (st : File) (l : ReadLists) :
    sizeSum BS off len (File.classify grant n i st l).2.blks_to_process
      + sizeSum BS off len (File.classify grant n i st l).2.blks_on_disk
      + sizeSum BS off len (File.classify grant n i st l).2.blks_direct
    = sizeSum BS off len l.blks_to_process + sizeSum BS off len l.blks_on_disk
      + sizeSum BS off len l.blks_direct
      + rangeSum (fun j => (overlapOut j BS off len).2.2) i n := by
  induction n generalizing i st l with
  | zero => simp [File.classify, rangeSum]
  | succ n ih =>
    unfold File.classify rangeSum
    split
    · rw [ih]; simp; ring
    · split_ifs
      · rw [ih]; simp; ring
      · dsimp only; rw [ih]; simp; ring
      · rw [ih]; simp; ring

theorem File.RequestBlocksDirect_total (st : File) (blocks : List Int) (off len : Int) :
    (st.RequestBlocksDirect blocks off len).1 = sizeSum st.BS off len blocks := by
  unfold File.RequestBlocksDirect
  have h : ∀ (acc : Int × List (Int × Int × Int)),
      (blocks.foldl (fun acc ii =>
        let o := overlapOut ii st.BS off len
        (acc.1 + o.2.2, acc.2 ++ [(o.1, ii * st.BS + o.2.1, o.2.2)])) acc).1
        = acc.1 + sizeSum st.BS off len blocks := by
    induction blocks with
    | nil => intro acc; simp
    | cons x t ih => intro acc; rw [List.foldl_cons, ih]; simp; ring
  rw [h]; simp

@[simp] theorem File.CheckPrefetchStatDisk_BS (st : File) (i : Int) :
    (st.CheckPrefetchStatDisk i).BS = st.BS := by
  unfold File.CheckPrefetchStatDisk; split_ifs <;> rfl

@[simp] theorem File.CheckPrefetchStatDisk_map (st : File) (i : Int) :
    (st.CheckPrefetchStatDisk i).m_block_map = st.m_block_map := by
  unfold File.CheckPrefetchStatDisk; split_ifs <;> rfl

@[simp] theorem File.CheckPrefetchStatRAM_BS (st : File) (blk : Block) :
    (st.CheckPrefetchStatRAM blk).BS = st.BS := by
  unfold File.CheckPrefetchStatRAM; split_ifs <;> rfl

@[simp] theorem File.CheckPrefetchStatRAM_map (st : File) (blk : Block) :
    (st.CheckPrefetchStatRAM blk).m_block_map = st.m_block_map := by
  unfold File.CheckPrefetchStatRAM; split_ifs <;> rfl

theorem File.ReadBlocksFromDisk_spec (diskRead : Int → Int → Int) (off len : Int)
    (blocks : List Int) (st : File) (total : Int) (cp : Copies) :
    let r := File.ReadBlocksFromDisk diskRead off len blocks st total cp
    r.1.BS = st.BS ∧ r.1.m_block_map = st.m_block_map ∧
      (r.2.1 < 0 ∨ r.2.1 = total + sizeSum st.BS off len blocks) := by
  induction blocks generalizing st total cp with
  | nil => simp [File.ReadBlocksFromDisk]
  | cons x t ih =>
    unfold File.ReadBlocksFromDisk
    dsimp only
    split_ifs with h1 h2
    · exact ⟨rfl, rfl, Or.inl h1⟩
    · exact ⟨rfl, rfl, Or.inl (show (-1 : Int) < 0 by decide)⟩
    · have := ih (st.CheckPrefetchStatDisk x)
        (total + diskRead (x * st.BS + (overlapOut x st.BS off len).2.1 - st.m_offset)
          (overlapOut x st.BS off len).2.2)
        (cp ++ [((overlapOut x st.BS off len).1, st.m_disk.read
          (x * st.BS + (overlapOut x st.BS off len).2.1 - st.m_offset)
          (diskRead (x * st.BS + (overlapOut x st.BS off len).2.1 - st.m_offset)
            (overlapOut x st.BS off len).2.2).toNat)])
      simp only [File.CheckPrefetchStatDisk_BS, File.CheckPrefetchStatDisk_map] at this
      refine ⟨this.1, this.2.1, ?_⟩
      rcases this.2.2 with h | h
      · exact Or.inl h
      · right; rw [h, sizeSum_cons]
        push_neg at h2
        rw [h2]; ring

theorem File.WF_key {st : File} (h : st.WF) {b : Int} {blk : Block}
    (hb : st.m_block_map.find b = some blk) : Int.tdiv blk.m_offset st.BS = b := by
  rw [h.2 b blk hb]
  exact Int.mul_tdiv_cancel b (by have := h.1; omega)

theorem File.processFinished_spec (off len : Int) (l : List Int) (st : File) (bytes : Int)
    (cp : Copies) (h : st.WF) (hl : ∀ b ∈ l, st.finished b = true) :
    let r := File.processFinished off len l st bytes cp
    r.1.BS = st.BS ∧ r.1.m_block_map = st.m_block_map ∧
      (r.2.1 = -1 ∨ r.2.1 = bytes + sizeSum st.BS off len l) := by
  induction l generalizing st bytes cp with
  | nil => simp [File.processFinished]
  | cons x t ih =>
    unfold File.processFinished
    cases hx : st.m_block_map.find x with
    | none =>
      have := hl x (List.mem_cons_self x t)
      simp [File.finished, hx] at this
    | some blk =>
      dsimp only
      split_ifs with hok
      · have h1 : (st.CheckPrefetchStatRAM blk).WF := File.WF_congr st h (by simp) (by simp)
        have h2 : ∀ b ∈ t, (st.CheckPrefetchStatRAM blk).finished b = true := by
          intro b hb
          have := hl b (List.mem_cons_of_mem x hb)
          simpa [File.finished] using this
        have := ih (st.CheckPrefetchStatRAM blk)
          (bytes + (overlapOut (Int.tdiv blk.m_offset st.BS) st.BS off len).2.2)
          (cp ++ [((overlapOut (Int.tdiv blk.m_offset st.BS) st.BS off len).1,
            ((blk.m_buff.drop (overlapOut (Int.tdiv blk.m_offset st.BS) st.BS off len).2.1.toNat).take
              (overlapOut (Int.tdiv blk.m_offset st.BS) st.BS off len).2.2.toNat).map some)]) h1 h2
        simp only [File.CheckPrefetchStatRAM_BS, File.CheckPrefetchStatRAM_map] at this
        refine ⟨this.1, this.2.1, ?_⟩
        rcases this.2.2 with h3 | h3
        · exact Or.inl h3
        · right; rw [h3, sizeSum_cons, File.WF_key h hx]; ring
      · exact ⟨rfl, rfl, Or.inl rfl⟩

theorem File.waitLoop_spec (off len : Int) (fuel : Nat) (waits : List (List Event)) (st : File)
    (tp done : List Int) (bytes : Int) (cp : Copies) (w : WaitResult) (h : st.WF)
    (hw : File.waitLoop off len fuel waits st tp done bytes cp = some w) :
    w.st.WF ∧ w.st.BS = st.BS ∧
      (0 ≤ w.bytes_read → 0 ≤ bytes ∧ w.blks_to_process = [] ∧
        w.bytes_read = bytes + sizeSum st.BS off len tp) := by
  induction fuel generalizing waits st tp done bytes cp with
  | zero => simp [File.waitLoop] at hw
  | succ n ih =>
    unfold File.waitLoop at hw
    by_cases hc : tp ≠ [] ∧ bytes ≥ 0
    · rw [if_pos hc] at hw
      dsimp only at hw
      by_cases hf : tp.filter (fun b => st.finished b) = []
      · rw [if_pos hf] at hw
        cases waits with
        | nil => simp at hw
        | cons e es =>
          simp only at hw
          have := ih es (st.applyEvents e) tp done bytes cp (File.applyEvents_WF e h) hw
          rw [File.applyEvents_BS] at this
          exact this
      · rw [if_neg hf] at hw
        have hp := File.processFinished_spec off len (tp.filter (fun b => st.finished b)) st
          bytes cp h (by intro b hb; exact (List.mem_filter.1 hb).2)
        dsimp only at hp
        obtain ⟨hp1, hp2, hp3⟩ := hp
        have h1 : (File.processFinished off len (tp.filter (fun b => st.finished b)) st bytes
            cp).1.WF := File.WF_congr st h hp1 hp2
        have := ih waits _ _ _ _ _ h1 hw
        rw [hp1] at this
        refine ⟨this.1, this.2.1, fun h0 => ?_⟩
        obtain ⟨_, e1, e2⟩ := this.2.2 h0
        refine ⟨hc.2, e1, ?_⟩
        rcases hp3 with h3 | h3
        · exfalso
          rw [h3] at hw
          cases n with
          | zero => simp [File.waitLoop] at hw
          | succ m =>
            unfold File.waitLoop at hw
            rw [if_neg (by omega)] at hw
            simp only [Option.some.injEq] at hw
            rw [← hw] at h0
            simp at h0
        · rw [e2, h3, ← sizeSum_filter st.BS off len (fun b => st.finished b) tp]; ring
    · rw [if_neg hc] at hw
      simp only [Option.some.injEq] at hw
      subst hw
      refine ⟨h, rfl, fun h0 => ?_⟩
      dsimp only at h0 ⊢
      have : tp = [] := by
        by_contra hne
        exact hc ⟨hne, h0⟩
      subst this
      simp [h0]

theorem File.Read_cases {st : File} {env : ReadEnv} {off len : Int} {r : ReadResult}
    (hr : st.Read env off len = some r) :
    let c := st.classifyRequest env.grant off len
    let d := c.1.sendDirect c.2.blks_direct off len
    let rd := c.1.readDisk env.diskRead off len c.2.blks_on_disk
    (c.2.blks_direct ≠ [] ∧ d.1 < 0 ∧ r = c.1.abortRead c.2 d) ∨
    (¬ (c.2.blks_direct ≠ [] ∧ d.1 < 0) ∧
      ∃ w, (rd.1.applyEvents env.pre).waitLoop off len
          (env.waits.length + c.2.blks_to_process.length + 1) env.waits
          c.2.blks_to_process [] rd.2.1 rd.2.2 = some w ∧
        ¬ (c.2.blks_direct ≠ [] ∧ w.bytes_read ≥ 0 ∧
          (directHandler c.2.blks_direct.length env.directDone).m_to_wait > 0) ∧
        r = (w.st.applyEvents env.post).finishRead c.2 w
          (directHandler c.2.blks_direct.length env.directDone) d len) := by
  intro c d rd
  unfold File.Read at hr
  dsimp only at hr
  by_cases h1 : c.2.blks_direct ≠ [] ∧ d.1 < 0
  · rw [if_pos h1] at hr
    simp only [Option.some.injEq] at hr
    exact Or.inl ⟨h1.1, h1.2, hr.symm⟩
  · rw [if_neg h1] at hr
    right
    refine ⟨h1, ?_⟩
    cases hw : (rd.1.applyEvents env.pre).waitLoop off len
        (env.waits.length + c.2.blks_to_process.length + 1) env.waits
        c.2.blks_to_process [] rd.2.1 rd.2.2 with
    | none => rw [hw] at hr; simp at hr
    | some w =>
      rw [hw] at hr
      dsimp only at hr
      by_cases h2 : c.2.blks_direct ≠ [] ∧ w.bytes_read ≥ 0 ∧
          (directHandler c.2.blks_direct.length env.directDone).m_to_wait > 0
      · rw [if_pos h2] at hr; simp at hr
      · rw [if_neg h2] at hr
        simp only [Option.some.injEq] at hr
        exact ⟨w, rfl, h2, hr.symm⟩

theorem File.classifyRequest_facts {st : File} (grant : Int → Bool) {off len : Int}
    (hwf : st.WF) (hoff : 0 ≤ off) (hlen : 0 < len) :
    let c := st.classifyRequest grant off len
    c.1.WF ∧ c.1.BS = st.BS ∧
      sizeSum st.BS off len c.2.blks_to_process + sizeSum st.BS off len c.2.blks_on_disk
        + sizeSum st.BS off len c.2.blks_direct = len := by
  have hBS := hwf.1
  have e1 : Int.tdiv off st.BS = off / st.BS := Int.tdiv_eq_ediv hoff (by omega)
  have e2 : Int.tdiv (off + len - 1) st.BS = (off + len - 1) / st.BS :=
    Int.tdiv_eq_ediv (by omega) (by omega)
  intro c
  refine ⟨File.classify_WF _ _ _ _ _ hwf, File.classify_BS _ _ _ _ _, ?_⟩
  have hsum := File.classify_sum grant st.BS off len
    ((off + len - 1) / st.BS - off / st.BS + 1).toNat (off / st.BS) st
    { blks_to_process := [], blks_on_disk := [], blks_direct := [] }
  rw [rangeSum_request hBS hlen] at hsum
  simp only [sizeSum_nil, zero_add] at hsum
  show sizeSum st.BS off len (st.classifyRequest grant off len).2.blks_to_process
    + sizeSum st.BS off len (st.classifyRequest grant off len).2.blks_on_disk
    + sizeSum st.BS off len (st.classifyRequest grant off len).2.blks_direct = len
  unfold File.classifyRequest
  simp only [e1, e2]
  exact hsum

theorem File.readDisk_spec (st : File) (diskRead : Int → Int → Int) (off len : Int)
    (l : List Int) :
    (st.readDisk diskRead off len l).1.BS = st.BS ∧
      (st.readDisk diskRead off len l).1.m_block_map = st.m_block_map ∧
      ((st.readDisk diskRead off len l).2.1 < 0 ∨
        (st.readDisk diskRead off len l).2.1 = sizeSum st.BS off len l) := by
  unfold File.readDisk
  split_ifs with hne
  · have := File.ReadBlocksFromDisk_spec diskRead off len l st 0 []
    dsimp only at this
    rw [zero_add] at this
    exact this
  · push_neg at hne
    rw [hne]
    exact ⟨rfl, rfl, Or.inr rfl⟩

theorem File.sendDirect_total (st : File) (l : List Int) (off len : Int) :
    (st.sendDirect l off len).1 = sizeSum st.BS off len l := by
  unfold File.sendDirect
  split_ifs with hne
  · exact File.RequestBlocksDirect_total st l off len
  · push_neg at hne; rw [hne]; rfl

theorem File.Read_ret_of_nonneg (st : File) (env : ReadEnv) (off len : Int) (r : ReadResult)
    (hwf : st.WF) (hoff : 0 ≤ off) (hlen : 0 < len) (hr : st.Read env off len = some r)
    (h0 : 0 ≤ r.ret) : r.ret = len := by
  obtain ⟨hcWF, hcBS, hsum⟩ := File.classifyRequest_facts env.grant hwf hoff hlen
  rcases File.Read_cases hr with ⟨_, _, hab⟩ | ⟨_, w, hw, _, hfin⟩
  · rw [hab] at h0
    simp [File.abortRead] at h0
  · have hrd := File.readDisk_spec (st.classifyRequest env.grant off len).1 env.diskRead off len
      (st.classifyRequest env.grant off len).2.blks_on_disk
    rw [hcBS] at hrd
    have hrdWF : ((st.classifyRequest env.grant off len).1.readDisk env.diskRead off len
        (st.classifyRequest env.grant off len).2.blks_on_disk).1.WF :=
      File.WF_congr _ hcWF (by rw [hrd.1, hcBS]) hrd.2.1
    have hws := File.waitLoop_spec off len _ _ _ _ _ _ _ w
      (File.applyEvents_WF env.pre hrdWF) hw
    rw [File.applyEvents_BS, hrd.1] at hws
    rw [hfin] at h0 ⊢
    simp only [File.finishRead] at h0 ⊢
    unfold readTotal at h0 ⊢
    rw [File.sendDirect_total, hcBS] at h0 ⊢
    by_cases hv : (decide ((st.classifyRequest env.grant off len).2.blks_direct ≠ []) = true)
        ∧ w.bytes_read ≥ 0
    · rw [if_pos hv] at h0 ⊢
      split_ifs at h0 ⊢ with he
      · obtain ⟨hb, _, hw2⟩ := hws.2.2 hv.2
        rcases hrd.2.2 with h3 | h3
        · omega
        · omega
      · simp at h0
    · rw [if_neg hv] at h0 ⊢
      obtain ⟨hb, _, hw2⟩ := hws.2.2 h0
      have hdir : (st.classifyRequest env.grant off len).2.blks_direct = [] := by
        by_contra hne
        exact hv ⟨by simpa using hne, h0⟩
      rw [hdir, sizeSum_nil] at hsum
      rcases hrd.2.2 with h3 | h3
      · omega
      · omega

/-! ## Properties of all blocks kept by the operations -/

theorem File.AllBlocks_congr (st : File) {st1 : File} {P : Block → Prop} (h : st.AllBlocks P)
    (hm : st1.m_block_map = st.m_block_map) : st1.AllBlocks P := by
  intro k b hk; rw [hm] at hk; exact h k b hk

theorem File.AllBlocks_modify {st st1 : File} {P : Block → Prop} (h : st.AllBlocks P)
    (i : Int) (f : Block → Block) (hf : ∀ x, P x → P (f x))
    (hm : st1.m_block_map = st.m_block_map.modify i f) : st1.AllBlocks P := by
  intro k b hk
  rw [hm, BlockMap.find_modify] at hk
  split at hk
  · cases hfd : st.m_block_map.find k with
    | none => simp [hfd] at hk
    | some x => simp [hfd] at hk; rw [← hk]; exact hf x (h k x hfd)
  · exact h k b hk

theorem File.AllBlocks_erase {st st1 : File} {P : Block → Prop} (h : st.AllBlocks P)
    (i : Int) (hm : st1.m_block_map = st.m_block_map.erase i) : st1.AllBlocks P := by
  intro k b hk
  rw [hm, BlockMap.find_erase] at hk
  split at hk
  · exact absurd hk (by simp)
  · exact h k b hk

theorem File.inc_ref_count_All {st : File} {P : Block → Prop} (hP : Block.Stable P) (b : Int)
    (h : st.AllBlocks P) : (st.inc_ref_count b).AllBlocks P :=
  File.AllBlocks_modify h b (fun x => { x with m_refcnt := x.m_refcnt + 1 }) hP.1 rfl

theorem File.free_block_All {st : File} {P : Block → Prop} (b : Int)
    (h : st.AllBlocks P) : (st.free_block b).AllBlocks P := by
  cases hb : st.m_block_map.find b with
  | none => exact File.AllBlocks_congr st h (by rw [File.free_block_map, hb])
  | some blk => exact File.AllBlocks_erase h _ (by rw [File.free_block_map, hb])

theorem File.dec_ref_count_All {st : File} {P : Block → Prop} (hP : Block.Stable P) (b : Int)
    (h : st.AllBlocks P) : (st.dec_ref_count b).AllBlocks P := by
  unfold File.dec_ref_count
  split
  · exact h
  · rename_i blk _
    have h1 : ({ st with
        m_block_map := st.m_block_map.modify b (fun x => { x with m_refcnt := x.m_refcnt - 1 }),
        a_refcnt := st.a_refcnt || decide (blk.m_refcnt - 1 < 0) } : File).AllBlocks P :=
      File.AllBlocks_modify h b (fun x => { x with m_refcnt := x.m_refcnt - 1 }) hP.2.1 rfl
    dsimp only
    split_ifs
    · exact File.free_block_All b h1
    · exact h1

theorem File.RequestBlock_All {st : File} {P : Block → Prop} (hP : Block.Stable P) (i : Int)
    (pf : Bool) (h : st.AllBlocks P) : (st.RequestBlock i pf).AllBlocks P := by
  intro k b hk
  rw [File.RequestBlock_map, BlockMap.find_insert] at hk
  split at hk
  · simp only [Option.some.injEq] at hk
    rw [← hk]; exact hP.2.2.2.2 _ _ _
  · exact h k b hk

theorem File.ProcessBlockResponse_All {st : File} {P : Block → Prop} (hP : Block.Stable P)
    (b res err : Int) (herr : res < 0 → ∀ x, P x → P (x.set_error_and_free err))
    (h : st.AllBlocks P) : (st.ProcessBlockResponse b res err).AllBlocks P := by
  unfold File.ProcessBlockResponse
  split
  · exact h
  · rename_i blk _
    dsimp only
    have hd : ({ st with m_block_map :=
        st.m_block_map.modify b (fun x => { x with m_downloaded := true }) } : File).AllBlocks P :=
      File.AllBlocks_modify h b (fun x => { x with m_downloaded := true }) hP.2.2.1 rfl
    have hi := File.inc_ref_count_All hP b hd
    by_cases hres : res ≥ 0
    · rw [if_pos hres]
      split_ifs
      all_goals first
        | exact hd
        | exact File.free_block_All b hd
        | exact File.AllBlocks_congr _ hi rfl
    · rw [if_neg hres]
      have he : ({ st with m_block_map :=
          st.m_block_map.modify b (fun x => x.set_error_and_free err) }
            : File).AllBlocks P :=
        File.AllBlocks_modify h b (fun x => x.set_error_and_free err) (herr (by omega)) rfl
      exact File.inc_ref_count_All hP b he

theorem File.WriteBlockToDisk_All {st : File} {P : Block → Prop} (hP : Block.Stable P) (b : Int)
    (write : Nat → Int × Int) (h : st.AllBlocks P) : (st.WriteBlockToDisk b write).AllBlocks P := by
  unfold File.WriteBlockToDisk
  split
  · exact h
  · rename_i blk _
    dsimp only
    split_ifs
    · exact File.AllBlocks_congr st h rfl
    · have h1 : (({ st with m_disk := (st.writeAttempt blk write).disk } : File).markFetched
          (Int.tdiv (blk.m_offset - st.m_offset) st.BS)).AllBlocks P := File.AllBlocks_congr st h rfl
      exact File.AllBlocks_congr _ (File.dec_ref_count_All hP b h1) (by simp)

theorem File.purgeFailed_All {st : File} {P : Block → Prop} (keys : List Int)
    (h : st.AllBlocks P) : (st.purgeFailed keys).AllBlocks P := by
  unfold File.purgeFailed
  induction keys generalizing st with
  | nil => exact h
  | cons k t ih =>
    rw [List.foldl_cons]
    apply ih
    split
    · split_ifs
      · exact File.free_block_All k h
      · exact h
    · exact h

theorem File.InitiateClose_All {st : File} {P : Block → Prop} (h : st.AllBlocks P) :
    st.InitiateClose.1.AllBlocks P := by
  have hm : st.markStopping.AllBlocks P := File.AllBlocks_congr st h (by simp)
  unfold File.InitiateClose
  dsimp only
  split_ifs
  all_goals first
    | exact hm
    | exact File.purgeFailed_All _ hm

theorem File.Prefetch_All {st : File} {P : Block → Prop} (hP : Block.Stable P) (g : Bool)
    (h : st.AllBlocks P) : (st.Prefetch g).AllBlocks P := by
  unfold File.Prefetch
  dsimp only
  split_ifs
  · split
    · rename_i f _
      have h0 : (st.RequestRAMBlock g).AllBlocks P := File.AllBlocks_congr st h (by simp)
      exact File.AllBlocks_congr _ (File.RequestBlock_All hP f true h0) rfl
    · exact File.AllBlocks_congr st h rfl
  · exact File.AllBlocks_congr st h rfl

theorem File.applyEvent_All {st : File} {P : Block → Prop} (hP : Block.Stable P) (e : Event)
    (herr : e.isFailure = true → ∀ (x : Block) (err : Int), P x → P (x.set_error_and_free err))
    (h : st.AllBlocks P) : (st.applyEvent e).AllBlocks P := by
  cases e with
  | response b res err data =>
    show (st.deliver b res err data).AllBlocks P
    unfold File.deliver
    split_ifs
    · exact File.ProcessBlockResponse_All hP b res err
        (fun hres x hx => herr (by simp [Event.isFailure, hres]) x err hx)
        (File.AllBlocks_modify h b (fun x => { x with m_buff := data })
          (fun x hx => hP.2.2.2.1 x data hx) rfl)
    · exact h
  | writeBack b write =>
    show (st.runWriteTask b write).AllBlocks P
    unfold File.runWriteTask
    split_ifs
    · exact File.WriteBlockToDisk_All hP b write (File.AllBlocks_congr st h rfl)
    · exact h
  | removedFromWriteQ b =>
    show (st.dropWriteTask b).AllBlocks P
    unfold File.dropWriteTask
    split_ifs
    · exact File.dec_ref_count_All hP b (File.AllBlocks_congr st h rfl)
    · exact h
  | prefetchCall g => exact File.Prefetch_All hP g (File.AllBlocks_congr st h rfl)
  | sync => exact File.AllBlocks_congr st h (File.Sync_map st)
  | initiateClose => exact File.InitiateClose_All h

theorem File.applyEvents_All {st : File} {P : Block → Prop} (hP : Block.Stable P)
    (es : List Event)
    (herr : (∃ e ∈ es, e.isFailure = true) →
      ∀ (x : Block) (err : Int), P x → P (x.set_error_and_free err))
    (h : st.AllBlocks P) : (st.applyEvents es).AllBlocks P := by
  unfold File.applyEvents
  induction es generalizing st with
  | nil => exact h
  | cons e t ih =>
    rw [List.foldl_cons]
    exact ih (fun ⟨x, hx, hf⟩ => herr ⟨x, List.mem_cons_of_mem e hx, hf⟩)
      (File.applyEvent_All hP e (fun hf => herr ⟨e, List.mem_cons_self e t, hf⟩) h)

theorem File.classify_mem (grant : Int → Bool) (n : Nat) (i : Int) (st : File) (l : ReadLists)
    (b : Int)
    (hb : b ∈ (File.classify grant n i st l).2.blks_to_process ∨
      b ∈ (File.classify grant n i st l).2.blks_on_disk ∨
      b ∈ (File.classify grant n i st l).2.blks_direct) :
    (b ∈ l.blks_to_process ∨ b ∈ l.blks_on_disk ∨ b ∈ l.blks_direct) ∨ (i ≤ b ∧ b < i + n) := by
  induction n generalizing i st l with
  | zero => exact Or.inl hb
  | succ n ih =>
    unfold File.classify at hb
    have key : ∀ (st1 : File) (l1 : ReadLists),
        (b ∈ (File.classify grant n (i + 1) st1 l1).2.blks_to_process ∨
          b ∈ (File.classify grant n (i + 1) st1 l1).2.blks_on_disk ∨
          b ∈ (File.classify grant n (i + 1) st1 l1).2.blks_direct) →
        ((b ∈ l1.blks_to_process ∨ b ∈ l1.blks_on_disk ∨ b ∈ l1.blks_direct) →
          (b ∈ l.blks_to_process ∨ b ∈ l.blks_on_disk ∨ b ∈ l.blks_direct) ∨ b = i) →
        (b ∈ l.blks_to_process ∨ b ∈ l.blks_on_disk ∨ b ∈ l.blks_direct) ∨
          (i ≤ b ∧ b < i + (n + 1 : Nat)) := by
      intro st1 l1 h1 h2
      rcases ih (i + 1) st1 l1 h1 with h3 | h3
      · rcases h2 h3 with h4 | h4
        · exact Or.inl h4
        · right; subst h4; push_cast; omega
      · right; push_cast; omega
    split at hb
    · refine key _ _ hb ?_
      simp only [List.mem_cons]
      tauto
    · split_ifs at hb
      · refine key _ _ hb ?_
        simp only [List.mem_append, List.mem_singleton]
        tauto
      · refine key _ _ hb ?_
        simp only [List.mem_append, List.mem_singleton]
        tauto
      · refine key _ _ hb ?_
        simp only [List.mem_append, List.mem_singleton]
        tauto

theorem File.classifyRequest_mem {st : File} (grant : Int → Bool) {off len : Int}
    (hwf : st.WF) (hoff : 0 ≤ off) (hlen : 0 < len) (b : Int)
    (hb : b ∈ (st.classifyRequest grant off len).2.blks_to_process ∨
      b ∈ (st.classifyRequest grant off len).2.blks_on_disk ∨
      b ∈ (st.classifyRequest grant off len).2.blks_direct) :
    off / st.BS ≤ b ∧ b ≤ (off + len - 1) / st.BS := by
  have hBS := hwf.1
  have e1 : Int.tdiv off st.BS = off / st.BS := Int.tdiv_eq_ediv hoff (by omega)
  have e2 : Int.tdiv (off + len - 1) st.BS = (off + len - 1) / st.BS :=
    Int.tdiv_eq_ediv (by omega) (by omega)
  have hle : off / st.BS ≤ (off + len - 1) / st.BS := Int.ediv_le_ediv hBS (by omega)
  unfold File.classifyRequest at hb
  simp only [e1, e2] at hb
  rcases File.classify_mem grant _ _ st _ b hb with h | h
  · simp at h
  · rw [Int.toNat_of_nonneg (by omega)] at h
    omega

theorem sizeSum_nonneg {BS off len : Int} (hBS : 0 < BS) (hlen : 0 < len) (l : List Int)
    (hl : ∀ b ∈ l, off / BS ≤ b ∧ b ≤ (off + len - 1) / BS) : 0 ≤ sizeSum BS off len l := by
  induction l with
  | nil => simp
  | cons x t ih =>
    rw [sizeSum_cons]
    have h1 := overlapOut_size_pos hBS hlen (hl x (List.mem_cons_self x t)).1
      (hl x (List.mem_cons_self x t)).2
    have h2 := ih (fun b hb => hl b (List.mem_cons_of_mem x hb))
    omega

theorem File.classify_All {P : Block → Prop} (hP : Block.Stable P) (grant : Int → Bool)
    (n : Nat) (i : Int) (st : File) (l : ReadLists) (h : st.AllBlocks P) :
    (File.classify grant n i st l).1.AllBlocks P := by
  induction n generalizing i st l with
  | zero => exact h
  | succ n ih =>
    unfold File.classify
    split
    · exact ih _ _ _ (File.inc_ref_count_All hP i h)
    · split_ifs
      · exact ih _ _ _ h
      · exact ih _ _ _ (File.inc_ref_count_All hP i (File.RequestBlock_All hP i false
          (File.AllBlocks_congr st h (by simp))))
      · exact ih _ _ _ h

theorem File.ReadBlocksFromDisk_ok (diskRead : Int → Int → Int) (off len : Int)
    (hd : ∀ pos n, diskRead pos n = n) (blocks : List Int) (st : File) (total : Int)
    (cp : Copies) (hs : ∀ b ∈ blocks, 0 ≤ (overlapOut b st.BS off len).2.2) :
    (File.ReadBlocksFromDisk diskRead off len blocks st total cp).2.1
      = total + sizeSum st.BS off len blocks := by
  induction blocks generalizing st total cp with
  | nil => simp [File.ReadBlocksFromDisk]
  | cons x t ih =>
    unfold File.ReadBlocksFromDisk
    dsimp only
    have hx := hs x (List.mem_cons_self x t)
    rw [hd, if_neg (by omega), if_neg (by simp)]
    rw [ih _ _ _ (by
      intro b hb
      rw [File.CheckPrefetchStatDisk_BS]
      exact hs b (List.mem_cons_of_mem x hb))]
    rw [File.CheckPrefetchStatDisk_BS, sizeSum_cons]; ring

theorem File.processFinished_ok (off len : Int) (l : List Int) (st : File) (bytes : Int)
    (cp : Copies) (h : st.WF) (hl : ∀ b ∈ l, st.finished b = true)
    (hnf : st.AllBlocks (fun x => x.m_failed = false)) :
    (File.processFinished off len l st bytes cp).2.1 = bytes + sizeSum st.BS off len l := by
  induction l generalizing st bytes cp with
  | nil => simp [File.processFinished]
  | cons x t ih =>
    unfold File.processFinished
    cases hx : st.m_block_map.find x with
    | none =>
      have := hl x (List.mem_cons_self x t)
      simp [File.finished, hx] at this
    | some blk =>
      dsimp only
      have hfin := hl x (List.mem_cons_self x t)
      have hok : blk.is_ok = true := by
        have hf := hnf x blk hx
        simp only [File.finished, hx, Block.is_finished, hf, Bool.or_false] at hfin
        exact hfin
      rw [if_pos hok]
      have h1 : (st.CheckPrefetchStatRAM blk).WF := File.WF_congr st h (by simp) (by simp)
      have h2 : ∀ b ∈ t, (st.CheckPrefetchStatRAM blk).finished b = true := by
        intro b hb
        have := hl b (List.mem_cons_of_mem x hb)
        simpa [File.finished] using this
      rw [ih _ _ _ h1 h2 (File.AllBlocks_congr st hnf (by simp))]
      rw [File.CheckPrefetchStatRAM_BS, sizeSum_cons, File.WF_key h hx]; ring

theorem Block.stable_not_failed : Block.Stable (fun x => x.m_failed = false) :=
  ⟨fun _ h => h, fun _ h => h, fun _ h => h, fun _ _ h => h, fun _ _ _ => rfl⟩

theorem sizeSum_nonneg_of (BS off len : Int) (l : List Int)
    (hl : ∀ b ∈ l, 0 ≤ (overlapOut b BS off len).2.2) : 0 ≤ sizeSum BS off len l := by
  induction l with
  | nil => simp
  | cons x t ih =>
    rw [sizeSum_cons]
    have h1 := hl x (List.mem_cons_self x t)
    have h2 := ih (fun b hb => hl b (List.mem_cons_of_mem x hb))
    omega

theorem File.waitLoop_ok (off len : Int) (fuel : Nat) (waits : List (List Event)) (st : File)
    (tp done : List Int) (bytes : Int) (cp : Copies) (w : WaitResult) (h : st.WF)
    (hnf : st.AllBlocks (fun x => x.m_failed = false))
    (hev : ∀ es ∈ waits, ∀ e ∈ es, e.isFailure = false)
    (hb : 0 ≤ bytes) (hs : ∀ b ∈ tp, 0 ≤ (overlapOut b st.BS off len).2.2)
    (hw : File.waitLoop off len fuel waits st tp done bytes cp = some w) :
    0 ≤ w.bytes_read := by
  induction fuel generalizing waits st tp done bytes cp with
  | zero => simp [File.waitLoop] at hw
  | succ n ih =>
    unfold File.waitLoop at hw
    by_cases hc : tp ≠ [] ∧ bytes ≥ 0
    · rw [if_pos hc] at hw
      dsimp only at hw
      by_cases hf : tp.filter (fun b => st.finished b) = []
      · rw [if_pos hf] at hw
        cases waits with
        | nil => simp at hw
        | cons e es =>
          simp only at hw
          refine ih es (st.applyEvents e) tp done bytes cp (File.applyEvents_WF e h) ?_ ?_ hb ?_ hw
          · refine File.applyEvents_All Block.stable_not_failed e ?_ hnf
            rintro ⟨x, hx, hxf⟩
            have := hev e (List.mem_cons_self e es) x hx
            rw [this] at hxf
            exact absurd hxf (by simp)
          · exact fun es1 h1 => hev es1 (List.mem_cons_of_mem e h1)
          · rw [File.applyEvents_BS]; exact hs
      · rw [if_neg hf] at hw
        have hfin : ∀ b ∈ tp.filter (fun b => st.finished b), st.finished b = true :=
          fun b hb => (List.mem_filter.1 hb).2
        have hp := File.processFinished_spec off len (tp.filter (fun b => st.finished b)) st
          bytes cp h hfin
        dsimp only at hp
        obtain ⟨hp1, hp2, _⟩ := hp
        have hpo := File.processFinished_ok off len (tp.filter (fun b => st.finished b)) st
          bytes cp h hfin hnf
        refine ih waits _ _ _ _ _ (File.WF_congr st h hp1 hp2)
          (File.AllBlocks_congr st hnf hp2) hev ?_ ?_ hw
        · rw [hpo]
          have := sizeSum_nonneg_of st.BS off len (tp.filter (fun b => st.finished b))
            (fun b hb => hs b (List.mem_filter.1 hb).1)
          omega
        · intro b hb
          rw [hp1]
          exact hs b (List.mem_filter.1 hb).1
    · rw [if_neg hc] at hw
      simp only [Option.some.injEq] at hw
      subst hw
      exact hb

theorem File.waitLoop_ready (off len : Int) (fuel : Nat) (waits : List (List Event)) (st : File)
    (tp done : List Int) (bytes : Int) (cp : Copies)
    (hfin : ∀ b ∈ tp, st.finished b = true) (hfuel : 2 ≤ fuel) :
    ∃ w, File.waitLoop off len fuel waits st tp done bytes cp = some w := by
  obtain ⟨n, rfl⟩ : ∃ n, fuel = n + 2 := ⟨fuel - 2, by omega⟩
  unfold File.waitLoop
  by_cases hc : tp ≠ [] ∧ bytes ≥ 0
  · rw [if_pos hc]
    dsimp only
    have e1 : tp.filter (fun b => st.finished b) = tp :=
      List.filter_eq_self.2 hfin
    have e2 : tp.filter (fun b => ! st.finished b) = [] := by
      rw [List.filter_eq_nil_iff]
      intro b hb
      simp [hfin b hb]
    rw [e1, e2, if_neg hc.1]
    unfold File.waitLoop
    rw [if_neg (by simp)]
    exact ⟨_, rfl⟩
  · rw [if_neg hc]
    exact ⟨_, rfl⟩

theorem File.waitLoop_fuel (off len : Int) (fuel : Nat) (waits : List (List Event)) (st : File)
    (tp done : List Int) (bytes : Int) (cp : Copies)
    (hfuel : waits.length + tp.length + 1 ≤ fuel) :
    File.waitLoop off len (fuel + 1) waits st tp done bytes cp
      = File.waitLoop off len fuel waits st tp done bytes cp := by
  induction fuel generalizing waits st tp done bytes cp with
  | zero => omega
  | succ n ih =>
    rw [File.waitLoop.eq_def off len (n + 1 + 1), File.waitLoop.eq_def off len (n + 1)]
    dsimp only
    by_cases hc : tp ≠ [] ∧ bytes ≥ 0
    · rw [if_pos hc, if_pos hc]
      by_cases hf : tp.filter (fun b => st.finished b) = []
      · rw [if_pos hf, if_pos hf]
        cases waits with
        | nil => rfl
        | cons e es =>
          dsimp only
          exact ih _ _ _ _ _ _ (by simp only [List.length_cons] at hfuel; omega)
      · rw [if_neg hf, if_neg hf]
        refine ih _ _ _ _ _ _ ?_
        have hlen : (tp.filter (fun b => ! st.finished b)).length
            + (tp.filter (fun b => st.finished b)).length = tp.length := by
          have := List.length_eq_length_filter_add (l := tp) (fun b => ! st.finished b)
          simp only [Bool.not_not] at this
          omega
        have hpos : 0 < (tp.filter (fun b => st.finished b)).length :=
          List.length_pos.2 hf
        omega
    · rw [if_neg hc, if_neg hc]

theorem directHandler_errno (n : Nat) (done : List (Int × Int)) (hd : ∀ x ∈ done, 0 ≤ x.1) :
    (directHandler n done).m_errno = 0 := by
  unfold directHandler
  have key : ∀ (h : DirectResponseHandler), h.m_errno = 0 →
      (done.foldl (fun h r => h.Done r.1 r.2) h).m_errno = 0 := by
    induction done with
    | nil => intro h hh; exact hh
    | cons x t ih =>
      intro h hh
      rw [List.foldl_cons]
      refine ih (fun y hy => hd y (List.mem_cons_of_mem x hy)) _ ?_
      have hx := hd x (List.mem_cons_self x t)
      have hx1 : ¬ x.1 < 0 := by omega
      unfold DirectResponseHandler.Done
      dsimp only
      rw [if_neg hx1]
      split_ifs <;> exact hh
  exact key _ rfl

theorem File.Read_ret_ok (st : File) (env : ReadEnv) (off len : Int) (r : ReadResult)
    (hwf : st.WF) (hoff : 0 ≤ off) (hlen : 0 < len) (hr : st.Read env off len = some r)
    (hdisk : ∀ pos n, env.diskRead pos n = n)
    (hnf : st.AllBlocks (fun x => x.m_failed = false))
    (hpre : ∀ e ∈ env.pre, e.isFailure = false)
    (hwaits : ∀ es ∈ env.waits, ∀ e ∈ es, e.isFailure = false)
    (hdone : ∀ x ∈ env.directDone, 0 ≤ x.1) : 0 ≤ r.ret := by
  obtain ⟨hcWF, hcBS, hsum⟩ := File.classifyRequest_facts env.grant hwf hoff hlen
  have hmem := File.classifyRequest_mem env.grant hwf hoff hlen
  have hBS := hwf.1
  have hcnf : (st.classifyRequest env.grant off len).1.AllBlocks (fun x => x.m_failed = false) :=
    File.classify_All Block.stable_not_failed _ _ _ _ _ hnf
  have hdirect : (st.classifyRequest env.grant off len).2.blks_direct ≠ [] →
      0 ≤ ((st.classifyRequest env.grant off len).1.sendDirect
        (st.classifyRequest env.grant off len).2.blks_direct off len).1 := by
    intro _
    rw [File.sendDirect_total, hcBS]
    exact sizeSum_nonneg hBS hlen _ (fun b hb => hmem b (Or.inr (Or.inr hb)))
  rcases File.Read_cases hr with ⟨hne, hneg, _⟩ | ⟨_, w, hw, _, hfin⟩
  · have := hdirect hne
    omega
  · have hrd := File.readDisk_spec (st.classifyRequest env.grant off len).1 env.diskRead off len
      (st.classifyRequest env.grant off len).2.blks_on_disk
    have hrdWF : ((st.classifyRequest env.grant off len).1.readDisk env.diskRead off len
        (st.classifyRequest env.grant off len).2.blks_on_disk).1.WF :=
      File.WF_congr _ hcWF hrd.1 hrd.2.1
    have hrdok : 0 ≤ ((st.classifyRequest env.grant off len).1.readDisk env.diskRead off len
        (st.classifyRequest env.grant off len).2.blks_on_disk).2.1 := by
      unfold File.readDisk
      split_ifs
      · rw [File.ReadBlocksFromDisk_ok env.diskRead off len hdisk _ _ _ _ (by
          intro b hb
          rw [hcBS]
          exact le_of_lt (overlapOut_size_pos hBS hlen (hmem b (Or.inr (Or.inl hb))).1
            (hmem b (Or.inr (Or.inl hb))).2)), hcBS, zero_add]
        exact sizeSum_nonneg hBS hlen _ (fun b hb => hmem b (Or.inr (Or.inl hb)))
      · exact le_refl _
    have hwok := File.waitLoop_ok off len _ _ _ _ _ _ _ w
      (File.applyEvents_WF env.pre hrdWF)
      (File.applyEvents_All Block.stable_not_failed env.pre (by
          rintro ⟨x, hx, hxf⟩
          rw [hpre x hx] at hxf
          exact absurd hxf (by simp))
        (File.AllBlocks_congr _ hcnf hrd.2.1))
      hwaits hrdok (by
        intro b hb
        rw [File.applyEvents_BS, hrd.1, hcBS]
        exact le_of_lt (overlapOut_size_pos hBS hlen (hmem b (Or.inl hb)).1
          (hmem b (Or.inl hb)).2)) hw
    rw [hfin]
    simp only [File.finishRead]
    unfold readTotal
    split_ifs with h1 h2
    · have := hdirect (by simpa using h1.1)
      omega
    · exact absurd (directHandler_errno _ _ hdone) h2
    · exact hwok

theorem File.Read_returns (st : File) (env : ReadEnv) (off len : Int)
    (hready : ∀ b ∈ (st.classifyRequest env.grant off len).2.blks_to_process,
      (((st.classifyRequest env.grant off len).1.readDisk env.diskRead off len
        (st.classifyRequest env.grant off len).2.blks_on_disk).1.applyEvents env.pre).finished b
        = true)
    (hdone : (directHandler (st.classifyRequest env.grant off len).2.blks_direct.length
      env.directDone).m_to_wait ≤ 0) :
    ∃ r, st.Read env off len = some r := by
  unfold File.Read
  dsimp only
  split_ifs with h1
  · exact ⟨_, rfl⟩
  · by_cases hnil : (st.classifyRequest env.grant off len).2.blks_to_process = []
    · rw [hnil]
      unfold File.waitLoop
      rw [if_neg (by simp)]
      dsimp only
      rw [if_neg (by omega)]
      exact ⟨_, rfl⟩
    · obtain ⟨w, hw⟩ := File.waitLoop_ready off len
        (env.waits.length + (st.classifyRequest env.grant off len).2.blks_to_process.length + 1)
        env.waits _ _ [] ((st.classifyRequest env.grant off len).1.readDisk env.diskRead off len
          (st.classifyRequest env.grant off len).2.blks_on_disk).2.1
        ((st.classifyRequest env.grant off len).1.readDisk env.diskRead off len
          (st.classifyRequest env.grant off len).2.blks_on_disk).2.2 hready (by
          have := List.length_pos.2 hnil
          omega)
      rw [hw]
      dsimp only
      rw [if_neg (by omega)]
      exact ⟨_, rfl⟩

/-- C1: for a positive block size, an offset that is not negative and a positive size,
whatever the fetches, the disk reads and the other threads do, a `Read` that returns
returns at most the requested size (the condition of the assertion at source line 644);
a return value that is not negative is exactly the requested size, and this is what is
returned when no disk read, no fetch and no pass-through read fails.  The call returns
when the blocks it waits for are finished when it looks at them and the pass-through
completions have arrived. -/
theorem C1_Read_returns_at_most_requested_size (st : File) (env : ReadEnv) (off len : Int)
    (hwf : st.WF) (hoff : 0 ≤ off) (hlen : 0 < len) :
    (∀ r, st.Read env off len = some r →
      r.ret ≤ len ∧ (0 ≤ r.ret → r.ret = len) ∧
      ((∀ pos n, env.diskRead pos n = n) → st.AllBlocks (fun x => x.m_failed = false) →
        (∀ e ∈ env.pre, e.isFailure = false) →
        (∀ es ∈ env.waits, ∀ e ∈ es, e.isFailure = false) →
        (∀ x ∈ env.directDone, 0 ≤ x.1) → r.ret = len)) ∧
    ((∀ b ∈ (st.classifyRequest env.grant off len).2.blks_to_process,
        (((st.classifyRequest env.grant off len).1.readDisk env.diskRead off len
          (st.classifyRequest env.grant off len).2.blks_on_disk).1.applyEvents env.pre).finished b
          = true) →
      (directHandler (st.classifyRequest env.grant off len).2.blks_direct.length
        env.directDone).m_to_wait ≤ 0 →
      ∃ r, st.Read env off len = some r) := by
  refine ⟨fun r hr => ⟨?_, File.Read_ret_of_nonneg st env off len r hwf hoff hlen hr, ?_⟩,
    File.Read_returns st env off len⟩
  · by_cases h0 : 0 ≤ r.ret
    · rw [File.Read_ret_of_nonneg st env off len r hwf hoff hlen hr h0]
    · omega
  · intro h1 h2 h3 h4 h5
    exact File.Read_ret_of_nonneg st env off len r hwf hoff hlen hr
      (File.Read_ret_ok st env off len r hwf hoff hlen hr h1 h2 h3 h4 h5)

/-- Witness of C1: block size 4, file size 10, `Read(buf, 2, 5)` over blocks 0 and 1, both
fetched successfully, returns 5. -/
theorem C1_witness :
    ∃ r, scenarioFile.Read scenarioFetchEnv 2 5 = some r ∧ r.ret = 5 ∧ r.ret ≤ 5 := by
  have hwf : scenarioFile.WF :=
    ⟨by decide, fun k b h => by simp [scenarioFile, File.fresh, BlockMap.find] at h⟩
  have hsome : (scenarioFile.Read scenarioFetchEnv 2 5).isSome = true := by decide
  obtain ⟨r, hr⟩ := Option.isSome_iff_exists.1 hsome
  have h := (C1_Read_returns_at_most_requested_size scenarioFile scenarioFetchEnv 2 5 hwf
    (by decide) (by decide)).1 r hr
  refine ⟨r, hr, ?_, h.1⟩
  exact h.2.2 (fun _ _ => rfl)
    (fun k b hk => by simp [scenarioFile, File.fresh, BlockMap.find] at hk)
    (by decide) (by decide) (by decide)

theorem File.RefInv_congr (st : File) {st1 : File} {H H1 : List Int} (h : st.RefInv H)
    (ha : st1.a_refcnt = st.a_refcnt) (hm : st1.m_block_map = st.m_block_map)
    (hq : st1.c_writeQ = st.c_writeQ) (hH : ∀ k, H1.count k = H.count k) : st1.RefInv H1 := by
  refine ⟨by rw [ha]; exact h.1, fun k b hk => ?_, fun k hk => ?_⟩
  · rw [hq, hH]; exact h.2.1 k b (hm ▸ hk)
  · rw [hq, hH]; exact h.2.2 k (hm ▸ hk)

theorem File.inc_ref_count_RefInv {st : File} {H : List Int} (b : Int) (h : st.RefInv H)
    (hb : (st.m_block_map.find b).isSome) : (st.inc_ref_count b).RefInv (b :: H) := by
  refine ⟨h.1, fun k blk hk => ?_, fun k hk => ?_⟩
  · rw [File.inc_ref_count_map, BlockMap.find_modify] at hk
    simp only [File.inc_ref_count_writeQ, List.count_cons]
    by_cases hkb : k = b
    · subst hkb
      rw [if_pos rfl] at hk
      cases hf : st.m_block_map.find k with
      | none => simp [hf] at hk
      | some x =>
        simp only [hf, Option.map_some', Option.some.injEq] at hk
        have := h.2.1 k x hf
        rw [← hk]
        simp only [beq_self_eq_true, if_true]
        push_cast
        omega
    · rw [if_neg hkb] at hk
      have := h.2.1 k blk hk
      have hne : (b == k) = false := by
        simp only [beq_eq_false_iff_ne, ne_eq]
        exact fun h => hkb h.symm
      simp only [hne]
      simpa using this
  · rw [File.inc_ref_count_map, BlockMap.find_modify] at hk
    have hk1 : st.m_block_map.find k = none := by
      split at hk
      · cases hf : st.m_block_map.find k with
        | none => rfl
        | some x => simp [hf] at hk
      · exact hk
    have hkb : k ≠ b := by
      rintro rfl
      rw [hk1] at hb
      simp at hb
    have hne : (b == k) = false := by
        simp only [beq_eq_false_iff_ne, ne_eq]
        exact fun h => hkb h.symm
    simp only [File.inc_ref_count_writeQ, List.count_cons, hne]
    simpa using h.2.2 k hk1

theorem File.free_block_RefInv {st : File} {H : List Int} (b : Int) (hwf : st.WF)
    (h : st.RefInv H) (hb : st.c_writeQ.count b = 0 ∧ H.count b = 0) :
    (st.free_block b).RefInv H := by
  cases hf : st.m_block_map.find b with
  | none =>
    exact File.RefInv_congr st h (by simp) (by rw [File.free_block_map, hf]) (by simp)
      (fun _ => rfl)
  | some blk =>
    have hm : (st.free_block b).m_block_map = st.m_block_map.erase b := by
      rw [File.free_block_map, hf]
      simp only
      rw [File.WF_key hwf hf]
    refine ⟨by simp [h.1], fun k x hk => ?_, fun k hk => ?_⟩
    · rw [hm, BlockMap.find_erase] at hk
      split at hk
      · exact absurd hk (by simp)
      · simpa using h.2.1 k x hk
    · rw [hm, BlockMap.find_erase] at hk
      by_cases hkb : k = b
      · subst hkb; simpa using hb
      · rw [if_neg hkb] at hk
        simpa using h.2.2 k hk

theorem File.dec_ref_count_slack {st : File} {H : List Int} (b : Int) (hwf : st.WF)
    (ha : st.a_refcnt = false)
    (h1 : ∀ k blk, st.m_block_map.find k = some blk →
      (if blk.m_failed then 1 else 0) + (st.c_writeQ.count k : Int) + (H.count k : Int)
        + (if k = b then 1 else 0) ≤ blk.m_refcnt)
    (h2 : ∀ k, st.m_block_map.find k = none → st.c_writeQ.count k = 0 ∧ H.count k = 0) :
    (st.dec_ref_count b).RefInv H := by
  cases hf : st.m_block_map.find b with
  | none =>
    have e : st.dec_ref_count b = st := by unfold File.dec_ref_count; rw [hf]
    rw [e]
    refine ⟨ha, fun k blk hk => ?_, h2⟩
    have := h1 k blk hk
    have hkb : k ≠ b := by
      rintro rfl
      rw [hf] at hk
      exact absurd hk (by simp)
    rw [if_neg hkb] at this
    simpa using this
  | some blk =>
    have hb := h1 b blk hf
    rw [if_pos rfl] at hb
    have hq : (0 : Int) ≤ (st.c_writeQ.count b : Int) := Int.natCast_nonneg _
    have hH : (0 : Int) ≤ (H.count b : Int) := Int.natCast_nonneg _
    have hfl : (0 : Int) ≤ (if blk.m_failed then 1 else 0) := by split_ifs <;> omega
    -- the state in which the count is lowered
    have hmid : ({ st with
        m_block_map := st.m_block_map.modify b (fun x => { x with m_refcnt := x.m_refcnt - 1 }),
        a_refcnt := st.a_refcnt || decide (blk.m_refcnt - 1 < 0) } : File).RefInv H := by
      refine ⟨?_, fun k x hk => ?_, fun k hk => ?_⟩
      · show (st.a_refcnt || decide (blk.m_refcnt - 1 < 0)) = false
        rw [ha]
        simp
        omega
      · simp only [BlockMap.find_modify] at hk
        by_cases hkb : k = b
        · subst hkb
          rw [if_pos rfl, hf] at hk
          simp only [Option.map_some', Option.some.injEq] at hk
          rw [← hk]
          show _ ≤ blk.m_refcnt - 1
          simp only
          omega
        · rw [if_neg hkb] at hk
          have := h1 k x hk
          rw [if_neg hkb] at this
          simpa using this
      · simp only [BlockMap.find_modify] at hk
        have hk1 : st.m_block_map.find k = none := by
          split at hk
          · cases hf1 : st.m_block_map.find k with
            | none => rfl
            | some x => simp [hf1] at hk
          · exact hk
        exact h2 k hk1
    unfold File.dec_ref_count
    rw [hf]
    dsimp only
    split_ifs with hz
    · refine File.free_block_RefInv b ?_ hmid ?_
      · exact File.WF_modify hwf b (fun x => { x with m_refcnt := x.m_refcnt - 1 })
          (fun _ => rfl) rfl rfl
      · show st.c_writeQ.count b = 0 ∧ H.count b = 0
        constructor <;> omega
    · exact hmid

theorem File.dec_ref_count_RefInv {st : File} {H : List Int} (b : Int) (hwf : st.WF)
    (h : st.RefInv (b :: H)) : (st.dec_ref_count b).RefInv H := by
  refine File.dec_ref_count_slack b hwf h.1 (fun k blk hk => ?_) (fun k hk => ?_)
  · have := h.2.1 k blk hk
    rw [List.count_cons] at this
    by_cases hkb : k = b
    · subst hkb; simp at this ⊢; omega
    · have hne : (b == k) = false := by
        simp only [beq_eq_false_iff_ne, ne_eq]
        exact fun h => hkb h.symm
      simp [hne, hkb] at this ⊢; omega
  · have := h.2.2 k hk
    rw [List.count_cons] at this
    exact ⟨this.1, by omega⟩

theorem File.RequestBlock_RefInv {st : File} {H : List Int} (i : Int) (pf : Bool)
    (h : st.RefInv H) (hi : st.m_block_map.find i = none) : (st.RequestBlock i pf).RefInv H := by
  have hc := h.2.2 i hi
  refine ⟨by simp [h.1], fun k x hk => ?_, fun k hk => ?_⟩
  · rw [File.RequestBlock_map, BlockMap.find_insert] at hk
    by_cases hki : k = i
    · subst hki
      rw [if_pos rfl] at hk
      simp only [Option.some.injEq] at hk
      rw [← hk]
      simp [Block.new, hc.1, hc.2]
    · rw [if_neg hki] at hk
      simpa using h.2.1 k x hk
  · rw [File.RequestBlock_map, BlockMap.find_insert] at hk
    by_cases hki : k = i
    · rw [if_pos hki] at hk; exact absurd hk (by simp)
    · rw [if_neg hki] at hk
      simpa using h.2.2 k hk

theorem BlockMap.find_modify_none {m : BlockMap} {i k : Int} {f : Block → Block} :
    BlockMap.find (BlockMap.modify m i f) k = none ↔ BlockMap.find m k = none := by
  rw [BlockMap.find_modify]
  split
  · cases BlockMap.find m k <;> simp
  · rfl

theorem File.ProcessBlockResponse_RefInv {st : File} {H : List Int} (b res err : Int)
    (hwf : st.WF) (h : st.RefInv H) : (st.ProcessBlockResponse b res err).RefInv H := by
  cases hf : st.m_block_map.find b with
  | none =>
    have e : st.ProcessBlockResponse b res err = st := by
      unfold File.ProcessBlockResponse; rw [hf]
    rw [e]; exact h
  | some blk =>
    have hb := h.2.1 b blk hf
    have hq : (0 : Int) ≤ (st.c_writeQ.count b : Int) := Int.natCast_nonneg _
    have hH : (0 : Int) ≤ (H.count b : Int) := Int.natCast_nonneg _
    have hfl : (0 : Int) ≤ (if blk.m_failed then 1 else 0) := by split_ifs <;> omega
    -- marking the block downloaded changes no count
    have hd : ({ st with m_block_map :=
        st.m_block_map.modify b (fun x => { x with m_downloaded := true }) } : File).RefInv H := by
      refine ⟨h.1, fun k x hk => ?_, fun k hk => h.2.2 k (BlockMap.find_modify_none.1 hk)⟩
      simp only [BlockMap.find_modify] at hk
      by_cases hkb : k = b
      · subst hkb
        rw [if_pos rfl, hf] at hk
        simp only [Option.map_some', Option.some.injEq] at hk
        rw [← hk]
        exact hb
      · rw [if_neg hkb] at hk
        exact h.2.1 k x hk
    have hdwf : ({ st with m_block_map :=
        st.m_block_map.modify b (fun x => { x with m_downloaded := true }) } : File).WF :=
      File.WF_modify hwf b (fun x => { x with m_downloaded := true }) (fun _ => rfl) rfl rfl
    unfold File.ProcessBlockResponse
    rw [hf]
    dsimp only
    by_cases hres : res ≥ 0
    · rw [if_pos hres]
      by_cases hs : ¬ st.m_stopping
      · rw [if_pos hs]
        refine ⟨h.1, fun k x hk => ?_, fun k hk => ?_⟩
        · simp only [File.inc_ref_count, BlockMap.find_modify] at hk ⊢
          by_cases hkb : k = b
          · subst hkb
            simp only [if_true, hf, Option.map_some', Option.some.injEq] at hk
            rw [← hk]
            simp only [List.count_append, List.count_singleton, beq_self_eq_true, if_true]
            push_cast
            omega
          · simp only [hkb, if_false] at hk
            have := h.2.1 k x hk
            have hne : (b == k) = false := by
              simp only [beq_eq_false_iff_ne, ne_eq]
              exact fun h => hkb h.symm
            simp only [List.count_append, List.count_singleton, hne]
            simpa using this
        · simp only [File.inc_ref_count] at hk ⊢
          have hk1 := BlockMap.find_modify_none.1 (BlockMap.find_modify_none.1 hk)
          have hkb : k ≠ b := by
            rintro rfl
            rw [hf] at hk1
            exact absurd hk1 (by simp)
          have hne : (b == k) = false := by
            simp only [beq_eq_false_iff_ne, ne_eq]
            exact fun h => hkb h.symm
          have := h.2.2 k hk1
          simp only [List.count_append, List.count_singleton, hne]
          simpa using this
      · rw [if_neg hs]
        split_ifs with hp
        · refine File.free_block_RefInv b hdwf hd ?_
          show st.c_writeQ.count b = 0 ∧ H.count b = 0
          constructor <;> omega
        · exact hd
    · rw [if_neg hres]
      refine ⟨h.1, fun k x hk => ?_, fun k hk => ?_⟩
      · simp only [File.inc_ref_count, BlockMap.find_modify] at hk ⊢
        by_cases hkb : k = b
        · subst hkb
          simp only [if_true, hf, Option.map_some', Option.some.injEq] at hk
          rw [← hk]
          simp only [Block.set_error_and_free, if_true]
          omega
        · simp only [hkb, if_false] at hk
          exact h.2.1 k x hk
      · simp only [File.inc_ref_count] at hk ⊢
        exact h.2.2 k (BlockMap.find_modify_none.1 (BlockMap.find_modify_none.1 hk))

theorem count_erase_add (Q : List Int) (b k : Int) (hb : b ∈ Q) :
    ((Q.erase b).count k : Int) + (if k = b then 1 else 0) = (Q.count k : Int) := by
  rw [List.count_erase]
  by_cases hkb : k = b
  · subst hkb
    have : 0 < Q.count k := List.count_pos_iff.2 hb
    simp only [beq_self_eq_true, if_true]
    omega
  · have hne : (b == k) = false := by
      simp only [beq_eq_false_iff_ne, ne_eq]
      exact fun h => hkb h.symm
    simp [hne, hkb]

theorem File.takeWrite_slack {st : File} {H : List Int} (b : Int) (h : st.RefInv H)
    (hb : b ∈ st.c_writeQ) :
    (∀ k blk, (st.takeWrite b).m_block_map.find k = some blk →
      (if blk.m_failed then 1 else 0) + ((st.takeWrite b).c_writeQ.count k : Int)
        + (H.count k : Int) + (if k = b then 1 else 0) ≤ blk.m_refcnt) ∧
    (∀ k, (st.takeWrite b).m_block_map.find k = none →
      (st.takeWrite b).c_writeQ.count k = 0 ∧ H.count k = 0) := by
  constructor
  · intro k blk hk
    have := h.2.1 k blk hk
    have e := count_erase_add st.c_writeQ b k hb
    rw [File.takeWrite_writeQ]
    omega
  · intro k hk
    have := h.2.2 k hk
    have e := count_erase_add st.c_writeQ b k hb
    rw [File.takeWrite_writeQ]
    have h0 : (0 : Int) ≤ ((st.c_writeQ.erase b).count k : Int) := Int.natCast_nonneg _
    refine ⟨?_, this.2⟩
    have : ((st.c_writeQ.count k : Nat) : Int) = 0 := by rw [this.1]; rfl
    split_ifs at e <;> omega

theorem File.RefInv_of_slack (st : File) {st1 : File} {H : List Int} (b : Int)
    (ha : st1.a_refcnt = false)
    (s1 : ∀ k blk, st.m_block_map.find k = some blk →
      (if blk.m_failed then 1 else 0) + (st.c_writeQ.count k : Int) + (H.count k : Int)
        + (if k = b then 1 else 0) ≤ blk.m_refcnt)
    (s2 : ∀ k, st.m_block_map.find k = none → st.c_writeQ.count k = 0 ∧ H.count k = 0)
    (hm : st1.m_block_map = st.m_block_map) (hq : st1.c_writeQ = st.c_writeQ) :
    st1.RefInv H := by
  refine ⟨ha, fun k blk hk => ?_, fun k hk => ?_⟩
  · rw [hq]
    have := s1 k blk (hm ▸ hk)
    have h0 : (0 : Int) ≤ (if k = b then 1 else 0) := by split_ifs <;> omega
    omega
  · rw [hq]; exact s2 k (hm ▸ hk)

theorem File.runWriteTask_RefInv {st : File} {H : List Int} (b : Int)
    (write : Nat → Int × Int) (hwf : st.WF) (h : st.RefInv H) :
    (st.runWriteTask b write).RefInv H := by
  unfold File.runWriteTask
  split_ifs with hb
  · obtain ⟨s1, s2⟩ := File.takeWrite_slack b h hb
    unfold File.WriteBlockToDisk
    split
    · exact File.RefInv_of_slack (st.takeWrite b) b h.1 s1 s2 rfl rfl
    · rename_i blk _
      dsimp only
      split_ifs
      · exact File.RefInv_of_slack (st.takeWrite b) b h.1 s1 s2 rfl rfl
      · have hd : ((({ st.takeWrite b with m_disk := ((st.takeWrite b).writeAttempt blk write).disk }
            : File).markFetched (Int.tdiv (blk.m_offset - (st.takeWrite b).m_offset)
              (st.takeWrite b).BS)).dec_ref_count b).RefInv H :=
          File.dec_ref_count_slack b (File.WF_congr st hwf rfl rfl) h.1 s1 s2
        exact File.RefInv_congr _ hd (by simp) (by simp) (by simp) (fun _ => rfl)
  · exact h

theorem File.dropWriteTask_RefInv {st : File} {H : List Int} (b : Int) (hwf : st.WF)
    (h : st.RefInv H) : (st.dropWriteTask b).RefInv H := by
  unfold File.dropWriteTask File.BlockRemovedFromWriteQ
  split_ifs with hb
  · obtain ⟨s1, s2⟩ := File.takeWrite_slack b h hb
    exact File.dec_ref_count_slack b (File.WF_congr st hwf rfl rfl) h.1 s1 s2
  · exact h

theorem File.purgeFailed_RefInv {st : File} {H : List Int} (keys : List Int) (hwf : st.WF)
    (h : st.RefInv H) : (st.purgeFailed keys).RefInv H := by
  unfold File.purgeFailed
  induction keys generalizing st with
  | nil => exact h
  | cons k t ih =>
    rw [List.foldl_cons]
    refine ih ?_ ?_
    · split
      · split_ifs
        · exact File.free_block_WF k hwf
        · exact hwf
      · exact hwf
    · split
      · rename_i blk hf
        split_ifs with hc
        · refine File.free_block_RefInv k hwf h ?_
          have := h.2.1 k blk hf
          have hq : (0 : Int) ≤ (st.c_writeQ.count k : Int) := Int.natCast_nonneg _
          have hH : (0 : Int) ≤ (H.count k : Int) := Int.natCast_nonneg _
          have hfl : blk.m_failed = true := hc.1
          rw [hfl, hc.2] at this
          simp only [if_true] at this
          constructor <;> omega
        · exact h
      · exact h

theorem File.InitiateClose_RefInv {st : File} {H : List Int} (hwf : st.WF) (h : st.RefInv H) :
    st.InitiateClose.1.RefInv H := by
  have hm : st.markStopping.RefInv H :=
    File.RefInv_congr st h (by simp) (by simp) (by simp) (fun _ => rfl)
  unfold File.InitiateClose
  dsimp only
  split_ifs
  all_goals first
    | exact hm
    | exact File.purgeFailed_RefInv _ (File.markStopping_WF hwf) hm

theorem File.prefetchScan_none (st : File) (fuel : Nat) (f r : Int)
    (h : st.prefetchScan fuel f = some r) : st.m_block_map.find r = none := by
  induction fuel generalizing f with
  | zero => simp [File.prefetchScan] at h
  | succ n ih =>
    unfold File.prefetchScan at h
    by_cases h1 : f < st.sizeInBits
    · rw [if_pos h1] at h
      by_cases h2 : ¬ st.TestBit f
      · rw [if_pos h2] at h
        dsimp only at h
        cases hn : st.m_block_map.find (f + Int.tdiv st.m_offset st.BS) with
        | none =>
          rw [hn] at h
          simp only [Option.some.injEq] at h
          rw [← h]; exact hn
        | some v =>
          rw [hn] at h
          exact ih _ h
      · rw [if_neg h2] at h
        exact ih _ h
    · rw [if_neg h1] at h
      exact absurd h (by simp)

theorem File.Prefetch_RefInv {st : File} {H : List Int} (g : Bool) (h : st.RefInv H) :
    (st.Prefetch g).RefInv H := by
  unfold File.Prefetch
  dsimp only
  split_ifs
  · split
    · rename_i f hf
      have h0 : (st.RequestRAMBlock g).RefInv H :=
        File.RefInv_congr st h (by simp) (by simp) (by simp) (fun _ => rfl)
      have h1 := File.RequestBlock_RefInv f true h0 (by
        rw [File.RequestRAMBlock_map]
        exact File.prefetchScan_none st _ _ _ hf)
      exact File.RefInv_congr _ h1 rfl rfl rfl (fun _ => rfl)
    · exact File.RefInv_congr st h rfl rfl rfl (fun _ => rfl)
  · exact File.RefInv_congr st h rfl rfl rfl (fun _ => rfl)

theorem File.applyEvent_RefInv {st : File} {H : List Int} (e : Event) (hwf : st.WF)
    (h : st.RefInv H) : (st.applyEvent e).RefInv H := by
  cases e with
  | response b res err data =>
    show (st.deliver b res err data).RefInv H
    unfold File.deliver
    split_ifs
    · refine File.ProcessBlockResponse_RefInv b res err
        (File.WF_modify hwf b (fun x => { x with m_buff := data }) (fun _ => rfl) rfl rfl) ?_
      refine ⟨h.1, fun k x hk => ?_, fun k hk => h.2.2 k (BlockMap.find_modify_none.1 hk)⟩
      simp only [File.fillBuffer, BlockMap.find_modify] at hk ⊢
      by_cases hkb : k = b
      · subst hkb
        cases hf : st.m_block_map.find k with
        | none => simp [hf] at hk
        | some y =>
          simp only [if_true, hf, Option.map_some', Option.some.injEq] at hk
          rw [← hk]
          exact h.2.1 k y hf
      · simp only [hkb, if_false] at hk
        exact h.2.1 k x hk
    · exact h
  | writeBack b write => exact File.runWriteTask_RefInv b write hwf h
  | removedFromWriteQ b => exact File.dropWriteTask_RefInv b hwf h
  | prefetchCall g =>
    exact File.Prefetch_RefInv g (File.RefInv_congr st h rfl rfl rfl (fun _ => rfl))
  | sync =>
    exact File.RefInv_congr st h (File.Sync_a_refcnt st) (File.Sync_map st) (File.Sync_writeQ st)
      (fun _ => rfl)
  | initiateClose => exact File.InitiateClose_RefInv hwf h

theorem File.applyEvents_RefInv {st : File} {H : List Int} (es : List Event) (hwf : st.WF)
    (h : st.RefInv H) : (st.applyEvents es).RefInv H := by
  unfold File.applyEvents
  induction es generalizing st with
  | nil => exact h
  | cons e t ih => exact ih (File.applyEvent_WF e hwf) (File.applyEvent_RefInv e hwf h)

@[simp] theorem File.CheckPrefetchStatDisk_writeQ (st : File) (i : Int) :
    (st.CheckPrefetchStatDisk i).c_writeQ = st.c_writeQ := by
  unfold File.CheckPrefetchStatDisk; split_ifs <;> rfl

@[simp] theorem File.CheckPrefetchStatDisk_a_refcnt (st : File) (i : Int) :
    (st.CheckPrefetchStatDisk i).a_refcnt = st.a_refcnt := by
  unfold File.CheckPrefetchStatDisk; split_ifs <;> rfl

@[simp] theorem File.CheckPrefetchStatRAM_writeQ (st : File) (blk : Block) :
    (st.CheckPrefetchStatRAM blk).c_writeQ = st.c_writeQ := by
  unfold File.CheckPrefetchStatRAM; split_ifs <;> rfl

@[simp] theorem File.CheckPrefetchStatRAM_a_refcnt (st : File) (blk : Block) :
    (st.CheckPrefetchStatRAM blk).a_refcnt = st.a_refcnt := by
  unfold File.CheckPrefetchStatRAM; split_ifs <;> rfl

theorem File.ReadBlocksFromDisk_frame (diskRead : Int → Int → Int) (off len : Int)
    (blocks : List Int) (st : File) (total : Int) (cp : Copies) :
    (File.ReadBlocksFromDisk diskRead off len blocks st total cp).1.c_writeQ = st.c_writeQ ∧
    (File.ReadBlocksFromDisk diskRead off len blocks st total cp).1.a_refcnt = st.a_refcnt := by
  induction blocks generalizing st total cp with
  | nil => simp [File.ReadBlocksFromDisk]
  | cons x t ih =>
    unfold File.ReadBlocksFromDisk
    dsimp only
    split_ifs
    · exact ⟨rfl, rfl⟩
    · exact ⟨rfl, rfl⟩
    · have := ih (st.CheckPrefetchStatDisk x)
        (total + diskRead (x * st.BS + (overlapOut x st.BS off len).2.1 - st.m_offset)
          (overlapOut x st.BS off len).2.2)
        (cp ++ [((overlapOut x st.BS off len).1, st.m_disk.read
          (x * st.BS + (overlapOut x st.BS off len).2.1 - st.m_offset)
          (diskRead (x * st.BS + (overlapOut x st.BS off len).2.1 - st.m_offset)
            (overlapOut x st.BS off len).2.2).toNat)])
      simpa using this

theorem File.readDisk_frame (st : File) (diskRead : Int → Int → Int) (off len : Int)
    (l : List Int) :
    (st.readDisk diskRead off len l).1.c_writeQ = st.c_writeQ ∧
    (st.readDisk diskRead off len l).1.a_refcnt = st.a_refcnt := by
  unfold File.readDisk
  split_ifs
  · exact File.ReadBlocksFromDisk_frame diskRead off len l st 0 []
  · exact ⟨rfl, rfl⟩

theorem File.processFinished_frame (off len : Int) (l : List Int) (st : File) (bytes : Int)
    (cp : Copies) :
    (File.processFinished off len l st bytes cp).1.BS = st.BS ∧
    (File.processFinished off len l st bytes cp).1.m_block_map = st.m_block_map ∧
    (File.processFinished off len l st bytes cp).1.c_writeQ = st.c_writeQ ∧
    (File.processFinished off len l st bytes cp).1.a_refcnt = st.a_refcnt := by
  induction l generalizing st bytes cp with
  | nil => simp [File.processFinished]
  | cons x t ih =>
    unfold File.processFinished
    split
    · exact ih st bytes cp
    · rename_i blk _
      split_ifs
      · have := ih (st.CheckPrefetchStatRAM blk)
          (bytes + (overlapOut (Int.tdiv blk.m_offset st.BS) st.BS off len).2.2)
          (cp ++ [((overlapOut (Int.tdiv blk.m_offset st.BS) st.BS off len).1,
            ((blk.m_buff.drop (overlapOut (Int.tdiv blk.m_offset st.BS) st.BS off len).2.1.toNat).take
              (overlapOut (Int.tdiv blk.m_offset st.BS) st.BS off len).2.2.toNat).map some)])
        simpa using this
      · exact ⟨rfl, rfl, rfl, rfl⟩

theorem File.classify_RefInv (grant : Int → Bool) (n : Nat) (i : Int) (st : File)
    (l : ReadLists) (hwf : st.WF) (h : st.RefInv l.blks_to_process) :
    (File.classify grant n i st l).1.RefInv (File.classify grant n i st l).2.blks_to_process := by
  induction n generalizing i st l with
  | zero => exact h
  | succ n ih =>
    unfold File.classify
    split
    · rename_i blk hf
      exact ih _ _ _ (File.inc_ref_count_WF i hwf)
        (File.inc_ref_count_RefInv i h (by rw [hf]; rfl))
    · rename_i hf
      split_ifs
      · exact ih _ _ _ hwf h
      · dsimp only
        have h0 : (st.RequestRAMBlock true).RefInv l.blks_to_process :=
          File.RefInv_congr st h (by simp) (by simp) (by simp) (fun _ => rfl)
        have h1 := File.RequestBlock_RefInv i false h0 (by rw [File.RequestRAMBlock_map]; exact hf)
        have h2 := File.inc_ref_count_RefInv i h1 (by
          rw [File.RequestBlock_map, BlockMap.find_insert, if_pos rfl]; rfl)
        refine ih _ _ _ (File.inc_ref_count_WF i (File.RequestBlock_WF i false
          (File.WF_congr st hwf (by simp) (by simp)))) ?_
        exact File.RefInv_congr _ h2 rfl rfl rfl (fun k => by
          simp only [List.count_append, List.count_cons, List.count_nil]
          omega)
      · exact ih _ _ _ hwf h

theorem File.releaseAll_RefInv {st : File} (L H : List Int) (hwf : st.WF)
    (h : st.RefInv (L ++ H)) : (st.releaseAll L).WF ∧ (st.releaseAll L).RefInv H := by
  unfold File.releaseAll
  induction L generalizing st with
  | nil => exact ⟨hwf, h⟩
  | cons b t ih =>
    rw [List.foldl_cons]
    exact ih (File.dec_ref_count_WF b hwf) (File.dec_ref_count_RefInv b hwf h)

theorem count_filter_add (p : Int → Bool) (l : List Int) (k : Int) :
    (l.filter p).count k + (l.filter (fun b => ! p b)).count k = l.count k := by
  induction l with
  | nil => rfl
  | cons x t ih =>
    by_cases hp : p x
    · simp only [List.filter_cons, hp, if_true, Bool.not_true, List.count_cons]
      simp only [Bool.false_eq_true, if_false]
      omega
    · simp only [List.filter_cons, hp, Bool.not_false, if_true, List.count_cons]
      simp only [Bool.false_eq_true, if_false]
      omega

theorem File.waitLoop_RefInv (off len : Int) (fuel : Nat) (waits : List (List Event))
    (st : File) (tp done : List Int) (bytes : Int) (cp : Copies) (w : WaitResult)
    (hwf : st.WF) (h : st.RefInv (done ++ tp))
    (hw : File.waitLoop off len fuel waits st tp done bytes cp = some w) :
    w.st.RefInv (w.blks_processed ++ w.blks_to_process) := by
  induction fuel generalizing waits st tp done bytes cp with
  | zero => simp [File.waitLoop] at hw
  | succ n ih =>
    unfold File.waitLoop at hw
    by_cases hc : tp ≠ [] ∧ bytes ≥ 0
    · rw [if_pos hc] at hw
      dsimp only at hw
      by_cases hf : tp.filter (fun b => st.finished b) = []
      · rw [if_pos hf] at hw
        cases waits with
        | nil => simp at hw
        | cons e es =>
          simp only at hw
          exact ih es (st.applyEvents e) tp done bytes cp (File.applyEvents_WF e hwf)
            (File.applyEvents_RefInv e hwf h) hw
      · rw [if_neg hf] at hw
        obtain ⟨f1, f2, f3, f4⟩ := File.processFinished_frame off len
          (tp.filter (fun b => st.finished b)) st bytes cp
        refine ih waits _ _ _ _ _ (File.WF_congr st hwf f1 f2) ?_ hw
        refine File.RefInv_congr st h f4 f2 f3 (fun k => ?_)
        have e1 := count_filter_add (fun b => st.finished b) tp k
        simp only [List.count_append]
        omega
    · rw [if_neg hc] at hw
      simp only [Option.some.injEq] at hw
      subst hw
      exact h

theorem File.classifyRequest_RefInv {st : File} (grant : Int → Bool) (off len : Int)
    (hwf : st.WF) (h : st.RefInv []) :
    (st.classifyRequest grant off len).1.WF ∧
      (st.classifyRequest grant off len).1.RefInv
        (st.classifyRequest grant off len).2.blks_to_process :=
  ⟨File.classify_WF _ _ _ _ _ hwf, File.classify_RefInv _ _ _ _ _ hwf h⟩

theorem File.Read_RefInv {st : File} {env : ReadEnv} {off len : Int} {r : ReadResult}
    (hwf : st.WF) (h : st.RefInv []) (hr : st.Read env off len = some r) :
    r.st.WF ∧ r.st.RefInv [] := by
  obtain ⟨hcWF, hcR⟩ := File.classifyRequest_RefInv env.grant off len hwf h
  rcases File.Read_cases hr with ⟨_, _, hab⟩ | ⟨_, w, hw, _, hfin⟩
  · rw [hab]
    exact File.releaseAll_RefInv _ [] hcWF (by rw [List.append_nil]; exact hcR)
  · have hrd := File.readDisk_spec (st.classifyRequest env.grant off len).1 env.diskRead off len
      (st.classifyRequest env.grant off len).2.blks_on_disk
    have hrdf := File.readDisk_frame (st.classifyRequest env.grant off len).1 env.diskRead off len
      (st.classifyRequest env.grant off len).2.blks_on_disk
    have hrdWF : ((st.classifyRequest env.grant off len).1.readDisk env.diskRead off len
        (st.classifyRequest env.grant off len).2.blks_on_disk).1.WF :=
      File.WF_congr _ hcWF hrd.1 hrd.2.1
    have hrdR : ((st.classifyRequest env.grant off len).1.readDisk env.diskRead off len
        (st.classifyRequest env.grant off len).2.blks_on_disk).1.RefInv
          ([] ++ (st.classifyRequest env.grant off len).2.blks_to_process) :=
      File.RefInv_congr _ hcR hrdf.2 hrd.2.1 hrdf.1 (fun _ => by rw [List.nil_append])
    have hwWF := (File.waitLoop_spec off len _ _ _ _ _ _ _ w
      (File.applyEvents_WF env.pre hrdWF) hw).1
    have hwR := File.waitLoop_RefInv off len _ _ _ _ _ _ _ w
      (File.applyEvents_WF env.pre hrdWF) (File.applyEvents_RefInv env.pre hrdWF hrdR) hw
    have h3WF := File.applyEvents_WF env.post hwWF
    have h3R := File.applyEvents_RefInv env.post hwWF hwR
    rw [hfin]
    simp only [File.finishRead]
    exact File.releaseAll_RefInv _ [] (File.WF_congr _ h3WF rfl rfl)
      (by rw [List.append_nil]; exact File.RefInv_congr _ h3R rfl rfl rfl (fun _ => rfl))

theorem File.fresh_WF (bs bits off size : Int) (maxBlocks : Nat) (h : 0 < bs) :
    (File.fresh bs bits off size maxBlocks).WF :=
  ⟨h, fun k b hk => by simp [File.fresh, BlockMap.find] at hk⟩

theorem File.fresh_RefInv (bs bits off size : Int) (maxBlocks : Nat) :
    (File.fresh bs bits off size maxBlocks).RefInv [] :=
  ⟨rfl, fun k b hk => by simp [File.fresh, BlockMap.find] at hk,
    fun k _ => by simp [File.fresh]⟩

theorem File.Reachable.inv {st : File} (h : st.Reachable) : st.WF ∧ st.RefInv [] := by
  induction h with
  | fresh bs bits off size maxBlocks hbs =>
    exact ⟨File.fresh_WF bs bits off size maxBlocks hbs, File.fresh_RefInv bs bits off size maxBlocks⟩
  | event st e _ ih => exact ⟨File.applyEvent_WF e ih.1, File.applyEvent_RefInv e ih.1 ih.2⟩
  | read st env off len r _ hr ih => exact File.Read_RefInv ih.1 ih.2 hr

/-- C5: in every state reached from a freshly opened file by reads and by the steps of
the other threads (completions of fetches in flight, one write-back or one removal per
queued write task, prefetch, sync, close initiation), every block of the map has a
reference count that is not negative, and the assertion of `dec_ref_count` has never
failed. -/
theorem C5_reference_count_never_negative (st : File) (h : st.Reachable) :
    (∀ k b, st.m_block_map.find k = some b → 0 ≤ b.m_refcnt) ∧ st.a_refcnt = false := by
  obtain ⟨_, hR⟩ := h.inv
  refine ⟨fun k b hk => ?_, hR.1⟩
  have := hR.2.1 k b hk
  have hq : (0 : Int) ≤ (st.c_writeQ.count k : Int) := Int.natCast_nonneg _
  have hfl : (0 : Int) ≤ (if b.m_failed then 1 else 0) := by split_ifs <;> omega
  simp only [List.count_nil, Nat.cast_zero, add_zero] at this
  omega

/-- Witness of C5: the state after `Read(buf, 2, 5)` on the fresh file of the scenario
is reachable; its two blocks hold the reference of their write task. -/
theorem C5_witness :
    ∃ r, scenarioFile.Read scenarioFetchEnv 2 5 = some r ∧ r.st.Reachable ∧
      (∀ k b, r.st.m_block_map.find k = some b → 0 ≤ b.m_refcnt) ∧ r.st.a_refcnt = false := by
  have hsome : (scenarioFile.Read scenarioFetchEnv 2 5).isSome = true := by decide
  obtain ⟨r, hr⟩ := Option.isSome_iff_exists.1 hsome
  have hreach : r.st.Reachable :=
    File.Reachable.read scenarioFile scenarioFetchEnv 2 5 r
      (File.Reachable.fresh 4 3 0 10 10 (by decide)) hr
  exact ⟨r, hr, hreach, C5_reference_count_never_negative r.st hreach⟩

/-! ## What one `Read` does to the reference counts -/

theorem File.dec_ref_count_find {st : File} (hwf : st.WF) (b k : Int) :
    (st.dec_ref_count b).m_block_map.find k =
      if k = b then
        match st.m_block_map.find b with
        | none => none
        | some blk =>
          if blk.m_refcnt - 1 = 0 ∧ blk.is_finished then none
          else some { blk with m_refcnt := blk.m_refcnt - 1 }
      else st.m_block_map.find k := by
  rw [File.dec_ref_count_map]
  cases hf : st.m_block_map.find b with
  | none =>
    dsimp only
    by_cases hkb : k = b
    · rw [if_pos hkb, hkb, hf]
    · rw [if_neg hkb]
  | some blk =>
    dsimp only
    rw [File.WF_key hwf hf]
    by_cases hz : blk.m_refcnt - 1 = 0 ∧ blk.is_finished
    · rw [if_pos hz, if_pos hz, BlockMap.find_erase, BlockMap.find_modify]
      by_cases hkb : k = b
      · rw [if_pos hkb, if_pos hkb]
      · rw [if_neg hkb, if_neg hkb, if_neg hkb]
    · rw [if_neg hz, if_neg hz, BlockMap.find_modify]
      by_cases hkb : k = b
      · rw [if_pos hkb, if_pos hkb, hkb, hf]; rfl
      · rw [if_neg hkb, if_neg hkb]

theorem File.releaseAll_refcnt {st : File} (hwf : st.WF) (L : List Int) (k n : Int)
    (h : st.m_block_map.find k = none ∨ ∃ b, st.m_block_map.find k = some b ∧ b.m_refcnt = n) :
    (st.releaseAll L).m_block_map.find k = none ∨
      ∃ b, (st.releaseAll L).m_block_map.find k = some b ∧ b.m_refcnt = n - L.count k := by
  unfold File.releaseAll
  induction L generalizing st n with
  | nil => simpa using h
  | cons x t ih =>
    rw [List.foldl_cons]
    have hstep : (st.dec_ref_count x).m_block_map.find k = none ∨
        ∃ b, (st.dec_ref_count x).m_block_map.find k = some b
          ∧ b.m_refcnt = n - (if x = k then 1 else 0) := by
      rw [File.dec_ref_count_find hwf]
      by_cases hkx : k = x
      · subst hkx
        rw [if_pos rfl]
        rcases h with h | ⟨b, hb, hn⟩
        · rw [h]; exact Or.inl rfl
        · rw [hb]
          dsimp only
          by_cases hz : b.m_refcnt - 1 = 0 ∧ b.is_finished
          · rw [if_pos hz]; exact Or.inl rfl
          · rw [if_neg hz]
            exact Or.inr ⟨_, rfl, by simp [hn]⟩
      · rw [if_neg hkx]
        have : ¬ x = k := fun h => hkx h.symm
        rw [if_neg this]
        simpa using h
    have := ih (File.dec_ref_count_WF x hwf) _ hstep
    rcases this with h1 | ⟨b, hb, hn⟩
    · exact Or.inl h1
    · refine Or.inr ⟨b, hb, ?_⟩
      rw [hn, List.count_cons]
      by_cases hxk : x = k
      · simp [hxk]; ring
      · have hne : (x == k) = false := by simpa using hxk
        simp [hxk, hne]

theorem File.inc_ref_count_refcntOf (st : File) (b k : Int)
    (hb : (st.m_block_map.find b).isSome) :
    (st.inc_ref_count b).refcntOf k = st.refcntOf k + (if k = b then 1 else 0) := by
  unfold File.refcntOf
  rw [File.inc_ref_count_map, BlockMap.find_modify]
  by_cases hkb : k = b
  · subst hkb
    rw [if_pos rfl, if_pos rfl]
    cases hf : st.m_block_map.find k with
    | none => rw [hf] at hb; simp at hb
    | some x => rfl
  · rw [if_neg hkb, if_neg hkb, add_zero]

theorem File.classify_refcntOf (grant : Int → Bool) (n : Nat) (i : Int) (st : File)
    (l : ReadLists) (k : Int) :
    (File.classify grant n i st l).1.refcntOf k + l.blks_to_process.count k
      = st.refcntOf k + (File.classify grant n i st l).2.blks_to_process.count k := by
  induction n generalizing i st l with
  | zero => rfl
  | succ n ih =>
    unfold File.classify
    split
    · rename_i blk hf
      have := ih (i + 1) (st.inc_ref_count i)
        { l with blks_to_process := i :: l.blks_to_process }
      rw [File.inc_ref_count_refcntOf st i k (by rw [hf]; rfl)] at this
      simp only [List.count_cons] at this
      by_cases hki : k = i
      · subst hki; simp at this; omega
      · have hne : (i == k) = false := by
          simp only [beq_eq_false_iff_ne, ne_eq]
          exact fun h => hki h.symm
        simp [hki, hne] at this; omega
    · rename_i hf
      split_ifs
      · exact ih _ _ _
      · dsimp only
        have := ih (i + 1) (((st.RequestRAMBlock true).RequestBlock i false).inc_ref_count i)
          { l with blks_to_process := l.blks_to_process ++ [i] }
        rw [File.inc_ref_count_refcntOf _ i k (by
          rw [File.RequestBlock_map, BlockMap.find_insert, if_pos rfl]; rfl)] at this
        have e : ((st.RequestRAMBlock true).RequestBlock i false).refcntOf k = st.refcntOf k := by
          unfold File.refcntOf
          rw [File.RequestBlock_map, BlockMap.find_insert, File.RequestRAMBlock_map]
          by_cases hki : k = i
          · subst hki; rw [if_pos rfl, hf]; rfl
          · rw [if_neg hki]
        rw [e] at this
        simp only [List.count_append, List.count_cons, List.count_nil] at this
        by_cases hki : k = i
        · subst hki; simp at this; omega
        · have hne : (i == k) = false := by
            simp only [beq_eq_false_iff_ne, ne_eq]
            exact fun h => hki h.symm
          simp [hki, hne] at this; omega
      · exact ih _ _ _

theorem File.waitLoop_perm (off len : Int) (fuel : Nat) (waits : List (List Event))
    (st : File) (tp done : List Int) (bytes : Int) (cp : Copies) (w : WaitResult)
    (hw : File.waitLoop off len fuel waits st tp done bytes cp = some w) :
    (w.blks_processed ++ w.blks_to_process).Perm (done ++ tp) := by
  induction fuel generalizing waits st tp done bytes cp with
  | zero => simp [File.waitLoop] at hw
  | succ n ih =>
    unfold File.waitLoop at hw
    by_cases hc : tp ≠ [] ∧ bytes ≥ 0
    · rw [if_pos hc] at hw
      dsimp only at hw
      by_cases hf : tp.filter (fun b => st.finished b) = []
      · rw [if_pos hf] at hw
        cases waits with
        | nil => simp at hw
        | cons e es => exact ih es _ tp done bytes cp hw
      · rw [if_neg hf] at hw
        refine (ih waits _ _ _ _ _ hw).trans ?_
        rw [List.append_assoc]
        refine List.Perm.append_left done ?_
        have := List.filter_append_perm (fun b => st.finished b) tp
        simpa using this
    · rw [if_neg hc] at hw
      simp only [Option.some.injEq] at hw
      subst hw
      exact List.Perm.refl _

theorem File.waitLoop_quiet (off len : Int) (fuel : Nat) (st : File) (tp done : List Int)
    (bytes : Int) (cp : Copies) (w : WaitResult)
    (hw : File.waitLoop off len fuel [] st tp done bytes cp = some w) :
    w.st.BS = st.BS ∧ w.st.m_block_map = st.m_block_map := by
  induction fuel generalizing st tp done bytes cp with
  | zero => simp [File.waitLoop] at hw
  | succ n ih =>
    unfold File.waitLoop at hw
    by_cases hc : tp ≠ [] ∧ bytes ≥ 0
    · rw [if_pos hc] at hw
      dsimp only at hw
      by_cases hf : tp.filter (fun b => st.finished b) = []
      · rw [if_pos hf] at hw
        simp at hw
      · rw [if_neg hf] at hw
        obtain ⟨f1, f2, _, _⟩ := File.processFinished_frame off len
          (tp.filter (fun b => st.finished b)) st bytes cp
        have := ih _ _ _ _ _ hw
        rw [f1, f2] at this
        exact this
    · rw [if_neg hc] at hw
      simp only [Option.some.injEq] at hw
      subst hw
      exact ⟨rfl, rfl⟩

theorem File.Read_lists {st : File} {env : ReadEnv} {off len : Int} {r : ReadResult}
    (hr : st.Read env off len = some r) : r.lists = (st.classifyRequest env.grant off len).2 := by
  rcases File.Read_cases hr with ⟨_, _, hab⟩ | ⟨_, w, _, _, hfin⟩
  · rw [hab]; rfl
  · rw [hfin]; rfl

theorem File.find_or_refcntOf (st : File) (k : Int) :
    st.m_block_map.find k = none ∨
      ∃ b, st.m_block_map.find k = some b ∧ b.m_refcnt = st.refcntOf k := by
  unfold File.refcntOf
  cases st.m_block_map.find k with
  | none => exact Or.inl rfl
  | some b => exact Or.inr ⟨b, rfl, rfl⟩

theorem File.find_or_congr {st st1 : File} (hm : st1.m_block_map = st.m_block_map) (k n : Int)
    (h : st.m_block_map.find k = none ∨ ∃ b, st.m_block_map.find k = some b ∧ b.m_refcnt = n) :
    st1.m_block_map.find k = none ∨ ∃ b, st1.m_block_map.find k = some b ∧ b.m_refcnt = n := by
  rw [hm]; exact h

/-- C4: on every path on which `Read` returns, the pointers it gives to `dec_ref_count`
are, up to order, exactly the blocks of `blks_to_process`, which are the blocks whose
count the classification raised, each by one; when no other thread acts during the call,
every block that is still in the map afterwards has the reference count it had before
(a block the call created has count 0). -/
theorem C4_Read_releases_what_it_took (st : File) (env : ReadEnv) (off len : Int)
    (r : ReadResult) (hwf : st.WF) (hr : st.Read env off len = some r) :
    r.released.Perm r.lists.blks_to_process ∧
    (∀ k, (st.classifyRequest env.grant off len).1.refcntOf k
      = st.refcntOf k + r.lists.blks_to_process.count k) ∧
    (env.pre = [] → env.waits = [] → env.post = [] →
      ∀ k, r.st.m_block_map.find k = none ∨
        ∃ b1, r.st.m_block_map.find k = some b1 ∧ b1.m_refcnt = st.refcntOf k) := by
  have hl := File.Read_lists hr
  have hcnt : ∀ k, (st.classifyRequest env.grant off len).1.refcntOf k
      = st.refcntOf k + (st.classifyRequest env.grant off len).2.blks_to_process.count k := by
    intro k
    have := File.classify_refcntOf env.grant
      (Int.tdiv (off + len - 1) st.BS - Int.tdiv off st.BS + 1).toNat (Int.tdiv off st.BS) st
      { blks_to_process := [], blks_on_disk := [], blks_direct := [] } k
    simp only [List.count_nil, Nat.cast_zero, add_zero] at this
    exact this
  have hcWF : (st.classifyRequest env.grant off len).1.WF := File.classify_WF _ _ _ _ _ hwf
  rw [hl]
  refine ⟨?_, hcnt, ?_⟩
  · rcases File.Read_cases hr with ⟨_, _, hab⟩ | ⟨_, w, hw, _, hfin⟩
    · rw [hab]; exact List.Perm.refl _
    · rw [hfin]
      have := File.waitLoop_perm off len _ _ _ _ _ _ _ w hw
      simpa [File.finishRead] using this
  · intro hpre hwaits hpost k
    have h0 := File.find_or_refcntOf (st.classifyRequest env.grant off len).1 k
    rw [hcnt k] at h0
    rcases File.Read_cases hr with ⟨_, _, hab⟩ | ⟨_, w, hw, _, hfin⟩
    · rw [hab]
      have := File.releaseAll_refcnt hcWF
        (st.classifyRequest env.grant off len).2.blks_to_process k _ h0
      simpa [File.abortRead] using this
    · have hrd := File.readDisk_spec (st.classifyRequest env.grant off len).1 env.diskRead off
        len (st.classifyRequest env.grant off len).2.blks_on_disk
      rw [hpre, hwaits] at hw
      have hq := File.waitLoop_quiet off len _ _ _ _ _ _ w hw
      have hm : w.st.m_block_map = (st.classifyRequest env.grant off len).1.m_block_map := by
        rw [hq.2]; exact hrd.2.1
      have hb : w.st.BS = (st.classifyRequest env.grant off len).1.BS := by
        rw [hq.1]; exact hrd.1
      have hperm := File.waitLoop_perm off len _ _ _ _ _ _ _ w hw
      rw [List.nil_append] at hperm
      rw [hfin, hpost]
      simp only [File.finishRead, File.applyEvents, List.foldl_nil]
      have hWF4 : ({ w.st with
          m_errno := readErrno (decide ((st.classifyRequest env.grant off len).2.blks_direct ≠ []))
            w.bytes_read (directHandler (st.classifyRequest env.grant off len).2.blks_direct.length
              env.directDone) w.st.m_errno,
          a_read := w.st.a_read || decide (¬ (len ≥ readTotal
            (decide ((st.classifyRequest env.grant off len).2.blks_direct ≠ [])) w.bytes_read
            (directHandler (st.classifyRequest env.grant off len).2.blks_direct.length
              env.directDone)
            ((st.classifyRequest env.grant off len).1.sendDirect
              (st.classifyRequest env.grant off len).2.blks_direct off len).1)) } : File).WF :=
        File.WF_congr _ hcWF hb hm
      have := File.releaseAll_refcnt hWF4 (w.blks_processed ++ w.blks_to_process) k _
        (File.find_or_congr (show _ = (st.classifyRequest env.grant off len).1.m_block_map from hm)
          k _ h0)
      rw [hperm.count_eq k] at this
      simpa using this

/-- Witness of C4: `Read(buf, 2, 5)` of the scenario takes blocks 0 and 1 and releases
both. -/
theorem C4_witness :
    ∃ r, scenarioFile.Read scenarioFetchEnv 2 5 = some r ∧
      r.released.Perm r.lists.blks_to_process ∧ r.released = [0, 1] := by
  have hsome : (scenarioFile.Read scenarioFetchEnv 2 5).isSome = true := by decide
  obtain ⟨r, hr⟩ := Option.isSome_iff_exists.1 hsome
  have hrel : (scenarioFile.Read scenarioFetchEnv 2 5).map (fun x => x.released)
      = some [0, 1] := by decide
  rw [hr] at hrel
  simp only [Option.map_some', Option.some.injEq] at hrel
  exact ⟨r, hr, (C4_Read_releases_what_it_took scenarioFile scenarioFetchEnv 2 5 r
    (File.fresh_WF 4 3 0 10 10 (by decide)) hr).1, hrel⟩

/-! ## What the operations leave alone -/

@[simp] theorem File.free_block_view (st : File) (b k : Int) :
    (st.free_block b).view k = st.view k := by
  unfold File.free_block File.RegisterPrefetchFile
  split
  · rfl
  · dsimp only; split_ifs <;> rfl

@[simp] theorem File.markFetched_view (st : File) (i k : Int) :
    (st.markFetched i).view k = st.view k := rfl

@[simp] theorem File.noteWritten_view (st : File) (i k : Int) :
    (st.noteWritten i).view k = st.view k := by
  unfold File.noteWritten; dsimp only; split_ifs <;> rfl

@[simp] theorem File.markStopping_view (st : File) (k : Int) :
    st.markStopping.view k = st.view k := by
  unfold File.markStopping; split_ifs <;> rfl

@[simp] theorem File.purgeFailed_view (st : File) (keys : List Int) (k : Int) :
    (st.purgeFailed keys).view k = st.view k := by
  unfold File.purgeFailed
  induction keys generalizing st with
  | nil => rfl
  | cons x t ih =>
    rw [List.foldl_cons, ih]
    split
    · split_ifs
      · rw [File.free_block_view]
      · rfl
    · rfl

@[simp] theorem File.CheckPrefetchStatDisk_view (st : File) (i k : Int) :
    (st.CheckPrefetchStatDisk i).view k = st.view k := by
  unfold File.CheckPrefetchStatDisk; split_ifs <;> rfl

@[simp] theorem File.CheckPrefetchStatRAM_fetches (st : File) (blk : Block) :
    (st.CheckPrefetchStatRAM blk).m_fetches = st.m_fetches := by
  unfold File.CheckPrefetchStatRAM; split_ifs <;> rfl

@[simp] theorem File.CheckPrefetchStatRAM_errno (st : File) (blk : Block) :
    (st.CheckPrefetchStatRAM blk).m_errno = st.m_errno := by
  unfold File.CheckPrefetchStatRAM; split_ifs <;> rfl

theorem File.free_block_find {st : File} (hwf : st.WF) (b k : Int) :
    (st.free_block b).m_block_map.find k
      = if k = b then none else st.m_block_map.find k := by
  rw [File.free_block_map]
  cases hf : st.m_block_map.find b with
  | none =>
    dsimp only
    by_cases hkb : k = b
    · rw [if_pos hkb, hkb, hf]
    · rw [if_neg hkb]
  | some blk =>
    dsimp only
    rw [File.WF_key hwf hf, BlockMap.find_erase]

theorem File.ProcessBlockResponse_find_ne {st : File} (hwf : st.WF) (b res err k : Int)
    (hkb : k ≠ b) :
    (st.ProcessBlockResponse b res err).m_block_map.find k = st.m_block_map.find k := by
  rw [File.ProcessBlockResponse_map]
  cases hf : st.m_block_map.find b with
  | none => rfl
  | some blk =>
    dsimp only
    rw [File.WF_key hwf hf]
    split_ifs <;> simp [BlockMap.find_modify, BlockMap.find_erase, hkb]

theorem File.purgeFailed_removed {st : File} (hwf : st.WF) (keys : List Int) (k : Int)
    (blk : Block) (hk : st.m_block_map.find k = some blk)
    (hr : (st.purgeFailed keys).m_block_map.find k = none) :
    blk.is_failed = true ∧ blk.m_refcnt = 1 := by
  unfold File.purgeFailed at hr
  induction keys generalizing st with
  | nil => rw [List.foldl_nil, hk] at hr; exact absurd hr (by simp)
  | cons x t ih =>
    rw [List.foldl_cons] at hr
    cases hx : st.m_block_map.find x with
    | none =>
      simp only [hx] at hr
      exact ih hwf hk hr
    | some bx =>
      simp only [hx] at hr
      by_cases hc : bx.is_failed = true ∧ bx.m_refcnt = 1
      · rw [if_pos hc] at hr
        by_cases hkx : k = x
        · subst hkx
          rw [hk] at hx
          simp only [Option.some.injEq] at hx
          rw [hx]; exact hc
        · exact ih (File.free_block_WF x hwf)
            (by rw [File.free_block_find hwf, if_neg hkx]; exact hk) hr
      · rw [if_neg hc] at hr
        exact ih hwf hk hr

/-- C6 (amended): a block leaves the map only finished.  `dec_ref_count` removes the block
it is given exactly when the count it reaches is 0 and the block is finished;
`ProcessBlockResponse` removes the block it is given only when it has just marked it
downloaded, the file is stopping and the block is prefetch-originated with count 0;
`InitiateClose` removes only failed blocks whose count is exactly 1, the reference a
failure leaves.  No other block is removed by these operations. -/
theorem C6_blocks_leave_the_map_only_finished (st : File) (hwf : st.WF) (k : Int) (blk : Block)
    (hk : st.m_block_map.find k = some blk) :
    (∀ b, (st.dec_ref_count b).m_block_map.find k = none ↔
      (k = b ∧ blk.m_refcnt - 1 = 0 ∧ blk.is_finished = true)) ∧
    (∀ b res err, (st.ProcessBlockResponse b res err).m_block_map.find k = none →
      k = b ∧ res ≥ 0 ∧ st.m_stopping = true ∧ blk.m_prefetch = true ∧ blk.m_refcnt = 0 ∧
        ({ blk with m_downloaded := true } : Block).is_finished = true) ∧
    (st.InitiateClose.1.m_block_map.find k = none →
      blk.is_failed = true ∧ blk.m_refcnt = 1 ∧ blk.is_finished = true) := by
  refine ⟨fun b => ?_, fun b res err h => ?_, fun h => ?_⟩
  · rw [File.dec_ref_count_find hwf]
    by_cases hkb : k = b
    · subst hkb
      rw [if_pos rfl, hk]
      dsimp only
      by_cases hz : blk.m_refcnt - 1 = 0 ∧ blk.is_finished = true
      · rw [if_pos hz]; simp [hz]
      · rw [if_neg hz]
        constructor
        · intro h; exact absurd h (by simp)
        · rintro ⟨_, h1, h2⟩; exact absurd ⟨h1, h2⟩ hz
    · rw [if_neg hkb, hk]; simp [hkb]
  · by_cases hkb : k = b
    · subst hkb
      rw [File.ProcessBlockResponse_map, hk] at h
      dsimp only at h
      rw [File.WF_key hwf hk] at h
      by_cases hres : res ≥ 0
      · rw [if_pos hres] at h
        by_cases hs : ¬ st.m_stopping
        · rw [if_pos hs] at h
          simp [BlockMap.find_modify, hk] at h
        · rw [if_neg hs] at h
          by_cases hp : blk.m_prefetch = true ∧ blk.m_refcnt = 0
          · exact ⟨rfl, hres, by simpa using hs, hp.1, hp.2, by simp [Block.is_finished]⟩
          · rw [if_neg hp] at h
            simp [BlockMap.find_modify, hk] at h
      · rw [if_neg hres] at h
        simp [BlockMap.find_modify, hk] at h
    · rw [File.ProcessBlockResponse_find_ne hwf b res err k hkb, hk] at h
      exact absurd h (by simp)
  · have hm : st.markStopping.m_block_map.find k = some blk := by simpa using hk
    unfold File.InitiateClose at h
    dsimp only at h
    split_ifs at h
    · have := File.purgeFailed_removed (File.markStopping_WF hwf) _ k blk hm h
      exact ⟨this.1, this.2, by simp only [Block.is_failed] at this; simp [Block.is_finished, this.1]⟩
    · have := File.purgeFailed_removed (File.markStopping_WF hwf) _ k blk hm h
      exact ⟨this.1, this.2, by simp only [Block.is_failed] at this; simp [Block.is_finished, this.1]⟩
    · rw [hm] at h; exact absurd h (by simp)

/-- Counterexample to C6 as stated, at two reachable states.  First: block 0 is failed
with reference count 1, and `InitiateClose` removes it from the map, at count 1 and not
0.  Second: after a read that gave up on block 1, the close of the file and the
completion of the fetch of block 1, the map keeps block 1 finished with count 0. -/
theorem C6_counterexample :
    (failedPrefetchFile.Reachable ∧
      (failedPrefetchFile.m_block_map.find 0).map (fun b => (b.m_failed, b.m_refcnt))
        = some (true, 1) ∧
      failedPrefetchFile.InitiateClose.1.m_block_map.find 0 = none) ∧
    (closedThenCompleted.Reachable ∧
      (closedThenCompleted.m_block_map.find 1).map (fun b => (b.is_finished, b.m_refcnt))
        = some (true, 0)) := by
  refine ⟨⟨File.Reachable.event _ _ (File.Reachable.event _ _ (File.Reachable.fresh 4 3 0 10 10
    (by decide))), by decide, by decide⟩, ⟨?_, by decide⟩⟩
  have hsome : (scenarioFile.Read firstFetchFailsEnv 0 8).isSome = true := by decide
  obtain ⟨r, hr⟩ := Option.isSome_iff_exists.1 hsome
  have h1 : afterFailedRead = r.st := by
    unfold afterFailedRead
    rw [hr]
  have h2 : afterFailedRead.Reachable := by
    rw [h1]
    exact File.Reachable.read scenarioFile firstFetchFailsEnv 0 8 r
      (File.Reachable.fresh 4 3 0 10 10 (by decide)) hr
  exact File.Reachable.event _ _ (File.Reachable.event _ _ h2)

/-- Witness of C6 (amended): the block that `InitiateClose` removes from the state of the
counterexample is failed, finished and has reference count 1. -/
theorem C6_witness :
    ∃ blk, failedPrefetchFile.m_block_map.find 0 = some blk ∧
      failedPrefetchFile.InitiateClose.1.m_block_map.find 0 = none ∧
      blk.is_failed = true ∧ blk.m_refcnt = 1 ∧ blk.is_finished = true := by
  have hreach : failedPrefetchFile.Reachable :=
    File.Reachable.event _ _ (File.Reachable.event _ _ (File.Reachable.fresh 4 3 0 10 10
      (by decide)))
  have hsome : (failedPrefetchFile.m_block_map.find 0).isSome = true := by decide
  obtain ⟨blk, hb⟩ := Option.isSome_iff_exists.1 hsome
  have hnone : failedPrefetchFile.InitiateClose.1.m_block_map.find 0 = none := by decide
  exact ⟨blk, hb, hnone,
    (C6_blocks_leave_the_map_only_finished failedPrefetchFile hreach.inv.1 0 blk hb).2.2 hnone⟩

/-! ## Write-back and sync at the inputs where the code departs from the specification -/

/-- C7, the code at the failing input: the only write attempt for block 0 ends with the
error `EIO`, which is not retried; the loop is left with all 4 bytes unwritten, nothing
is in the data file, and the fetched bit of block 0 is set all the same. -/
theorem C7_fetched_bit_set_after_failed_write :
    (downloadedFile.m_block_map.find 0).map (fun blk =>
        (((downloadedFile.takeWrite 0).writeAttempt blk writeFailsHard).abandoned,
         ((downloadedFile.takeWrite 0).writeAttempt blk writeFailsHard).buffer_remaining,
         ((downloadedFile.takeWrite 0).writeAttempt blk writeFailsHard).calls))
      = some (false, 4, 1) ∧
    (downloadedFile.applyEvent (Event.writeBack 0 writeFailsHard)).m_disk = [] ∧
    downloadedFile.TestBit 0 = false ∧
    (downloadedFile.applyEvent (Event.writeBack 0 writeFailsHard)).TestBit 0 = true := by
  decide

/-- C8, the code at the failing input: block 0 holds the bytes 10, 11, 12, 13 and is
written in two short writes of two bytes; the second write goes to the start of the
block again, the fetched bit is set, and a later `Read(buf, 0, 4)` served from disk
delivers 12, 13 and two bytes that were never written. -/
theorem C8_short_write_breaks_round_trip :
    (downloadedFile.m_block_map.find 0).map (fun blk => blk.m_buff) = some [10, 11, 12, 13] ∧
    (downloadedFile.applyEvent (Event.writeBack 0 writeInTwoHalves)).TestBit 0 = true ∧
    (downloadedFile.applyEvent (Event.writeBack 0 writeInTwoHalves)).m_disk.read 0 4
      = [some 12, some 13, none, none] ∧
    ((downloadedFile.applyEvent (Event.writeBack 0 writeInTwoHalves)).Read quietEnv 0 4).map
        (fun r => (r.ret, r.lists.blks_on_disk, r.copies))
      = some (4, [0], [(0, [some 12, some 13, none, none])]) := by
  decide

/-- C9, the code at the failing input: every write attempt for block 0 is interrupted;
after 11 calls the function returns at source line 694, the fetched bit stays unset, the
write task is gone, but the reference count of the block is still 1: the block stays in
the map, `InitiateClose` keeps asking for a delay, and a later `Read(buf, 0, 4)` finds
the block in the map and issues no new fetch. -/
theorem C9_abandoned_write_keeps_the_reference :
    (downloadedFile.m_block_map.find 0).map (fun blk =>
        (((downloadedFile.takeWrite 0).writeAttempt blk writeAlwaysInterrupted).abandoned,
         ((downloadedFile.takeWrite 0).writeAttempt blk writeAlwaysInterrupted).calls))
      = some (true, 11) ∧
    (downloadedFile.applyEvent (Event.writeBack 0 writeAlwaysInterrupted)).TestBit 0 = false ∧
    (downloadedFile.applyEvent (Event.writeBack 0 writeAlwaysInterrupted)).c_writeQ = [] ∧
    ((downloadedFile.applyEvent (Event.writeBack 0 writeAlwaysInterrupted)).m_block_map.find 0).map
        (fun blk => blk.m_refcnt) = some 1 ∧
    (downloadedFile.applyEvent (Event.writeBack 0 writeAlwaysInterrupted)).InitiateClose.2 = true ∧
    ((downloadedFile.applyEvent (Event.writeBack 0 writeAlwaysInterrupted)).InitiateClose.1.m_block_map.find
        0).isSome = true ∧
    ((downloadedFile.applyEvent (Event.writeBack 0 writeAlwaysInterrupted)).Read quietEnv 0 4).map
        (fun r => (r.lists.blks_to_process, r.st.m_fetches.length))
      = some ([0], downloadedFile.m_fetches.length) := by
  decide

/-- C10, the code at the failing input: the file has base offset 4 and block size 4, a
sync is in progress, and the write-back of the block at offset 8 queues bitmap index 1;
`Sync` empties the list, clears the flag and sets the counter to 1, but sets the
write-called bit of index 0, not of index 1. -/
theorem C10_sync_sets_the_bit_of_another_index :
    (offsetFileInSync.applyEvent (Event.writeBack 2 writeComplete)).m_writes_during_sync = [1] ∧
    (offsetFileInSync.applyEvent (Event.writeBack 2 writeComplete)).Sync.m_writeCalled = [0] ∧
    (offsetFileInSync.applyEvent (Event.writeBack 2 writeComplete)).Sync.m_writes_during_sync
      = [] ∧
    (offsetFileInSync.applyEvent (Event.writeBack 2 writeComplete)).Sync.m_in_sync = false ∧
    (offsetFileInSync.applyEvent (Event.writeBack 2 writeComplete)).Sync.m_non_flushed_cnt = 1 := by
  decide

/-- C19: for a positive block size, a request offset that is not negative and a positive
request size, `overlap` answers true exactly for the block indices between
`req_off / BS` and `(req_off + req_size - 1) / BS`, the range `Read` goes over; the
outputs of a true answer satisfy `0 < size <= BS`, `0 <= blk_off`, `blk_off + size <= BS`
and `i * BS + blk_off = req_off + off`; the pieces `[off, off + size)` of the user buffer
start at 0 with the first block, each ends where the next one starts, the last ends at
`req_size`, and the sizes over the range add up to `req_size`. -/
theorem C19_overlap_partitions_the_request (BS req_off req_size : Int) (hBS : 0 < BS)
    (hoff : 0 ≤ req_off) (hsize : 0 < req_size) :
    (∀ i : Int, (overlap i BS req_off req_size).isSome = true ↔
      (Int.tdiv req_off BS ≤ i ∧ i ≤ Int.tdiv (req_off + req_size - 1) BS)) ∧
    (∀ i off blk_off size : Int, overlap i BS req_off req_size = some (off, blk_off, size) →
      0 < size ∧ size ≤ BS ∧ 0 ≤ blk_off ∧ blk_off + size ≤ BS ∧
        i * BS + blk_off = req_off + off ∧ 0 ≤ off ∧ off + size ≤ req_size) ∧
    (∀ off blk_off size : Int,
      overlap (Int.tdiv req_off BS) BS req_off req_size = some (off, blk_off, size) →
        off = 0) ∧
    (∀ i o1 b1 s1 o2 b2 s2 : Int, overlap i BS req_off req_size = some (o1, b1, s1) →
      overlap (i + 1) BS req_off req_size = some (o2, b2, s2) → o1 + s1 = o2) ∧
    (∀ off blk_off size : Int,
      overlap (Int.tdiv (req_off + req_size - 1) BS) BS req_off req_size
        = some (off, blk_off, size) → off + size = req_size) ∧
    rangeSum (fun i => (overlapOut i BS req_off req_size).2.2) (Int.tdiv req_off BS)
      (Int.tdiv (req_off + req_size - 1) BS - Int.tdiv req_off BS + 1).toNat = req_size := by
  have e1 : Int.tdiv req_off BS = req_off / BS := Int.tdiv_eq_ediv hoff (le_of_lt hBS)
  have e2 : Int.tdiv (req_off + req_size - 1) BS = (req_off + req_size - 1) / BS :=
    Int.tdiv_eq_ediv (by omega) (le_of_lt hBS)
  rw [e1, e2]
  have q1 : (req_off / BS) * BS ≤ req_off := Int.ediv_mul_le req_off (by omega)
  have q2 : req_off < (req_off / BS + 1) * BS := Int.lt_ediv_add_one_mul_self req_off hBS
  have q3 : ((req_off + req_size - 1) / BS) * BS ≤ req_off + req_size - 1 :=
    Int.ediv_mul_le _ (by omega)
  have q4 : req_off + req_size - 1 < ((req_off + req_size - 1) / BS + 1) * BS :=
    Int.lt_ediv_add_one_mul_self _ hBS
  have r1 : (req_off / BS + 1) * BS = (req_off / BS) * BS + BS := by ring
  have r2 : ((req_off + req_size - 1) / BS + 1) * BS
      = ((req_off + req_size - 1) / BS) * BS + BS := by ring
  refine ⟨fun i => ⟨fun h => ?_, fun h => ?_⟩, ?_, ?_, ?_, ?_, rangeSum_request hBS hsize⟩
  · unfold overlap at h
    simp only at h
    by_cases hc : req_off < i * BS + BS ∧ req_off + req_size > i * BS
    · have a3 : (i + 1) * BS = i * BS + BS := by ring
      exact ⟨by
        have : req_off / BS < i + 1 := Int.ediv_lt_of_lt_mul hBS (by omega)
        omega, (Int.le_ediv_iff_mul_le hBS).2 (by omega)⟩
    · rw [if_neg hc] at h
      simp at h
  · rw [overlap_in_range hBS h.1 h.2]
    rfl
  · intro i off blk_off size h
    unfold overlap at h
    simp only at h
    by_cases hc : req_off < i * BS + BS ∧ req_off + req_size > i * BS
    · rw [if_pos hc] at h
      simp only [Option.some.injEq, Prod.mk.injEq] at h
      omega
    · rw [if_neg hc] at h
      simp at h
  · intro off blk_off size h
    rw [overlap_in_range hBS le_rfl (Int.ediv_le_ediv hBS (by omega))] at h
    simp only [Option.some.injEq, Prod.mk.injEq] at h
    omega
  · intro i o1 b1 s1 o2 b2 s2 h1 h2
    have a3 : (i + 1) * BS = i * BS + BS := by ring
    unfold overlap at h1 h2
    simp only at h1 h2
    rw [a3] at h2
    by_cases hc1 : req_off < i * BS + BS ∧ req_off + req_size > i * BS
    · by_cases hc2 : req_off < i * BS + BS + BS ∧ req_off + req_size > i * BS + BS
      · rw [if_pos hc1] at h1
        rw [if_pos hc2] at h2
        simp only [Option.some.injEq, Prod.mk.injEq] at h1 h2
        omega
      · rw [if_neg hc2] at h2
        simp at h2
    · rw [if_neg hc1] at h1
      simp at h1
  · intro off blk_off size h
    rw [overlap_in_range hBS (Int.ediv_le_ediv hBS (by omega)) le_rfl] at h
    simp only [Option.some.injEq, Prod.mk.injEq] at h
    omega

/-- C19 at block size 4 and the request (2, 5): block 0 gives (off 0, blk_off 2, size 2),
block 1 gives (off 2, blk_off 0, size 3), and no other block overlaps. -/
theorem C19_witness :
    (0 : Int) < 4 ∧ (0 : Int) ≤ 2 ∧ (0 : Int) < 5 ∧
    overlap 0 4 2 5 = some (0, 2, 2) ∧ overlap 1 4 2 5 = some (2, 0, 3) ∧
    overlap 2 4 2 5 = none ∧ overlap (-1) 4 2 5 = none ∧
    rangeSum (fun i => (overlapOut i 4 2 5).2.2) (Int.tdiv 2 4)
      (Int.tdiv (2 + 5 - 1) 4 - Int.tdiv 2 4 + 1).toNat = 5 :=
  ⟨by decide, by decide, by decide, by decide, by decide, by decide, by decide,
    (C19_overlap_partitions_the_request 4 2 5 (by decide) (by decide) (by decide)).2.2.2.2.2⟩

theorem File.ProcessBlockResponse_ramReleased (st : File) (b res err : Int) :
    (st.ProcessBlockResponse b res err).c_ramReleased =
      match st.m_block_map.find b with
      | none => st.c_ramReleased
      | some blk =>
        if res ≥ 0 ∧ st.m_stopping = true ∧ blk.m_prefetch = true ∧ blk.m_refcnt = 0 then
          st.c_ramReleased + 1
        else st.c_ramReleased := by
  cases hb : st.m_block_map.find b with
  | none => unfold File.ProcessBlockResponse; rw [hb]
  | some blk =>
    have hb1 : (st.m_block_map.modify b (fun x => { x with m_downloaded := true })).find b
        = some { blk with m_downloaded := true } := by
      rw [BlockMap.find_modify, if_pos rfl, hb]; rfl
    unfold File.ProcessBlockResponse
    rw [hb]
    dsimp only
    by_cases hr : res ≥ 0
    · rw [if_pos hr]
      by_cases hs : st.m_stopping = true
      · rw [if_neg (by simp [hs])]
        by_cases hp : blk.m_prefetch = true ∧ blk.m_refcnt = 0
        · rw [if_pos hp, if_pos ⟨hr, hs, hp⟩]
          unfold File.free_block
          dsimp only
          rw [hb1]
          dsimp only [File.RegisterPrefetchFile]
          split_ifs <;> rfl
        · rw [if_neg hp, if_neg (fun h => hp h.2.2)]
      · rw [if_pos (by simp [hs]), if_neg (fun h => hs h.2.1)]
        rfl
    · rw [if_neg hr, if_neg (fun h => hr h.1)]
      rfl

/-- C20: `ProcessBlockResponse(block, res)` on a block of the map leaves the block, when
it is still in the map, finished.  With `res >= 0` on a file that is not stopping the
block is marked downloaded, its reference count is raised by exactly 1 and one write
task for it is appended to the write queue.  With `res < 0` the block is marked failed
with the `errno` captured, its reference count is raised by exactly 1, it stays in the
map and no write task is made.  With `res >= 0` on a stopping file no write task is
made, and the block is freed (one RAM release reported) exactly when it is
prefetch-originated with reference count 0; else it stays, marked downloaded, with the
count it had. -/
theorem C20_ProcessBlockResponse_finishes_the_block (st : File) (b res err : Int)
    (blk : Block) (hwf : st.WF) (hb : st.m_block_map.find b = some blk) :
    (∀ x, (st.ProcessBlockResponse b res err).m_block_map.find b = some x →
      x.is_finished = true) ∧
    (0 ≤ res → st.m_stopping = false →
      (st.ProcessBlockResponse b res err).m_block_map.find b
        = some { blk with m_downloaded := true, m_refcnt := blk.m_refcnt + 1 } ∧
      (st.ProcessBlockResponse b res err).c_writeQ = st.c_writeQ ++ [b] ∧
      (st.ProcessBlockResponse b res err).c_ramReleased = st.c_ramReleased) ∧
    (res < 0 →
      (∃ x, (st.ProcessBlockResponse b res err).m_block_map.find b = some x ∧
        x.is_failed = true ∧ x.m_errno = err ∧ x.m_refcnt = blk.m_refcnt + 1 ∧
        x.m_downloaded = blk.m_downloaded) ∧
      (st.ProcessBlockResponse b res err).c_writeQ = st.c_writeQ ∧
      (st.ProcessBlockResponse b res err).c_ramReleased = st.c_ramReleased) ∧
    (0 ≤ res → st.m_stopping = true →
      (st.ProcessBlockResponse b res err).c_writeQ = st.c_writeQ ∧
      ((blk.m_prefetch = true ∧ blk.m_refcnt = 0) →
        (st.ProcessBlockResponse b res err).m_block_map.find b = none ∧
        (st.ProcessBlockResponse b res err).c_ramReleased = st.c_ramReleased + 1) ∧
      (¬ (blk.m_prefetch = true ∧ blk.m_refcnt = 0) →
        (st.ProcessBlockResponse b res err).m_block_map.find b
          = some { blk with m_downloaded := true } ∧
        (st.ProcessBlockResponse b res err).c_ramReleased = st.c_ramReleased)) := by
  have hkey : Int.tdiv blk.m_offset st.BS = b := File.WF_key hwf hb
  have hmap := File.ProcessBlockResponse_map st b res err
  have hq := File.ProcessBlockResponse_writeQ st b res err
  have hrel := File.ProcessBlockResponse_ramReleased st b res err
  rw [hb] at hmap hrel
  rw [hb] at hq
  dsimp only at hmap hrel
  by_cases hr : res ≥ 0
  · rw [if_pos hr] at hmap
    by_cases hs : st.m_stopping = true
    · rw [if_neg (by simp [hs])] at hmap
      rw [if_neg (by simp [hs])] at hq
      by_cases hp : blk.m_prefetch = true ∧ blk.m_refcnt = 0
      · rw [if_pos hp, hkey] at hmap
        rw [if_pos ⟨hr, hs, hp⟩] at hrel
        have hfind : (st.ProcessBlockResponse b res err).m_block_map.find b = none := by
          rw [hmap, BlockMap.find_erase, if_pos rfl]
        refine ⟨fun x hx => ?_, fun _ h => ?_, fun h => ?_, fun _ _ => ⟨hq, fun _ => ⟨hfind, hrel⟩,
          fun h => absurd hp h⟩⟩
        · rw [hfind] at hx; simp at hx
        · rw [hs] at h; simp at h
        · omega
      · rw [if_neg hp] at hmap
        rw [if_neg (fun h => hp h.2.2)] at hrel
        have hfind : (st.ProcessBlockResponse b res err).m_block_map.find b
            = some { blk with m_downloaded := true } := by
          rw [hmap, BlockMap.find_modify, if_pos rfl, hb]; rfl
        refine ⟨fun x hx => ?_, fun _ h => ?_, fun h => ?_, fun _ _ => ⟨hq, fun h => absurd h hp,
          fun _ => ⟨hfind, hrel⟩⟩⟩
        · rw [hfind] at hx
          simp only [Option.some.injEq] at hx
          subst hx
          simp [Block.is_finished]
        · rw [hs] at h; simp at h
        · omega
    · have hs0 : st.m_stopping = false := by simpa using hs
      rw [if_pos (by simp [hs0])] at hmap
      rw [if_pos ⟨by simp, hr, by simp [hs0]⟩] at hq
      rw [if_neg (fun h => hs h.2.1)] at hrel
      have hfind : (st.ProcessBlockResponse b res err).m_block_map.find b
          = some { blk with m_downloaded := true, m_refcnt := blk.m_refcnt + 1 } := by
        rw [hmap, BlockMap.find_modify, if_pos rfl, BlockMap.find_modify, if_pos rfl, hb]; rfl
      refine ⟨fun x hx => ?_, fun _ _ => ⟨hfind, hq, hrel⟩, fun h => ?_,
        fun _ h => absurd h hs⟩
      · rw [hfind] at hx
        simp only [Option.some.injEq] at hx
        subst hx
        simp [Block.is_finished]
      · omega
  · rw [if_neg hr] at hmap
    rw [if_neg (fun h => hr h.2.1)] at hq
    rw [if_neg (fun h => hr h.1)] at hrel
    have hfind : (st.ProcessBlockResponse b res err).m_block_map.find b
        = some { blk.set_error_and_free err with m_refcnt := blk.m_refcnt + 1 } := by
      rw [hmap, BlockMap.find_modify, if_pos rfl, BlockMap.find_modify, if_pos rfl, hb]; rfl
    refine ⟨fun x hx => ?_, fun h => absurd h hr, fun _ => ⟨⟨_, hfind, rfl, rfl, rfl, rfl⟩, hq, hrel⟩,
      fun h => absurd h hr⟩
    rw [hfind] at hx
    simp only [Option.some.injEq] at hx
    subst hx
    simp [Block.is_finished, Block.set_error_and_free]
/-- C20 on the file of the scenarios while block 0 is being prefetched: a completion with
result 4 marks it downloaded, raises its count from 0 to 1 and queues one write task; a
completion with result -1 and `errno` 5 marks it failed with code 5 and raises its count
to 1. -/
theorem C20_witness :
    prefetchingFile.m_block_map.find 0 = some (Block.new 0 4 true) ∧
    (prefetchingFile.ProcessBlockResponse 0 4 0).m_block_map.find 0
      = some { Block.new 0 4 true with m_downloaded := true, m_refcnt := 1 } ∧
    (prefetchingFile.ProcessBlockResponse 0 4 0).c_writeQ = [0] ∧
    (∃ x, (prefetchingFile.ProcessBlockResponse 0 (-1) 5).m_block_map.find 0 = some x ∧
      x.is_failed = true ∧ x.m_errno = 5 ∧ x.m_refcnt = 1) := by
  have hwf : prefetchingFile.WF :=
    File.applyEvent_WF _ (File.fresh_WF 4 3 0 10 10 (by decide))
  have hb : prefetchingFile.m_block_map.find 0 = some (Block.new 0 4 true) := by decide
  have h1 := (C20_ProcessBlockResponse_finishes_the_block prefetchingFile 0 4 0 _ hwf hb).2.1
    (by decide) (by decide)
  obtain ⟨x, hx, h2, h3, h4, _⟩ :=
    ((C20_ProcessBlockResponse_finishes_the_block prefetchingFile 0 (-1) 5 _ hwf hb).2.2.1
      (by decide)).1
  exact ⟨hb, h1.1, h1.2.1, x, hx, h2, h3, h4⟩

/-- C18 at block size 4: for `Read(buf, 0, 0)` the index range is `0 .. (0 + 0 - 1) / 4`,
which is `0 .. 0` because the division truncates towards zero, so block 0 is classified:
on the fresh file of the scenarios a RAM block is taken and a fetch of block 0 is issued,
the call waits for it (it never returns when the fetch does not complete), and when the
fetch completes block 0 is left downloaded with a write task queued (the value returned
is then the size `overlap` left unset at source line 597, taken as 0 by `overlapOut`).
`Read(buf, 5, 0)` classifies block 1, and returns -1 when block 1 is in the map in failed
state.  Only at a positive multiple of the block size, as in `Read(buf, 4, 0)`, is the
range empty and the state left as it was. -/
theorem C18_zero_size_read_takes_a_block :
    (scenarioFile.classifyRequest (fun _ => true) 0 0).2.blks_to_process = [0] ∧
    (scenarioFile.classifyRequest (fun _ => true) 0 0).1.m_fetches = [(0, 0, 4, false)] ∧
    (scenarioFile.classifyRequest (fun _ => true) 0 0).1.c_ramGranted = 1 ∧
    (scenarioFile.Read quietEnv 0 0).isNone = true ∧
    (scenarioFile.Read scenarioFetchEnv 0 0).map
        (fun r => (r.ret, r.lists.blks_to_process, r.st.c_writeQ, decide (r.st = scenarioFile)))
      = some (0, [0], [0], false) ∧
    (scenarioFile.Read scenarioFetchEnv 0 0).map (fun r => r.st.m_fetches)
      = some [(0, 0, 4, false)] ∧
    (scenarioFile.classifyRequest (fun _ => true) 5 0).2.blks_to_process = [1] ∧
    (failedBlockFile.Read quietEnv 5 0).map (fun r => (r.ret, r.st.m_errno))
      = some (-1, 7) ∧
    (scenarioFile.Read quietEnv 4 0).map
        (fun r => (r.ret, r.lists, decide (r.st = scenarioFile)))
      = some (0, { blks_to_process := [], blks_on_disk := [], blks_direct := [] }, true) := by
  refine ⟨by decide, by decide, by decide, by decide, by decide, by decide, by decide,
    by decide, by decide⟩

/-! ## The sync bookkeeping -/

theorem File.free_block_syncView (st : File) (b : Int) :
    (st.free_block b).syncView = st.syncView := by
  unfold File.free_block File.RegisterPrefetchFile
  split
  · rfl
  · dsimp only; split_ifs <;> rfl

theorem File.inc_ref_count_syncView (st : File) (b : Int) :
    (st.inc_ref_count b).syncView = st.syncView := rfl

theorem File.dec_ref_count_syncView (st : File) (b : Int) :
    (st.dec_ref_count b).syncView = st.syncView := by
  unfold File.dec_ref_count
  split
  · rfl
  · dsimp only; split_ifs
    · rw [File.free_block_syncView]; rfl
    · rfl

theorem File.RequestBlock_syncView (st : File) (i : Int) (pf : Bool) :
    (st.RequestBlock i pf).syncView = st.syncView := by
  unfold File.RequestBlock File.DeRegisterPrefetchFile
  dsimp only; split_ifs <;> rfl

theorem File.ProcessBlockResponse_syncView (st : File) (b res err : Int) :
    (st.ProcessBlockResponse b res err).syncView = st.syncView := by
  unfold File.ProcessBlockResponse
  split
  · rfl
  · dsimp only; split_ifs
    all_goals first
      | rfl
      | (rw [File.free_block_syncView]; rfl)

theorem File.deliver_syncView (st : File) (b res err : Int) (data : List Nat) :
    (st.deliver b res err data).syncView = st.syncView := by
  unfold File.deliver
  split_ifs
  · rw [File.ProcessBlockResponse_syncView]; rfl
  · rfl

theorem File.dropWriteTask_syncView (st : File) (b : Int) :
    (st.dropWriteTask b).syncView = st.syncView := by
  unfold File.dropWriteTask File.BlockRemovedFromWriteQ
  split_ifs
  · rw [File.dec_ref_count_syncView]; rfl
  · rfl

theorem File.Prefetch_syncView (st : File) (g : Bool) :
    (st.Prefetch g).syncView = st.syncView := by
  unfold File.Prefetch File.UnMarkPrefetch
  dsimp only
  split_ifs
  · split
    · show ((st.RequestRAMBlock g).RequestBlock _ true).syncView = st.syncView
      rw [File.RequestBlock_syncView]
      unfold File.RequestRAMBlock
      split_ifs <;> rfl
    · rfl
  · rfl

theorem File.purgeFailed_syncView (s : File) (keys : List Int) :
    (s.purgeFailed keys).syncView = s.syncView := by
  unfold File.purgeFailed
  induction keys generalizing s with
  | nil => rfl
  | cons k t ih =>
    rw [List.foldl_cons, ih]
    split
    · split_ifs
      · rw [File.free_block_syncView]
      · rfl
    · rfl

theorem File.markStopping_syncView (st : File) : st.markStopping.syncView = st.syncView := by
  unfold File.markStopping; split_ifs <;> rfl

theorem File.InitiateClose_syncView (st : File) :
    st.InitiateClose.1.syncView = st.syncView := by
  unfold File.InitiateClose
  dsimp only
  split_ifs
  all_goals first
    | exact File.markStopping_syncView st
    | (rw [File.purgeFailed_syncView]; exact File.markStopping_syncView st)

theorem File.noteWritten_syncView (st : File) (pfIdx : Int) :
    (st.noteWritten pfIdx).syncView =
      if st.m_in_sync = false ∧ st.m_non_flushed_cnt + 1 ≥ 100 then
        (true, 0, st.c_syncScheduled + 1)
      else if st.m_in_sync = false then (false, st.m_non_flushed_cnt + 1, st.c_syncScheduled)
      else st.syncView := by
  unfold File.noteWritten
  by_cases hs : st.m_in_sync = true
  · rw [if_pos hs, if_neg (by simp [hs]), if_neg (by simp [hs])]
    rfl
  · have hs0 : st.m_in_sync = false := by simpa using hs
    rw [if_neg hs]
    dsimp only
    by_cases hc : st.m_non_flushed_cnt + 1 ≥ 100
    · have hc1 : (st.SetBitWriteCalled pfIdx).m_non_flushed_cnt + 1 ≥ 100 := hc
      rw [if_pos hc1, if_pos ⟨hs0, hc⟩]
      rfl
    · have hc1 : ¬ (st.SetBitWriteCalled pfIdx).m_non_flushed_cnt + 1 ≥ 100 := hc
      rw [if_neg hc1, if_neg (fun h => hc h.2), if_pos hs0]
      unfold File.syncView File.SetBitWriteCalled
      simp only [hs0]

theorem File.noteWritten_syncView_of (st x : File) (pfIdx : Int) (h : x.syncView = st.syncView) :
    (x.noteWritten pfIdx).syncView =
      if st.m_in_sync = false ∧ st.m_non_flushed_cnt + 1 ≥ 100 then
        (true, 0, st.c_syncScheduled + 1)
      else if st.m_in_sync = false then (false, st.m_non_flushed_cnt + 1, st.c_syncScheduled)
      else st.syncView := by
  rw [File.noteWritten_syncView, h]
  unfold File.syncView at h
  simp only [Prod.mk.injEq] at h
  rw [h.1, h.2.1, h.2.2]

theorem File.WriteBlockToDisk_syncView (st : File) (b : Int) (write : Nat → Int × Int) :
    (st.WriteBlockToDisk b write).syncView =
      match st.m_block_map.find b with
      | none => st.syncView
      | some blk =>
        if (st.writeAttempt blk write).abandoned = true then st.syncView
        else if st.m_in_sync = false ∧ st.m_non_flushed_cnt + 1 ≥ 100 then
          (true, 0, st.c_syncScheduled + 1)
        else if st.m_in_sync = false then
          (false, st.m_non_flushed_cnt + 1, st.c_syncScheduled)
        else st.syncView := by
  unfold File.WriteBlockToDisk
  cases hb : st.m_block_map.find b with
  | none => rfl
  | some blk =>
    dsimp only
    by_cases ha : (st.writeAttempt blk write).abandoned = true
    · rw [if_pos ha, if_pos ha]; rfl
    · rw [if_neg ha, if_neg ha]
      exact File.noteWritten_syncView_of st _ _ (by
        rw [File.dec_ref_count_syncView]; rfl)

theorem File.applyEvent_syncView (st : File) (e : Event) (he : e.isSync = false) :
    (st.applyEvent e).syncView =
      if st.writesBack e = true then
        if st.m_in_sync = false ∧ st.m_non_flushed_cnt + 1 ≥ 100 then
          (true, 0, st.c_syncScheduled + 1)
        else if st.m_in_sync = false then
          (false, st.m_non_flushed_cnt + 1, st.c_syncScheduled)
        else st.syncView
      else st.syncView := by
  cases e with
  | response b res err data =>
    show (st.deliver b res err data).syncView = _
    rw [File.deliver_syncView, if_neg (show ¬ st.writesBack _ = true by simp [File.writesBack])]
  | writeBack b write =>
    show (st.runWriteTask b write).syncView = _
    unfold File.runWriteTask
    by_cases hq : b ∈ st.c_writeQ
    · rw [if_pos hq, File.WriteBlockToDisk_syncView]
      have e1 : (st.takeWrite b).m_block_map = st.m_block_map := rfl
      have e2 : ∀ blk, (st.takeWrite b).writeAttempt blk write = st.writeAttempt blk write :=
        fun _ => rfl
      have e3 : (st.takeWrite b).syncView = st.syncView := rfl
      have e4 : (st.takeWrite b).m_in_sync = st.m_in_sync := rfl
      have e5 : (st.takeWrite b).m_non_flushed_cnt = st.m_non_flushed_cnt := rfl
      have e6 : (st.takeWrite b).c_syncScheduled = st.c_syncScheduled := rfl
      rw [e1, e3, e4, e5, e6]
      cases hb : st.m_block_map.find b with
      | none =>
        have hw : ¬ st.writesBack (Event.writeBack b write) = true := by
          simp [File.writesBack, hb]
        dsimp only
        rw [if_neg hw]
      | some blk =>
        dsimp only
        rw [e2]
        by_cases ha : (st.writeAttempt blk write).abandoned = true
        · have hw : ¬ st.writesBack (Event.writeBack b write) = true := by
            simp [File.writesBack, hb, ha]
          rw [if_pos ha, if_neg hw]
        · have hw : st.writesBack (Event.writeBack b write) = true := by
            simp [File.writesBack, hb, ha, hq]
          rw [if_neg ha, if_pos hw]
    · have hw : ¬ st.writesBack (Event.writeBack b write) = true := by
        simp [File.writesBack, hq]
      rw [if_neg hq, if_neg hw]
  | removedFromWriteQ b =>
    show (st.dropWriteTask b).syncView = _
    rw [File.dropWriteTask_syncView, if_neg (show ¬ st.writesBack _ = true by simp [File.writesBack])]
  | prefetchCall g =>
    show (st.MarkPrefetch.Prefetch g).syncView = _
    rw [File.Prefetch_syncView, if_neg (show ¬ st.writesBack _ = true by simp [File.writesBack])]
    rfl
  | sync => simp [Event.isSync] at he
  | initiateClose =>
    show st.InitiateClose.1.syncView = _
    rw [File.InitiateClose_syncView, if_neg (show ¬ st.writesBack _ = true by simp [File.writesBack])]

theorem File.applyEvents_in_sync (st : File) (es : List Event)
    (hes : ∀ e ∈ es, e.isSync = false) (hs : st.m_in_sync = true) :
    (st.applyEvents es).syncView = st.syncView := by
  induction es generalizing st with
  | nil => rfl
  | cons e t ih =>
    have h1 : (st.applyEvent e).syncView = st.syncView := by
      rw [File.applyEvent_syncView st e (hes e (List.mem_cons_self _ _))]
      by_cases hw : st.writesBack e = true
      · rw [if_pos hw, if_neg (by simp [hs]), if_neg (by simp [hs])]
      · rw [if_neg hw]
    have h2 : (st.applyEvent e).m_in_sync = true := by
      have := congrArg Prod.fst h1
      exact this.trans hs
    show ((st.applyEvent e).applyEvents t).syncView = _
    rw [ih (st.applyEvent e) (fun x hx => hes x (List.mem_cons_of_mem _ hx)) h2, h1]

theorem File.applyEvents_syncScheduled (st : File) (es : List Event)
    (hes : ∀ e ∈ es, e.isSync = false) (hs : st.m_in_sync = false)
    (h0 : 0 ≤ st.m_non_flushed_cnt) (h1 : st.m_non_flushed_cnt < 100) :
    (st.applyEvents es).c_syncScheduled =
      st.c_syncScheduled +
        (if 100 ≤ st.m_non_flushed_cnt + (st.successfulWrites es : Int) then 1 else 0) := by
  induction es generalizing st with
  | nil =>
    show st.c_syncScheduled = _
    unfold File.successfulWrites
    rw [if_neg (by push_cast; omega)]
    rfl
  | cons e t ih =>
    have hv := File.applyEvent_syncView st e (hes e (List.mem_cons_self _ _))
    have ht : ∀ x ∈ t, x.isSync = false := fun x hx => hes x (List.mem_cons_of_mem _ hx)
    show ((st.applyEvent e).applyEvents t).c_syncScheduled = _
    unfold File.successfulWrites
    by_cases hw : st.writesBack e = true
    · rw [if_pos hw] at hv
      rw [if_pos hw]
      by_cases hc : st.m_non_flushed_cnt + 1 ≥ 100
      · rw [if_pos ⟨hs, hc⟩] at hv
        have hin : (st.applyEvent e).m_in_sync = true := congrArg Prod.fst hv
        have hsc : (st.applyEvent e).c_syncScheduled = st.c_syncScheduled + 1 :=
          congrArg (fun v => v.2.2) hv
        have := congrArg (fun v => v.2.2) (File.applyEvents_in_sync _ t ht hin)
        simp only [File.syncView] at this
        rw [this, hsc, if_pos (by push_cast; omega)]
      · rw [if_neg (fun h => hc h.2), if_pos hs] at hv
        have hin : (st.applyEvent e).m_in_sync = false := congrArg Prod.fst hv
        have hcn : (st.applyEvent e).m_non_flushed_cnt = st.m_non_flushed_cnt + 1 :=
          congrArg (fun v => v.2.1) hv
        have hsc : (st.applyEvent e).c_syncScheduled = st.c_syncScheduled :=
          congrArg (fun v => v.2.2) hv
        rw [ih _ ht hin (by omega) (by omega), hcn, hsc]
        push_cast
        have e1 : st.m_non_flushed_cnt + 1 + ((st.applyEvent e).successfulWrites t : Int)
            = st.m_non_flushed_cnt + (1 + ((st.applyEvent e).successfulWrites t : Int)) := by ring
        rw [e1]
    · rw [if_neg hw] at hv
      rw [if_neg hw]
      have hin : (st.applyEvent e).m_in_sync = false := (congrArg Prod.fst hv).trans hs
      have hcn : (st.applyEvent e).m_non_flushed_cnt = st.m_non_flushed_cnt :=
        congrArg (fun v => v.2.1) hv
      have hsc : (st.applyEvent e).c_syncScheduled = st.c_syncScheduled :=
        congrArg (fun v => v.2.2) hv
      rw [ih _ ht hin (by omega) (by omega), hcn, hsc, Nat.zero_add]

/-- C11: a `WriteBlockToDisk` that runs to its end (the block is in the map and the retry
loop does not give up) schedules the sync job exactly when no sync is in progress and the
counter of unflushed writes, raised by this write, is at least 100; then the in-sync flag
is set and the counter is 0 in the state in which the job is scheduled; in every other
case no job is scheduled, the flag stays, and the counter is raised by one when no sync
is in progress and stays when one is.  In a run from a freshly opened file in which no
sync job runs, the number of times the job was scheduled is 1 when the run has at least
100 write-backs that ran to their end and 0 when it has fewer: the 100th schedules the
first sync and no earlier one does. -/
theorem C11_sync_scheduled_at_the_hundredth_write (st : File) (b : Int) (blk : Block)
    (write : Nat → Int × Int) (hb : st.m_block_map.find b = some blk)
    (hok : (st.writeAttempt blk write).abandoned = false) :
    ((st.WriteBlockToDisk b write).c_syncScheduled = st.c_syncScheduled + 1 ↔
      (st.m_in_sync = false ∧ st.m_non_flushed_cnt + 1 ≥ 100)) ∧
    ((st.m_in_sync = false ∧ st.m_non_flushed_cnt + 1 ≥ 100) →
      (st.WriteBlockToDisk b write).m_in_sync = true ∧
      (st.WriteBlockToDisk b write).m_non_flushed_cnt = 0) ∧
    (¬ (st.m_in_sync = false ∧ st.m_non_flushed_cnt + 1 ≥ 100) →
      (st.WriteBlockToDisk b write).c_syncScheduled = st.c_syncScheduled ∧
      (st.WriteBlockToDisk b write).m_in_sync = st.m_in_sync ∧
      (st.WriteBlockToDisk b write).m_non_flushed_cnt
        = if st.m_in_sync = false then st.m_non_flushed_cnt + 1 else st.m_non_flushed_cnt) ∧
    (∀ (bs bits off size : Int) (maxBlocks : Nat) (es : List Event),
      (∀ e ∈ es, e.isSync = false) →
      ((File.fresh bs bits off size maxBlocks).applyEvents es).c_syncScheduled
        = if 100 ≤ (File.fresh bs bits off size maxBlocks).successfulWrites es then 1
          else 0) := by
  have hv := File.WriteBlockToDisk_syncView st b write
  rw [hb] at hv
  dsimp only at hv
  rw [if_neg (by simp [hok])] at hv
  refine ⟨?_, ?_, ?_, ?_⟩
  · by_cases hc : st.m_in_sync = false ∧ st.m_non_flushed_cnt + 1 ≥ 100
    · rw [if_pos hc] at hv
      exact ⟨fun _ => hc, fun _ => congrArg (fun v => v.2.2) hv⟩
    · rw [if_neg hc] at hv
      refine ⟨fun h => ?_, fun h => absurd h hc⟩
      have h2 : (st.WriteBlockToDisk b write).c_syncScheduled = st.c_syncScheduled := by
        by_cases hs : st.m_in_sync = false
        · rw [if_pos hs] at hv
          exact congrArg (fun v => v.2.2) hv
        · rw [if_neg hs] at hv
          exact congrArg (fun v => v.2.2) hv
      omega
  · intro hc
    rw [if_pos hc] at hv
    exact ⟨congrArg Prod.fst hv, congrArg (fun v => v.2.1) hv⟩
  · intro hc
    rw [if_neg hc] at hv
    by_cases hs : st.m_in_sync = false
    · rw [if_pos hs] at hv
      rw [if_pos hs]
      exact ⟨congrArg (fun v => v.2.2) hv, (congrArg Prod.fst hv).trans hs.symm,
        congrArg (fun v => v.2.1) hv⟩
    · rw [if_neg hs] at hv
      rw [if_neg hs]
      exact ⟨congrArg (fun v => v.2.2) hv, congrArg Prod.fst hv,
        congrArg (fun v => v.2.1) hv⟩
  · intro bs bits off size maxBlocks es hes
    have h := File.applyEvents_syncScheduled (File.fresh bs bits off size maxBlocks) es hes rfl
      (show (0 : Int) ≤ 0 by decide) (show (0 : Int) < 100 by decide)
    rw [h]
    have e0 : (File.fresh bs bits off size maxBlocks).c_syncScheduled = 0 := rfl
    have e1 : (File.fresh bs bits off size maxBlocks).m_non_flushed_cnt = 0 := rfl
    rw [e0, e1, Nat.zero_add]
    by_cases h100 : 100 ≤ (File.fresh bs bits off size maxBlocks).successfulWrites es
    · rw [if_pos h100, if_pos (by omega)]
    · rw [if_neg h100, if_neg (by omega)]

set_option maxRecDepth 100000 in
theorem writeRun_hundred :
    (File.fresh 4 120 0 480 10).successfulWrites (writeRun 100) = 100 ∧
    (∀ e ∈ writeRun 100, e.isSync = false) := by
  refine ⟨by decide, by decide⟩

set_option maxRecDepth 100000 in
theorem writeRun_ninety_nine :
    (File.fresh 4 120 0 480 10).successfulWrites (writeRun 99) = 99 ∧
    (∀ e ∈ writeRun 99, e.isSync = false) := by
  refine ⟨by decide, by decide⟩

/-- C11 at two states of the file of the scenarios with block 0 queued for write-back:
with 99 unflushed writes the write-back schedules the sync job, sets the in-sync flag and
resets the counter; with none it only raises the counter to 1.  On a fresh file of 120
blocks the run of 99 prefetches, each followed by its completion and its write-back,
schedules nothing, and the run of 100 has scheduled the job once. -/
theorem C11_witness :
    nearSyncFile.m_block_map.find 0
      = some { Block.new 0 4 true with m_downloaded := true, m_refcnt := 1,
                                       m_buff := [10, 11, 12, 13] } ∧
    (nearSyncFile.WriteBlockToDisk 0 writeComplete).c_syncScheduled = 1 ∧
    (nearSyncFile.WriteBlockToDisk 0 writeComplete).m_in_sync = true ∧
    (nearSyncFile.WriteBlockToDisk 0 writeComplete).m_non_flushed_cnt = 0 ∧
    (downloadedFile.WriteBlockToDisk 0 writeComplete).c_syncScheduled = 0 ∧
    (downloadedFile.WriteBlockToDisk 0 writeComplete).m_non_flushed_cnt = 1 ∧
    ((File.fresh 4 120 0 480 10).applyEvents (writeRun 99)).c_syncScheduled = 0 ∧
    ((File.fresh 4 120 0 480 10).applyEvents (writeRun 100)).c_syncScheduled = 1 := by
  have hb : nearSyncFile.m_block_map.find 0
      = some { Block.new 0 4 true with m_downloaded := true, m_refcnt := 1,
                                       m_buff := [10, 11, 12, 13] } := by decide
  have h := C11_sync_scheduled_at_the_hundredth_write nearSyncFile 0 _ writeComplete hb
    (by decide)
  have hc : nearSyncFile.m_in_sync = false ∧ nearSyncFile.m_non_flushed_cnt + 1 ≥ 100 := by
    decide
  have h99 := h.2.2.2 4 120 0 480 10 (writeRun 99) writeRun_ninety_nine.2
  have h100 := h.2.2.2 4 120 0 480 10 (writeRun 100) writeRun_hundred.2
  rw [writeRun_ninety_nine.1] at h99
  rw [writeRun_hundred.1] at h100
  exact ⟨hb, h.1.2 hc, (h.2.1 hc).1, (h.2.1 hc).2, by decide, by decide, h99, h100⟩

/-! ## Prefetch admission -/

theorem BlockMap.modify_length (m : BlockMap) (i : Int) (f : Block → Block) :
    (BlockMap.modify m i f).length = m.length := by
  induction m with
  | nil => rfl
  | cons e t ih =>
    obtain ⟨a, v⟩ := e
    unfold BlockMap.modify
    by_cases hai : a = i
    · rw [if_pos hai, List.length_cons, List.length_cons, ih]
    · rw [if_neg hai, List.length_cons, List.length_cons, ih]

theorem BlockMap.erase_length (m : BlockMap) (i : Int) :
    (BlockMap.erase m i).length ≤ m.length := by
  induction m with
  | nil => exact le_rfl
  | cons e t ih =>
    obtain ⟨a, v⟩ := e
    unfold BlockMap.erase
    by_cases hai : a = i
    · rw [if_pos hai, List.length_cons]; omega
    · rw [if_neg hai, List.length_cons, List.length_cons]; omega

theorem BlockMap.insert_length (m : BlockMap) (i : Int) (b : Block) :
    m.length ≤ (BlockMap.insert m i b).length := by
  induction m with
  | nil => simp [BlockMap.insert]
  | cons e t ih =>
    obtain ⟨a, v⟩ := e
    unfold BlockMap.insert
    by_cases h1 : i < a
    · rw [if_pos h1]; simp
    · rw [if_neg h1]
      by_cases h2 : i = a
      · rw [if_pos h2]; simp
      · rw [if_neg h2, List.length_cons, List.length_cons]; omega

theorem File.adm_of_map {st st1 : File} (hs : st1.m_stopping = st.m_stopping)
    (hp : st1.m_prefetchState = st.m_prefetchState)
    (hm : st1.m_block_map.length = st.m_block_map.length)
    (hx : st1.m_prefetch_max_blocks = st.m_prefetch_max_blocks)
    (hr : st1.c_registered = st.c_registered)
    (hc : st1.c_registerCalls = st.c_registerCalls) : st1.adm = st.adm := by
  unfold File.adm
  rw [hs, hp, hm, hx, hr, hc]

theorem File.AdmInv.congr {I : File → Prop} (hI : File.AdmInv I) {st st1 : File} (h : I st)
    (hs : st1.m_stopping = st.m_stopping)
    (hp : st1.m_prefetchState = st.m_prefetchState)
    (hm : st1.m_block_map.length = st.m_block_map.length)
    (hx : st1.m_prefetch_max_blocks = st.m_prefetch_max_blocks)
    (hr : st1.c_registered = st.c_registered)
    (hc : st1.c_registerCalls = st.c_registerCalls) : I st1 :=
  hI.1 st st1 (File.adm_of_map hs hp hm hx hr hc).symm h

theorem File.inc_ref_count_adm (st : File) (b : Int) : (st.inc_ref_count b).adm = st.adm :=
  File.adm_of_map rfl rfl (BlockMap.modify_length _ _ _) rfl rfl rfl

theorem File.fillBuffer_adm (st : File) (b : Int) (data : List Nat) :
    (st.fillBuffer b data).adm = st.adm :=
  File.adm_of_map rfl rfl (BlockMap.modify_length _ _ _) rfl rfl rfl

theorem File.noteWritten_adm (st : File) (pfIdx : Int) : (st.noteWritten pfIdx).adm = st.adm := by
  unfold File.noteWritten File.SetBitWriteCalled
  dsimp only
  split_ifs <;> rfl

theorem File.Sync_adm (st : File) : st.Sync.adm = st.adm := by
  have h : ∀ (l : List Int) (s : File),
      (l.foldl (fun s i => s.SetBitWriteCalled (s.offsetIdx i)) s).adm = s.adm := by
    intro l
    induction l with
    | nil => intro s; rfl
    | cons x t ih => intro s; rw [List.foldl_cons, ih]; rfl
  unfold File.Sync
  exact (File.adm_of_map rfl rfl rfl rfl rfl rfl).trans (h st.m_writes_during_sync st)

theorem File.CheckPrefetchStatRAM_adm (st : File) (blk : Block) :
    (st.CheckPrefetchStatRAM blk).adm = st.adm := by
  unfold File.CheckPrefetchStatRAM
  split_ifs <;> rfl

theorem File.CheckPrefetchStatDisk_adm (st : File) (idx : Int) :
    (st.CheckPrefetchStatDisk idx).adm = st.adm := by
  unfold File.CheckPrefetchStatDisk
  split_ifs <;> rfl

theorem File.RequestRAMBlock_adm (st : File) (g : Bool) : (st.RequestRAMBlock g).adm = st.adm := by
  unfold File.RequestRAMBlock
  split_ifs <;> rfl

theorem File.AdmInv.inc_ref_count {I : File → Prop} (hI : File.AdmInv I) {st : File} (b : Int)
    (h : I st) : I (st.inc_ref_count b) :=
  hI.1 _ _ (File.inc_ref_count_adm st b).symm h

theorem File.AdmInv.dec_ref_count {I : File → Prop} (hI : File.AdmInv I) {st : File} (b : Int)
    (h : I st) : I (st.dec_ref_count b) := by
  unfold File.dec_ref_count
  split
  · exact h
  · dsimp only
    have h1 : ∀ (bad : Bool), I ({ st with
        m_block_map := st.m_block_map.modify b (fun x => { x with m_refcnt := x.m_refcnt - 1 }),
        a_refcnt := bad } : File) := fun bad =>
      hI.congr h rfl rfl (BlockMap.modify_length _ _ _) rfl rfl rfl
    split_ifs
    · exact hI.2.1 _ b (h1 _)
    · exact h1 _

theorem File.AdmInv.ProcessBlockResponse {I : File → Prop} (hI : File.AdmInv I) {st : File}
    (b res err : Int) (h : I st) : I (st.ProcessBlockResponse b res err) := by
  unfold File.ProcessBlockResponse
  split
  · exact h
  · dsimp only
    have h1 : ∀ f : Block → Block, I ({ st with m_block_map := st.m_block_map.modify b f } : File) :=
      fun f => hI.congr h rfl rfl (BlockMap.modify_length _ _ _) rfl rfl rfl
    have hd := h1 (fun x => { x with m_downloaded := true })
    have he := h1 (fun x => x.set_error_and_free err)
    split_ifs
    all_goals first
      | exact hI.congr (hI.inc_ref_count b hd) rfl rfl rfl rfl rfl rfl
      | exact hI.2.1 _ b hd
      | exact hd
      | exact hI.inc_ref_count b he

theorem File.AdmInv.deliver {I : File → Prop} (hI : File.AdmInv I) {st : File}
    (b res err : Int) (data : List Nat) (h : I st) : I (st.deliver b res err data) := by
  unfold File.deliver
  split_ifs
  · exact hI.ProcessBlockResponse b res err (hI.1 _ _ (File.fillBuffer_adm st b data).symm h)
  · exact h

theorem File.AdmInv.WriteBlockToDisk {I : File → Prop} (hI : File.AdmInv I) {st : File}
    (b : Int) (write : Nat → Int × Int) (h : I st) : I (st.WriteBlockToDisk b write) := by
  unfold File.WriteBlockToDisk
  split
  · exact h
  · dsimp only
    split_ifs
    · exact hI.congr h rfl rfl rfl rfl rfl rfl
    · refine hI.1 _ _ (File.noteWritten_adm _ _).symm (hI.dec_ref_count b ?_)
      exact hI.congr h rfl rfl rfl rfl rfl rfl

theorem File.AdmInv.runWriteTask {I : File → Prop} (hI : File.AdmInv I) {st : File}
    (b : Int) (write : Nat → Int × Int) (h : I st) : I (st.runWriteTask b write) := by
  unfold File.runWriteTask
  split_ifs
  · exact hI.WriteBlockToDisk b write (hI.congr h rfl rfl rfl rfl rfl rfl)
  · exact h

theorem File.AdmInv.dropWriteTask {I : File → Prop} (hI : File.AdmInv I) {st : File}
    (b : Int) (h : I st) : I (st.dropWriteTask b) := by
  unfold File.dropWriteTask File.BlockRemovedFromWriteQ
  split_ifs
  · exact hI.dec_ref_count b (hI.congr h rfl rfl rfl rfl rfl rfl)
  · exact h

theorem File.AdmInv.Prefetch {I : File → Prop} (hI : File.AdmInv I) {st : File} (g : Bool)
    (h : I st) : I (st.Prefetch g) := by
  unfold File.Prefetch File.UnMarkPrefetch
  dsimp only
  split_ifs with hon
  · split
    · rename_i f _
      have h1 : I (st.RequestRAMBlock g) := hI.1 _ _ (File.RequestRAMBlock_adm st g).symm h
      have h2 := hI.2.2.1 _ f true h1
      exact hI.congr h2 rfl rfl rfl rfl rfl rfl
    · exact hI.congr (hI.2.2.2.1 st h hon) rfl rfl rfl rfl rfl rfl
  · exact hI.congr h rfl rfl rfl rfl rfl rfl

theorem File.AdmInv.purgeFailed {I : File → Prop} (hI : File.AdmInv I) (keys : List Int)
    {st : File} (h : I st) : I (st.purgeFailed keys) := by
  unfold File.purgeFailed
  induction keys generalizing st with
  | nil => exact h
  | cons k t ih =>
    rw [List.foldl_cons]
    apply ih
    split
    · split_ifs
      · exact hI.2.1 _ k h
      · exact h
    · exact h

theorem File.AdmInv.InitiateClose {I : File → Prop} (hI : File.AdmInv I) {st : File}
    (h : I st) : I st.InitiateClose.1 := by
  unfold File.InitiateClose
  dsimp only
  split_ifs
  all_goals first
    | exact hI.2.2.2.2 st h
    | exact hI.purgeFailed _ (hI.2.2.2.2 st h)

theorem File.AdmInv.applyEvent {I : File → Prop} (hI : File.AdmInv I) {st : File} (e : Event)
    (h : I st) : I (st.applyEvent e) := by
  cases e with
  | response b res err data => exact hI.deliver b res err data h
  | writeBack b write => exact hI.runWriteTask b write h
  | removedFromWriteQ b => exact hI.dropWriteTask b h
  | prefetchCall g =>
    show I (st.MarkPrefetch.Prefetch g)
    exact hI.Prefetch g (hI.congr h rfl rfl rfl rfl rfl rfl)
  | sync => exact hI.1 _ _ (File.Sync_adm st).symm h
  | initiateClose => exact hI.InitiateClose h

theorem File.AdmInv.applyEvents {I : File → Prop} (hI : File.AdmInv I) (es : List Event)
    {st : File} (h : I st) : I (st.applyEvents es) := by
  unfold File.applyEvents
  induction es generalizing st with
  | nil => exact h
  | cons e t ih => rw [List.foldl_cons]; exact ih (hI.applyEvent e h)

theorem File.AdmInv.classify {I : File → Prop} (hI : File.AdmInv I) (grant : Int → Bool)
    (n : Nat) (i : Int) (st : File) (l : ReadLists) (h : I st) :
    I (File.classify grant n i st l).1 := by
  induction n generalizing i st l with
  | zero => exact h
  | succ n ih =>
    unfold File.classify
    split
    · exact ih _ _ _ (hI.inc_ref_count i h)
    · split_ifs
      · exact ih _ _ _ h
      · dsimp only
        refine ih _ _ _ (hI.inc_ref_count i (hI.2.2.1 _ i false ?_))
        exact hI.1 _ _ (File.RequestRAMBlock_adm st true).symm h
      · exact ih _ _ _ h

theorem File.AdmInv.ReadBlocksFromDisk {I : File → Prop} (hI : File.AdmInv I)
    (diskRead : Int → Int → Int) (off len : Int) (blocks : List Int) (st : File) (total : Int)
    (cp : Copies) (h : I st) :
    I (File.ReadBlocksFromDisk diskRead off len blocks st total cp).1 := by
  induction blocks generalizing st total cp with
  | nil => exact h
  | cons x t ih =>
    unfold File.ReadBlocksFromDisk
    dsimp only
    split_ifs
    · exact h
    · exact h
    · exact ih _ _ _ (hI.1 _ _ (File.CheckPrefetchStatDisk_adm st x).symm h)

theorem File.AdmInv.readDisk {I : File → Prop} (hI : File.AdmInv I)
    (diskRead : Int → Int → Int) (off len : Int) (l : List Int) {st : File} (h : I st) :
    I (st.readDisk diskRead off len l).1 := by
  unfold File.readDisk
  split_ifs
  · exact hI.ReadBlocksFromDisk diskRead off len l st 0 [] h
  · exact h

theorem File.AdmInv.processFinished {I : File → Prop} (hI : File.AdmInv I) (off len : Int)
    (l : List Int) (st : File) (bytes : Int) (cp : Copies) (h : I st) :
    I (File.processFinished off len l st bytes cp).1 := by
  induction l generalizing st bytes cp with
  | nil => exact h
  | cons x t ih =>
    unfold File.processFinished
    split
    · exact ih st bytes cp h
    · rename_i blk _
      split_ifs
      · exact ih _ _ _ (hI.1 _ _ (File.CheckPrefetchStatRAM_adm st blk).symm h)
      · exact hI.congr h rfl rfl rfl rfl rfl rfl

theorem File.AdmInv.waitLoop {I : File → Prop} (hI : File.AdmInv I) (off len : Int)
    (fuel : Nat) (waits : List (List Event)) (st : File) (tp done : List Int) (bytes : Int)
    (cp : Copies) (w : WaitResult) (h : I st)
    (hw : File.waitLoop off len fuel waits st tp done bytes cp = some w) : I w.st := by
  induction fuel generalizing waits st tp done bytes cp with
  | zero => simp [File.waitLoop] at hw
  | succ n ih =>
    unfold File.waitLoop at hw
    by_cases hc : tp ≠ [] ∧ bytes ≥ 0
    · rw [if_pos hc] at hw
      dsimp only at hw
      by_cases hf : tp.filter (fun b => st.finished b) = []
      · rw [if_pos hf] at hw
        cases waits with
        | nil => simp at hw
        | cons e es =>
          simp only at hw
          exact ih es (st.applyEvents e) tp done bytes cp (hI.applyEvents e h) hw
      · rw [if_neg hf] at hw
        exact ih waits _ _ _ _ _ (hI.processFinished off len _ st bytes cp h) hw
    · rw [if_neg hc] at hw
      simp only [Option.some.injEq] at hw
      subst hw
      exact h

theorem File.AdmInv.releaseAll {I : File → Prop} (hI : File.AdmInv I) (bs : List Int)
    {st : File} (h : I st) : I (st.releaseAll bs) := by
  unfold File.releaseAll
  induction bs generalizing st with
  | nil => exact h
  | cons b t ih => rw [List.foldl_cons]; exact ih (hI.dec_ref_count b h)

theorem File.AdmInv.Read {I : File → Prop} (hI : File.AdmInv I) {st : File} {env : ReadEnv}
    {off len : Int} {r : ReadResult} (h : I st) (hr : st.Read env off len = some r) :
    I r.st := by
  have hc : I (st.classifyRequest env.grant off len).1 := hI.classify _ _ _ _ _ h
  rcases File.Read_cases hr with ⟨_, _, hab⟩ | ⟨_, w, hw, _, hfin⟩
  · rw [hab]
    exact hI.releaseAll _ hc
  · have hrd := hI.readDisk env.diskRead off len
      (st.classifyRequest env.grant off len).2.blks_on_disk hc
    have hwl := hI.waitLoop off len _ _ _ _ _ _ _ w (hI.applyEvents env.pre hrd) hw
    have hpost := hI.applyEvents env.post hwl
    rw [hfin]
    simp only [File.finishRead]
    exact hI.releaseAll _ (hI.congr hpost rfl rfl rfl rfl rfl rfl)

theorem File.HoldInv_AdmInv : File.AdmInv File.HoldInv := by
  refine ⟨fun s t hst h => ?_, fun s b h => ?_, fun s i pf h => ?_, fun s h hon => ?_,
    fun s h => ?_⟩
  · unfold File.adm at hst
    simp only [Prod.mk.injEq] at hst
    obtain ⟨e1, e2, e3, e4, e5, _⟩ := hst
    unfold File.HoldInv at h ⊢
    rw [← e1, ← e2, ← e3, ← e4, ← e5]
    exact h
  · unfold File.free_block
    split
    · exact h
    · rename_i blk _
      dsimp only
      have hlen := BlockMap.erase_length s.m_block_map (Int.tdiv blk.m_offset s.BS)
      by_cases hc : s.m_prefetchState = PrefetchState.kHold ∧
          (s.m_block_map.erase (Int.tdiv blk.m_offset s.BS)).length < s.m_prefetch_max_blocks
      · rw [if_pos hc]
        intro hs
        refine ⟨fun hx => by simp [File.RegisterPrefetchFile] at hx, fun _ => ?_, fun hx => ?_⟩
        · exact le_of_lt hc.2
        · simp [File.RegisterPrefetchFile] at hx
      · rw [if_neg hc]
        intro hs
        obtain ⟨h1, h2, h3⟩ := h hs
        refine ⟨h1, fun hx => le_trans hlen (h2 hx), fun hx => ⟨(h3 hx).1, ?_⟩⟩
        by_contra hlt
        exact hc ⟨hx, by
          show (s.m_block_map.erase (Int.tdiv blk.m_offset s.BS)).length < s.m_prefetch_max_blocks
          have : ¬ s.m_prefetch_max_blocks
              ≤ (s.m_block_map.erase (Int.tdiv blk.m_offset s.BS)).length := hlt
          omega⟩
  · unfold File.RequestBlock
    dsimp only
    have hlen := BlockMap.insert_length s.m_block_map i
      (Block.new (i * s.BS) (if i = s.sizeInBits - 1 then s.m_fileSize - i * s.BS else s.BS) pf)
    by_cases hc : s.m_prefetchState = PrefetchState.kOn ∧
        (s.m_block_map.insert i (Block.new (i * s.BS)
          (if i = s.sizeInBits - 1 then s.m_fileSize - i * s.BS else s.BS) pf)).length
          > s.m_prefetch_max_blocks
    · rw [if_pos hc]
      intro hs
      refine ⟨fun hx => by simp [File.DeRegisterPrefetchFile] at hx,
        fun hx => by simp [File.DeRegisterPrefetchFile] at hx, fun _ => ⟨rfl, le_of_lt hc.2⟩⟩
    · rw [if_neg hc]
      intro hs
      obtain ⟨h1, h2, h3⟩ := h hs
      refine ⟨h1, fun hx => ?_, fun hx => ⟨(h3 hx).1, le_trans (h3 hx).2 hlen⟩⟩
      by_contra hgt
      exact hc ⟨hx, by
        show (s.m_block_map.insert i (Block.new (i * s.BS)
          (if i = s.sizeInBits - 1 then s.m_fileSize - i * s.BS else s.BS) pf)).length
            > s.m_prefetch_max_blocks
        have : ¬ (s.m_block_map.insert i (Block.new (i * s.BS)
          (if i = s.sizeInBits - 1 then s.m_fileSize - i * s.BS else s.BS) pf)).length
            ≤ s.m_prefetch_max_blocks := hgt
        omega⟩
  · intro hs
    obtain ⟨h1, h2, _⟩ := h hs
    refine ⟨h1, h2, fun hx => ?_⟩
    have hx1 : s.m_prefetchState = PrefetchState.kHold := hx
    rw [hon] at hx1
    exact absurd hx1 (by decide)
  · unfold File.markStopping
    by_cases hs : s.m_stopping = true
    · rw [if_neg (by simp [hs])]
      exact h
    · rw [if_pos hs]
      intro hx
      simp at hx

theorem File.fresh_HoldInv (bs bits off size : Int) (maxBlocks : Nat) :
    (File.fresh bs bits off size maxBlocks).HoldInv :=
  fun _ => ⟨by simp [File.fresh], fun _ => Nat.zero_le _, fun hx => by simp [File.fresh] at hx⟩

theorem File.Reachable.holdInv {st : File} (h : st.Reachable) : st.HoldInv := by
  induction h with
  | fresh bs bits off size maxBlocks _ => exact File.fresh_HoldInv bs bits off size maxBlocks
  | event st e _ ih => exact File.HoldInv_AdmInv.applyEvent e ih
  | read st env off len r _ hr ih => exact File.HoldInv_AdmInv.Read ih hr

theorem File.Reachable.afterEvents {st : File} (es : List Event) (h : st.Reachable) :
    (st.applyEvents es).Reachable := by
  unfold File.applyEvents
  induction es generalizing st with
  | nil => exact h
  | cons e t ih => rw [List.foldl_cons]; exact ih (File.Reachable.event st e h)

/-- C12: in every state reached before close-initiation (the stopping flag is not set),
a block map larger than `m_prefetch_max_blocks` means that the prefetch state is Hold and
the file is not a prefetch candidate of the coordinator; the state is Hold only while the
map is no smaller than the ceiling, and then the file is not a candidate; a `free_block`
in state Hold that leaves the map smaller than the ceiling switches the state to On and
registers the file once, and one that does not leaves the state Hold. -/
theorem C12_hold_while_over_the_ceiling (st : File) (h : st.Reachable)
    (hs : st.m_stopping = false) :
    (st.m_prefetch_max_blocks < st.m_block_map.length →
      st.m_prefetchState = PrefetchState.kHold ∧ st.c_registered = false) ∧
    (st.m_prefetchState = PrefetchState.kHold →
      st.m_prefetch_max_blocks ≤ st.m_block_map.length ∧ st.c_registered = false) ∧
    (∀ b : Int, st.m_prefetchState = PrefetchState.kHold →
      (st.free_block b).m_block_map.length < st.m_prefetch_max_blocks →
        (st.free_block b).m_prefetchState = PrefetchState.kOn ∧
        (st.free_block b).c_registered = true ∧
        (st.free_block b).c_registerCalls = st.c_registerCalls + 1) ∧
    (∀ b : Int, st.m_prefetchState = PrefetchState.kHold →
      st.m_prefetch_max_blocks ≤ (st.free_block b).m_block_map.length →
        (st.free_block b).m_prefetchState = PrefetchState.kHold ∧
        (st.free_block b).c_registered = false) := by
  obtain ⟨h1, h2, h3⟩ := h.holdInv hs
  refine ⟨fun hgt => ?_, fun hh => ⟨(h3 hh).2, (h3 hh).1⟩, fun b hh hlt => ?_, fun b hh hge => ?_⟩
  · cases hp : st.m_prefetchState with
    | kOn => have := h2 hp; omega
    | kHold => exact ⟨rfl, (h3 hp).1⟩
    | kCanceled => exact absurd hp h1
  · have hm := File.free_block_map st b
    cases hf : st.m_block_map.find b with
    | none =>
      rw [hf] at hm
      dsimp only at hm
      rw [hm] at hlt
      have := (h3 hh).2
      omega
    | some blk =>
      rw [hf] at hm
      dsimp only at hm
      rw [hm] at hlt
      unfold File.free_block
      rw [hf]
      dsimp only
      rw [if_pos ⟨hh, hlt⟩]
      exact ⟨rfl, rfl, rfl⟩
  · have hm := File.free_block_map st b
    cases hf : st.m_block_map.find b with
    | none =>
      unfold File.free_block
      rw [hf]
      exact ⟨hh, (h3 hh).1⟩
    | some blk =>
      rw [hf] at hm
      dsimp only at hm
      rw [hm] at hge
      unfold File.free_block
      rw [hf]
      dsimp only
      rw [if_neg (fun hc => by have := hc.2; omega)]
      exact ⟨hh, (h3 hh).1⟩

/-- C12 at two states of a file with ceiling 1: with blocks 0 and 1 in flight the map
(size 2) is over the ceiling, the state is Hold and the file is not a candidate; after
block 0 was written back and freed the map has size 1, the state is still Hold, and
freeing block 1 switches it to On and registers the file again. -/
theorem C12_witness :
    heldFile.m_stopping = false ∧ heldFile.m_prefetch_max_blocks < heldFile.m_block_map.length ∧
    heldFile.m_prefetchState = PrefetchState.kHold ∧ heldFile.c_registered = false ∧
    heldFileOneLeft.m_prefetchState = PrefetchState.kHold ∧
    heldFileOneLeft.m_block_map.length = 1 ∧
    (heldFileOneLeft.free_block 1).m_prefetchState = PrefetchState.kOn ∧
    (heldFileOneLeft.free_block 1).c_registered = true := by
  have hr : heldFile.Reachable :=
    File.Reachable.event _ _ (File.Reachable.event _ _
      (File.Reachable.fresh 4 3 0 10 1 (by decide)))
  have hr1 : heldFileOneLeft.Reachable := File.Reachable.afterEvents _ hr
  have h := C12_hold_while_over_the_ceiling heldFile hr (by decide)
  have h1 := C12_hold_while_over_the_ceiling heldFileOneLeft hr1 (by decide)
  have hgt : heldFile.m_prefetch_max_blocks < heldFile.m_block_map.length := by decide
  have hh : heldFileOneLeft.m_prefetchState = PrefetchState.kHold := by decide
  have hf := h1.2.2.1 1 hh (by decide)
  exact ⟨by decide, hgt, (h.1 hgt).1, (h.1 hgt).2, hh, by decide, hf.1, hf.2.1⟩

theorem File.free_block_stopping (st : File) (b : Int) :
    (st.free_block b).m_stopping = st.m_stopping := by
  unfold File.free_block File.RegisterPrefetchFile
  split
  · rfl
  · dsimp only; split_ifs <;> rfl

theorem File.purgeFailed_stopping (s : File) (keys : List Int) :
    (s.purgeFailed keys).m_stopping = s.m_stopping := by
  unfold File.purgeFailed
  induction keys generalizing s with
  | nil => rfl
  | cons k t ih =>
    rw [List.foldl_cons, ih]
    split
    · split_ifs
      · rw [File.free_block_stopping]
      · rfl
    · rfl

theorem File.markStopping_stopping (st : File) : st.markStopping.m_stopping = true := by
  unfold File.markStopping
  by_cases hs : st.m_stopping = true
  · rw [if_neg (by simp [hs])]; exact hs
  · rw [if_pos hs]

theorem File.InitiateClose_stopping (st : File) : st.InitiateClose.1.m_stopping = true := by
  unfold File.InitiateClose
  dsimp only
  split_ifs
  all_goals first
    | exact File.markStopping_stopping st
    | (rw [File.purgeFailed_stopping]; exact File.markStopping_stopping st)

theorem File.purgeFailed_cons (st : File) (x : Int) (t : List Int) :
    st.purgeFailed (x :: t)
      = (if st.purgeable x = true then st.free_block x else st).purgeFailed t := by
  unfold File.purgeFailed
  rw [List.foldl_cons]
  congr 1
  unfold File.purgeable
  cases hx : st.m_block_map.find x with
  | none => simp
  | some blk =>
    dsimp only
    by_cases hc : blk.is_failed = true ∧ blk.m_refcnt = 1
    · rw [if_pos hc, if_pos (by simp [hc.1, hc.2])]
    · rw [if_neg hc, if_neg (by
        intro h
        simp only [Bool.and_eq_true, decide_eq_true_eq] at h
        exact hc h)]

theorem File.purgeable_congr {s t : File} {k : Int}
    (h : s.m_block_map.find k = t.m_block_map.find k) : s.purgeable k = t.purgeable k := by
  unfold File.purgeable
  rw [h]

theorem File.purgeFailed_find {st : File} (hwf : st.WF) (keys : List Int) (k : Int) :
    (st.purgeFailed keys).m_block_map.find k
      = if k ∈ keys ∧ st.purgeable k = true then none else st.m_block_map.find k := by
  induction keys generalizing st with
  | nil => simp [File.purgeFailed]
  | cons x t ih =>
    rw [File.purgeFailed_cons]
    by_cases hp : st.purgeable x = true
    · rw [if_pos hp, ih (File.free_block_WF x hwf), File.free_block_find hwf]
      by_cases hkx : k = x
      · subst hkx
        rw [if_pos (show k ∈ k :: t ∧ st.purgeable k = true from ⟨List.mem_cons_self _ _, hp⟩)]
        simp
      · rw [if_neg hkx]
        have e : (st.free_block x).purgeable k = st.purgeable k :=
          File.purgeable_congr (by rw [File.free_block_find hwf, if_neg hkx])
        rw [e]
        simp only [List.mem_cons, hkx, false_or]
    · rw [if_neg hp, ih hwf]
      by_cases hkx : k = x
      · subst hkx
        rw [if_neg (fun h => hp h.2), if_neg (fun h => hp h.2)]
      · simp only [List.mem_cons, hkx, false_or]

theorem BlockMap.mem_keys_of_find {m : BlockMap} {k : Int} {b : Block}
    (h : BlockMap.find m k = some b) : k ∈ m.map Prod.fst := by
  induction m with
  | nil => simp [BlockMap.find] at h
  | cons e t ih =>
    obtain ⟨a, v⟩ := e
    unfold BlockMap.find at h
    by_cases hk : k = a
    · simp [hk]
    · rw [if_neg hk] at h
      exact List.mem_cons_of_mem _ (ih h)

theorem BlockMap.eq_nil_iff_find (m : BlockMap) : m = [] ↔ ∀ k, BlockMap.find m k = none := by
  constructor
  · intro h k; rw [h]; rfl
  · intro h
    cases m with
    | nil => rfl
    | cons e t =>
      obtain ⟨a, v⟩ := e
      have := h a
      simp [BlockMap.find] at this

theorem File.purgeFailed_all_find {st : File} (hwf : st.WF) (k : Int) :
    (st.purgeFailed (st.m_block_map.map Prod.fst)).m_block_map.find k
      = if st.purgeable k = true then none else st.m_block_map.find k := by
  rw [File.purgeFailed_find hwf]
  by_cases hp : st.purgeable k = true
  · have hmem : k ∈ st.m_block_map.map Prod.fst := by
      have hp1 := hp
      unfold File.purgeable at hp1
      cases hf : st.m_block_map.find k with
      | none => rw [hf] at hp1; simp at hp1
      | some b => exact BlockMap.mem_keys_of_find hf
    rw [if_pos hp, if_pos ⟨hmem, hp⟩]
  · rw [if_neg hp, if_neg (fun h => hp h.2)]

theorem File.purgeFailed_noop (st : File) (keys : List Int)
    (h : ∀ k ∈ keys, st.purgeable k = false) : st.purgeFailed keys = st := by
  induction keys with
  | nil => rfl
  | cons x t ih =>
    rw [File.purgeFailed_cons, if_neg (by rw [h x (List.mem_cons_self _ _)]; simp)]
    exact ih (fun k hk => h k (List.mem_cons_of_mem _ hk))

theorem File.free_block_prefetchCurrentCnt (st : File) (b : Int) :
    (st.free_block b).m_prefetchCurrentCnt = st.m_prefetchCurrentCnt ∧
    (st.free_block b).c_deregisterCalls = st.c_deregisterCalls := by
  unfold File.free_block File.RegisterPrefetchFile
  split
  · exact ⟨rfl, rfl⟩
  · dsimp only; split_ifs <;> exact ⟨rfl, rfl⟩

theorem File.purgeFailed_prefetchCurrentCnt (s : File) (keys : List Int) :
    (s.purgeFailed keys).m_prefetchCurrentCnt = s.m_prefetchCurrentCnt ∧
    (s.purgeFailed keys).c_deregisterCalls = s.c_deregisterCalls := by
  induction keys generalizing s with
  | nil => exact ⟨rfl, rfl⟩
  | cons x t ih =>
    rw [File.purgeFailed_cons]
    by_cases hp : s.purgeable x = true
    · rw [if_pos hp, (ih _).1, (ih _).2]
      exact File.free_block_prefetchCurrentCnt s x
    · rw [if_neg hp]
      exact ih s

theorem File.markStopping_fields (st : File) :
    st.markStopping.m_prefetchCurrentCnt = st.m_prefetchCurrentCnt ∧
    st.markStopping.m_block_map = st.m_block_map ∧
    st.markStopping.m_in_sync = st.m_in_sync ∧
    st.markStopping.c_ramReleased = st.c_ramReleased ∧
    st.markStopping.c_deregisterCalls
      = st.c_deregisterCalls + (if st.m_stopping = true then 0 else 1) := by
  unfold File.markStopping
  by_cases hs : st.m_stopping = true
  · rw [if_neg (by simp [hs]), if_pos hs]
    exact ⟨rfl, rfl, rfl, rfl, rfl⟩
  · rw [if_pos hs, if_neg hs]
    exact ⟨rfl, rfl, rfl, rfl, rfl⟩

theorem File.markStopping_idem (st : File) (hs : st.m_stopping = true) :
    st.markStopping = st := by
  unfold File.markStopping
  rw [if_neg (by simp [hs])]

theorem File.InitiateClose_fst (st : File) :
    st.InitiateClose.1 =
      if st.m_prefetchCurrentCnt > 0 then st.markStopping
      else st.markStopping.purgeFailed (st.m_block_map.map Prod.fst) := by
  have hf := File.markStopping_fields st
  unfold File.InitiateClose
  dsimp only
  rw [hf.1, hf.2.1]
  by_cases hp : st.m_prefetchCurrentCnt > 0
  · rw [if_neg (by simp [hp]), if_pos hp]
  · rw [if_pos (by simp [hp]), if_neg hp]
    split_ifs <;> rfl

theorem File.InitiateClose_snd (st : File) :
    st.InitiateClose.2 = false ↔
      (¬ st.m_prefetchCurrentCnt > 0 ∧ st.InitiateClose.1.m_block_map = [] ∧
        st.m_in_sync = false) := by
  have hf := File.markStopping_fields st
  have hsync : ∀ keys, (st.markStopping.purgeFailed keys).m_in_sync = st.m_in_sync := fun keys =>
    (congrArg Prod.fst (File.purgeFailed_syncView st.markStopping keys)).trans hf.2.2.1
  unfold File.InitiateClose
  dsimp only
  rw [hf.1, hf.2.1]
  by_cases hp : st.m_prefetchCurrentCnt > 0
  · rw [if_neg (by simp [hp])]
    simp [hp]
  · rw [if_pos (by simp [hp])]
    rw [hsync]
    by_cases he : (st.markStopping.purgeFailed (st.m_block_map.map Prod.fst)).m_block_map.isEmpty
        = true ∧ st.m_in_sync = false
    · rw [if_pos he]
      exact ⟨fun _ => ⟨hp, List.isEmpty_iff.1 he.1, he.2⟩, fun _ => rfl⟩
    · rw [if_neg he]
      refine ⟨fun h => by simp at h, fun h => absurd ⟨List.isEmpty_iff.2 h.2.1, h.2.2⟩ he⟩

/-- C15: on a state with a prefetch counter that is not negative, `InitiateClose` returns
false exactly when no prefetch is in flight (`m_prefetchCurrentCnt` is 0), the block map
is empty after the purge, and no sync is in progress; in every other case it returns
true.  When no prefetch is in flight the map after the call is the map before it without
the failed blocks whose reference count is exactly 1, so it is empty exactly when every
block was such a block; a block that is not failed, or whose count is not 1, is in the
map after the call as it was before, whatever the call returns. -/
theorem C15_InitiateClose_returns_false_iff_idle (st : File) (hwf : st.WF)
    (hcnt : 0 ≤ st.m_prefetchCurrentCnt) :
    (st.InitiateClose.2 = false ↔
      (st.m_prefetchCurrentCnt = 0 ∧ st.InitiateClose.1.m_block_map = [] ∧
        st.m_in_sync = false)) ∧
    (st.InitiateClose.2 = true ↔
      ¬ (st.m_prefetchCurrentCnt = 0 ∧ st.InitiateClose.1.m_block_map = [] ∧
        st.m_in_sync = false)) ∧
    (st.m_prefetchCurrentCnt = 0 →
      (∀ k, st.InitiateClose.1.m_block_map.find k
        = if st.purgeable k = true then none else st.m_block_map.find k) ∧
      (st.InitiateClose.1.m_block_map = [] ↔
        ∀ k blk, st.m_block_map.find k = some blk →
          blk.is_failed = true ∧ blk.m_refcnt = 1)) ∧
    (∀ k blk, st.m_block_map.find k = some blk →
      ¬ (blk.is_failed = true ∧ blk.m_refcnt = 1) →
        st.InitiateClose.1.m_block_map.find k = some blk) := by
  have hf := File.markStopping_fields st
  have hwf1 : st.markStopping.WF := File.markStopping_WF hwf
  have hiff := File.InitiateClose_snd st
  have h1 : (st.InitiateClose.2 = false ↔
      (st.m_prefetchCurrentCnt = 0 ∧ st.InitiateClose.1.m_block_map = [] ∧
        st.m_in_sync = false)) := by
    rw [hiff]
    constructor
    · exact fun h => ⟨by omega, h.2⟩
    · exact fun h => ⟨by omega, h.2⟩
  have hfind : ¬ st.m_prefetchCurrentCnt > 0 → ∀ k, st.InitiateClose.1.m_block_map.find k
      = if st.purgeable k = true then none else st.m_block_map.find k := by
    intro h0 k
    rw [File.InitiateClose_fst, if_neg h0]
    have := File.purgeFailed_all_find hwf1 k
    rw [hf.2.1] at this
    rw [this, File.purgeable_congr (show st.markStopping.m_block_map.find k
      = st.m_block_map.find k by rw [hf.2.1])]
  have hpg : ∀ k blk, st.m_block_map.find k = some blk →
      (st.purgeable k = true ↔ (blk.is_failed = true ∧ blk.m_refcnt = 1)) := by
    intro k blk hk
    unfold File.purgeable
    rw [hk]
    simp
  refine ⟨h1, ?_, fun h0 => ⟨hfind (by omega), ?_⟩, fun k blk hk hn => ?_⟩
  · rw [← h1]
    cases st.InitiateClose.2 <;> simp
  · rw [BlockMap.eq_nil_iff_find]
    constructor
    · intro h k blk hk
      have := h k
      rw [hfind (by omega) k] at this
      by_cases hp : st.purgeable k = true
      · exact (hpg k blk hk).1 hp
      · rw [if_neg hp, hk] at this
        simp at this
    · intro h k
      rw [hfind (by omega) k]
      cases hk : st.m_block_map.find k with
      | none => simp
      | some blk => rw [if_pos ((hpg k blk hk).2 (h k blk hk))]
  · by_cases hp : st.m_prefetchCurrentCnt > 0
    · rw [File.InitiateClose_fst, if_pos hp, hf.2.1]
      exact hk
    · rw [hfind hp k, if_neg (fun h => hn ((hpg k blk hk).1 h))]
      exact hk

/-- C15 on the file of the scenarios with nothing in flight and no sync in progress:
when the map holds only block 0, failed with reference count 1, the block is purged and
the call returns false; when it holds block 0 downloaded with a write task pending, the
block stays and the call returns true. -/
theorem C15_witness :
    failedPrefetchFile.InitiateClose.2 = false ∧
    failedPrefetchFile.InitiateClose.1.m_block_map = [] ∧
    downloadedFile.InitiateClose.2 = true ∧
    downloadedFile.InitiateClose.1.m_block_map.find 0 = downloadedFile.m_block_map.find 0 := by
  have hwf1 : failedPrefetchFile.WF :=
    File.applyEvent_WF _ (File.applyEvent_WF _ (File.fresh_WF 4 3 0 10 10 (by decide)))
  have hwf2 : downloadedFile.WF :=
    File.applyEvent_WF _ (File.applyEvent_WF _ (File.fresh_WF 4 3 0 10 10 (by decide)))
  have h1 := C15_InitiateClose_returns_false_iff_idle failedPrefetchFile hwf1 (by decide)
  have h2 := C15_InitiateClose_returns_false_iff_idle downloadedFile hwf2 (by decide)
  have hb : downloadedFile.m_block_map.find 0
      = some { Block.new 0 4 true with m_downloaded := true, m_refcnt := 1,
                                       m_buff := [10, 11, 12, 13] } := by decide
  have he : failedPrefetchFile.InitiateClose.1.m_block_map = [] := by decide
  refine ⟨h1.1.2 ⟨by decide, he, by decide⟩, he, h2.2.1.2 (fun h => ?_), ?_⟩
  · have := h.2.1
    exact absurd this (by decide)
  · rw [hb]
    exact h2.2.2.2 0 _ hb (by decide)

theorem File.InitiateClose_fields (st : File) :
    st.InitiateClose.1.m_prefetchCurrentCnt = st.m_prefetchCurrentCnt ∧
    st.InitiateClose.1.m_in_sync = st.m_in_sync ∧
    st.InitiateClose.1.c_deregisterCalls
      = st.c_deregisterCalls + (if st.m_stopping = true then 0 else 1) := by
  have hf := File.markStopping_fields st
  refine ⟨?_, (congrArg Prod.fst (File.InitiateClose_syncView st)), ?_⟩
  · rw [File.InitiateClose_fst]
    by_cases hp : st.m_prefetchCurrentCnt > 0
    · rw [if_pos hp]; exact hf.1
    · rw [if_neg hp, (File.purgeFailed_prefetchCurrentCnt _ _).1]; exact hf.1
  · rw [File.InitiateClose_fst]
    by_cases hp : st.m_prefetchCurrentCnt > 0
    · rw [if_pos hp]; exact hf.2.2.2.2
    · rw [if_neg hp, (File.purgeFailed_prefetchCurrentCnt _ _).2]; exact hf.2.2.2.2

theorem File.InitiateClose_idem {st : File} (hwf : st.WF) :
    st.InitiateClose.1.InitiateClose = st.InitiateClose := by
  have hf := File.markStopping_fields st
  have hwf1 : st.markStopping.WF := File.markStopping_WF hwf
  have hfl := File.InitiateClose_fields st
  have hms : st.InitiateClose.1.markStopping = st.InitiateClose.1 :=
    File.markStopping_idem _ (File.InitiateClose_stopping st)
  have h1 : st.InitiateClose.1.InitiateClose.1 = st.InitiateClose.1 := by
    rw [File.InitiateClose_fst st.InitiateClose.1, hfl.1, hms]
    by_cases hp : st.m_prefetchCurrentCnt > 0
    · rw [if_pos hp]
    · rw [if_neg hp]
      apply File.purgeFailed_noop
      intro k _
      have hk : st.InitiateClose.1.m_block_map.find k
          = if st.purgeable k = true then none else st.m_block_map.find k := by
        rw [File.InitiateClose_fst, if_neg hp]
        have := File.purgeFailed_all_find hwf1 k
        rw [hf.2.1] at this
        rw [this, File.purgeable_congr (show st.markStopping.m_block_map.find k
          = st.m_block_map.find k by rw [hf.2.1])]
      by_cases hpk : st.purgeable k = true
      · rw [if_pos hpk] at hk
        unfold File.purgeable
        rw [hk]
      · rw [if_neg hpk] at hk
        rw [File.purgeable_congr hk]
        simpa using hpk
  have h2 : (st.InitiateClose.1.InitiateClose.2 = false ↔ st.InitiateClose.2 = false) := by
    rw [File.InitiateClose_snd st.InitiateClose.1, File.InitiateClose_snd st, h1, hfl.1, hfl.2.1]
  refine Prod.ext h1 ?_
  revert h2
  cases st.InitiateClose.1.InitiateClose.2 <;> cases st.InitiateClose.2 <;> simp

theorem File.InitiateCloseTimes_eq {st : File} (hwf : st.WF) (n : Nat) :
    st.InitiateCloseTimes n = st.InitiateClose := by
  induction n with
  | zero => rfl
  | succ n ih =>
    show (File.InitiateCloseTimes st n).1.InitiateClose = _
    rw [ih, File.InitiateClose_idem hwf]

/-- C16: on a state whose blocks sit under the index of their offset, a second call of
`InitiateClose` right after the first leaves the state the first call left and returns
what the first returned, and so does any number of calls in a row.  Over all these calls
the coordinator is asked to deregister the file once when the file was not stopping
before (and not at all when it was), the number of RAM releases reported is the one of
the first call, and a block the purge of the first call has freed is not in the map
afterwards, so it is not freed again. -/
theorem C16_InitiateClose_idempotent (st : File) (hwf : st.WF) (n : Nat) :
    st.InitiateClose.1.InitiateClose = st.InitiateClose ∧
    st.InitiateCloseTimes n = st.InitiateClose ∧
    (st.InitiateCloseTimes n).1.c_deregisterCalls
      = st.c_deregisterCalls + (if st.m_stopping = true then 0 else 1) ∧
    (st.InitiateCloseTimes n).1.c_ramReleased = st.InitiateClose.1.c_ramReleased ∧
    (∀ k, st.m_prefetchCurrentCnt ≤ 0 → st.purgeable k = true →
      (st.InitiateCloseTimes n).1.m_block_map.find k = none) := by
  have he := File.InitiateCloseTimes_eq hwf n
  refine ⟨File.InitiateClose_idem hwf, he, ?_, by rw [he], fun k hc hp => ?_⟩
  · rw [he]
    exact (File.InitiateClose_fields st).2.2
  · rw [he, File.InitiateClose_fst, if_neg (by omega)]
    have := File.purgeFailed_all_find (File.markStopping_WF hwf) k
    rw [(File.markStopping_fields st).2.1] at this
    rw [this, File.purgeable_congr (show st.markStopping.m_block_map.find k
      = st.m_block_map.find k by rw [(File.markStopping_fields st).2.1]), if_pos hp]

/-- C16 on the file of the scenarios with block 0 failed (reference count 1): three
calls of `InitiateClose` in a row leave the state of the first call, return false like
the first, deregister once and report one RAM release. -/
theorem C16_witness :
    failedPrefetchFile.InitiateCloseTimes 2 = failedPrefetchFile.InitiateClose ∧
    (failedPrefetchFile.InitiateCloseTimes 2).2 = false ∧
    (failedPrefetchFile.InitiateCloseTimes 2).1.c_deregisterCalls
      = failedPrefetchFile.c_deregisterCalls + 1 ∧
    (failedPrefetchFile.InitiateCloseTimes 2).1.c_ramReleased = 1 := by
  have hwf1 : failedPrefetchFile.WF :=
    File.applyEvent_WF _ (File.applyEvent_WF _ (File.fresh_WF 4 3 0 10 10 (by decide)))
  have h := C16_InitiateClose_idempotent failedPrefetchFile hwf1 2
  refine ⟨h.2.1, ?_, h.2.2.1, ?_⟩
  · rw [h.2.1]; decide
  · rw [h.2.2.2.1]; decide

/-- C13 at a file with base offset 8 and block size 4, so that bit `j` stands for block
`j + 2`, in state On with block 2 (bit 0) in flight: bit 1 is unset and block 3 has no
map entry, so block 3 is the one to fetch; `Prefetch` issues no fetch, leaves the read
counter, and deregisters the file.  The loop variable `f` is itself shifted by
`m_offset / BS` at source line 904: after bit 0 it is 2, then 3, which ends the loop over
3 bits.  With base offset 0 the same situation fetches block 1. -/
theorem C13_prefetch_scan_skips_with_base_offset :
    offsetPrefetchingFile.m_prefetchState = PrefetchState.kOn ∧
    offsetPrefetchingFile.m_offset = 8 ∧
    offsetPrefetchingFile.TestBit 1 = false ∧
    offsetPrefetchingFile.m_block_map.find (1 + Int.tdiv 8 4) = none ∧
    offsetPrefetchingFile.prefetchScan 3 0 = none ∧
    (offsetPrefetchingFile.Prefetch true).m_fetches = offsetPrefetchingFile.m_fetches ∧
    (offsetPrefetchingFile.Prefetch true).m_block_map = offsetPrefetchingFile.m_block_map ∧
    (offsetPrefetchingFile.Prefetch true).m_prefetchReadCnt
      = offsetPrefetchingFile.m_prefetchReadCnt ∧
    offsetPrefetchingFile.c_registered = true ∧
    (offsetPrefetchingFile.Prefetch true).c_registered = false ∧
    (prefetchingFile.Prefetch true).m_fetches = [(0, 0, 4, true), (1, 4, 4, true)] := by
  refine ⟨by decide, by decide, by decide, by decide, by decide, by decide, by decide,
    by decide, by decide, by decide, by decide⟩

/-- C14 on the file of the scenarios: a `Prefetch` call for which the coordinator denies
the RAM block still issues the fetch of block 0 and puts the block in the map, so in a
reachable state one block is in the map with no RAM block granted; when the block has
been downloaded and written back its removal reports a release, so one release stands
against no grant.  `Read` in the same situation issues no fetch. -/
theorem C14_prefetch_fetches_without_a_RAM_grant :
    deniedPrefetchFile.Reachable ∧
    deniedPrefetchFile.m_fetches = [(0, 0, 4, true)] ∧
    deniedPrefetchFile.m_block_map.length = 1 ∧
    deniedPrefetchFile.c_ramGranted = 0 ∧
    deniedPrefetchFile.c_ramReleased = 0 ∧
    (deniedPrefetchFile.c_ramGranted : Int) - deniedPrefetchFile.c_ramReleased
      ≠ deniedPrefetchFile.m_block_map.length ∧
    ((deniedPrefetchFile.applyEvents [Event.response 0 4 0 [10, 11, 12, 13],
        Event.writeBack 0 writeComplete]).m_block_map.length,
      (deniedPrefetchFile.applyEvents [Event.response 0 4 0 [10, 11, 12, 13],
        Event.writeBack 0 writeComplete]).c_ramGranted,
      (deniedPrefetchFile.applyEvents [Event.response 0 4 0 [10, 11, 12, 13],
        Event.writeBack 0 writeComplete]).c_ramReleased) = (0, 0, 1) ∧
    (scenarioFile.classifyRequest (fun _ => false) 0 4).1.m_fetches = [] := by
  refine ⟨File.Reachable.event _ _ (File.Reachable.fresh 4 3 0 10 10 (by decide)),
    by decide, by decide, by decide, by decide, by decide, by decide, by decide⟩

/-! ## The retry bound of the write-back -/

theorem writeLoop_calls (write : Nat → Int × Int) (data : List Nat) (offset buffer_offset : Int)
    (fuel : Nat) (rem buff cnt : Int) (disk : Disk) (calls : Nat) :
    (writeLoop write data offset buffer_offset fuel rem buff cnt disk calls).calls
      ≤ calls + fuel := by
  induction fuel generalizing rem buff cnt disk calls with
  | zero => simp [writeLoop]
  | succ n ih =>
    unfold writeLoop
    dsimp only
    split_ifs
    · simp only; omega
    · have := ih (rem - (write calls).1) (buff + (write calls).1) (cnt + 1)
        (storageWrite disk data buff (offset + buffer_offset) (write calls).1) (calls + 1)
      omega
    · simp only; omega
    · simp only; omega

/-- C23, the code at the failing input: the storage write takes nothing at the first ten
calls and the whole block at the eleventh.  `WriteBlockToDisk` makes the eleventh call
(the test at source line 691 is `cnt > PREFETCH_MAX_ATTEMPTS` after the increment), all
four bytes are then in the data file, and the function returns at line 694 as for a
failed write: the fetched bit stays unset and the reference of the write task is kept.
When the block is complete at the tenth call the write-back goes through.  No sequence of
results makes it call the storage write more than eleven times. -/
theorem C23_write_back_makes_eleven_attempts :
    (downloadedFile.m_block_map.find 0).map (fun blk =>
        (((downloadedFile.takeWrite 0).writeAttempt blk writeCompleteAtEleventh).calls,
         ((downloadedFile.takeWrite 0).writeAttempt blk writeCompleteAtEleventh).buffer_remaining,
         ((downloadedFile.takeWrite 0).writeAttempt blk writeCompleteAtEleventh).abandoned))
      = some (11, 0, true) ∧
    (downloadedFile.applyEvent (Event.writeBack 0 writeCompleteAtEleventh)).m_disk.read 0 4
      = [some 10, some 11, some 12, some 13] ∧
    (downloadedFile.applyEvent (Event.writeBack 0 writeCompleteAtEleventh)).TestBit 0 = false ∧
    ((downloadedFile.applyEvent (Event.writeBack 0 writeCompleteAtEleventh)).m_block_map.find 0).map
        (fun blk => blk.m_refcnt) = some 1 ∧
    (downloadedFile.m_block_map.find 0).map (fun blk =>
        (((downloadedFile.takeWrite 0).writeAttempt blk writeCompleteAtTenth).calls,
         ((downloadedFile.takeWrite 0).writeAttempt blk writeCompleteAtTenth).abandoned))
      = some (10, false) ∧
    (downloadedFile.applyEvent (Event.writeBack 0 writeCompleteAtTenth)).TestBit 0 = true ∧
    (∀ (st : File) (blk : Block) (write : Nat → Int × Int),
      (st.writeAttempt blk write).calls ≤ 11) := by
  refine ⟨by decide, by decide, by decide, by decide, by decide, by decide,
    fun st blk write => ?_⟩
  unfold File.writeAttempt
  have := writeLoop_calls write blk.m_buff (blk.m_offset - st.m_offset) 0
    (PREFETCH_MAX_ATTEMPTS + 1).toNat
    (if blk.m_offset - st.m_offset + st.BS > st.m_fileSize
      then st.m_fileSize - (blk.m_offset - st.m_offset) else st.BS) 0 0 st.m_disk 0
  have e : (PREFETCH_MAX_ATTEMPTS + 1).toNat = 11 := by decide
  rw [e] at this
  rw [e]
  dsimp only
  omega

/-! ## The aggregator of the pass-through reads -/

theorem DirectResponseHandler.Done_fields (h : DirectResponseHandler) (res err : Int) :
    (h.Done res err).m_to_wait = h.m_to_wait - 1 ∧
    (h.Done res err).m_errno = (if res < 0 then err else h.m_errno) ∧
    (h.Done res err).signals = h.signals + (if h.m_to_wait - 1 = 0 then 1 else 0) := by
  unfold DirectResponseHandler.Done
  dsimp only
  by_cases hr : res < 0
  · rw [if_pos hr, if_pos hr]
    by_cases hw : h.m_to_wait - 1 = 0
    · rw [if_pos hw, if_pos hw]; exact ⟨rfl, rfl, rfl⟩
    · rw [if_neg hw, if_neg hw]; exact ⟨rfl, rfl, rfl⟩
  · rw [if_neg hr, if_neg hr]
    by_cases hw : h.m_to_wait - 1 = 0
    · rw [if_pos hw, if_pos hw]; exact ⟨rfl, rfl, rfl⟩
    · rw [if_neg hw, if_neg hw]; exact ⟨rfl, rfl, rfl⟩

theorem DirectResponseHandler.foldl_Done (done : List (Int × Int)) (h : DirectResponseHandler) :
    (done.foldl (fun h r => h.Done r.1 r.2) h).m_to_wait = h.m_to_wait - done.length ∧
    (done.foldl (fun h r => h.Done r.1 r.2) h).m_errno
      = (failedErrnos done).getLastD h.m_errno ∧
    (done.foldl (fun h r => h.Done r.1 r.2) h).signals
      = h.signals + (if 1 ≤ h.m_to_wait ∧ h.m_to_wait ≤ done.length then 1 else 0) := by
  induction done generalizing h with
  | nil =>
    refine ⟨by simp, rfl, ?_⟩
    rw [if_neg (by simp only [List.length_nil]; push_cast; omega)]
    rfl
  | cons x t ih =>
    rw [List.foldl_cons]
    obtain ⟨f1, f2, f3⟩ := DirectResponseHandler.Done_fields h x.1 x.2
    obtain ⟨i1, i2, i3⟩ := ih (h.Done x.1 x.2)
    refine ⟨?_, ?_, ?_⟩
    · rw [i1, f1]; simp only [List.length_cons]; push_cast; ring
    · rw [i2, f2]
      unfold failedErrnos
      by_cases hr : x.1 < 0
      · rw [if_pos hr, List.filter_cons_of_pos (by simpa using hr), List.map_cons,
          List.getLastD_cons]
      · rw [if_neg hr, List.filter_cons_of_neg (by simpa using hr)]
    · rw [i3, f3, f1]
      simp only [List.length_cons]
      push_cast
      by_cases a : h.m_to_wait - 1 = 0
      · rw [if_pos a, if_neg (by omega), if_pos (by omega)]
      · rw [if_neg a]
        by_cases b : 1 ≤ h.m_to_wait - 1 ∧ h.m_to_wait - 1 ≤ (t.length : Int)
        · rw [if_pos b, if_pos (by omega)]
        · rw [if_neg b, if_neg (by omega)]

/-- C24 as stated fails: of two failed completions with `errno` 5 and then 7 the handler
reports 7, the code of the last one, and `Read(buf, 0, 8)` served by two pass-through
reads that fail this way returns -1 with `errno` 7; and after one failed completion that
leaves `errno` 0 the handler reports 0 and `Read(buf, 0, 4)` returns 4. -/
theorem C24_counterexample :
    (directHandler 2 [(-1, 5), (-1, 7)]).m_errno = 7 ∧
    (failedErrnos [(-1, 5), (-1, 7)]).head? = some 5 ∧
    (scenarioFile.Read { scenarioDirectEnv with directDone := [(-1, 5), (-1, 7)] } 0 8).map
        (fun r => (r.ret, r.st.m_errno, r.lists.blks_direct)) = some (-1, 7, [0, 1]) ∧
    (directHandler 1 [(-1, 0)]).m_errno = 0 ∧
    (scenarioFile.Read { scenarioDirectEnv with directDone := [(-1, 0)] } 0 4).map
        (fun r => (r.ret, r.lists.blks_direct)) = some (4, [0]) := by
  refine ⟨by decide, by decide, by decide, by decide, by decide⟩

/-- C24 (amended): for a handler created for `n >= 1` sub-reads and `n` completions, the
outstanding count after `k` of them is `n - k`, so it is 0 exactly at the `n`-th call,
and the waiter has been signalled once after the `n`-th call and not before; the error
the handler reports afterwards is the `errno` captured at the last failed completion, 0
when none failed; and the part of `Read` that waits for the pass-through reads turns a
result that is not negative into -1 exactly when that error is not 0, so it does not
fail when no sub-read failed. -/
theorem C24_handler_reports_the_last_error (n : Nat) (hn : 1 ≤ n) (done : List (Int × Int))
    (hlen : done.length = n) :
    (∀ k : Nat, k ≤ n → (directHandler n (done.take k)).m_to_wait = (n : Int) - k) ∧
    (∀ k : Nat, k ≤ n → ((directHandler n (done.take k)).m_to_wait = 0 ↔ k = n)) ∧
    (∀ k : Nat, k ≤ n →
      (directHandler n (done.take k)).signals = if k = n then 1 else 0) ∧
    (directHandler n done).m_errno = (failedErrnos done).getLastD 0 ∧
    ((∀ x ∈ done, 0 ≤ x.1) → (directHandler n done).m_errno = 0) ∧
    (∀ bytes_read direct_size : Int, 0 ≤ bytes_read → 0 ≤ direct_size →
      (readTotal true bytes_read (directHandler n done) direct_size = -1 ↔
        (directHandler n done).m_errno ≠ 0) ∧
      ((directHandler n done).m_errno = 0 →
        readTotal true bytes_read (directHandler n done) direct_size
          = bytes_read + direct_size)) := by
  have hk : ∀ k : Nat, k ≤ n → (done.take k).length = k := fun k hk => by
    rw [List.length_take]; omega
  have hf : ∀ l : List (Int × Int), (directHandler n l).m_to_wait = (n : Int) - l.length ∧
      (directHandler n l).m_errno = (failedErrnos l).getLastD 0 ∧
      (directHandler n l).signals = if 1 ≤ (n : Int) ∧ (n : Int) ≤ l.length then 1 else 0 := by
    intro l
    have := DirectResponseHandler.foldl_Done l (DirectResponseHandler.new n)
    unfold directHandler
    refine ⟨this.1, this.2.1, ?_⟩
    rw [this.2.2]
    show 0 + _ = _
    rw [Nat.zero_add]
    rfl
  refine ⟨fun k hkn => ?_, fun k hkn => ?_, fun k hkn => ?_, (hf done).2.1, fun hd => ?_,
    fun b d hb hd => ?_⟩
  · rw [(hf _).1, hk k hkn]
  · rw [(hf _).1, hk k hkn]
    omega
  · rw [(hf _).2.2, hk k hkn]
    by_cases e : k = n
    · rw [if_pos e, if_pos (by omega)]
    · rw [if_neg e, if_neg (by omega)]
  · exact directHandler_errno n done hd
  · unfold readTotal
    rw [if_pos ⟨rfl, hb⟩]
    by_cases he : (directHandler n done).m_errno = 0
    · rw [if_pos he]
      exact ⟨⟨fun h => by omega, fun h => absurd he h⟩, fun _ => rfl⟩
    · rw [if_neg he]
      exact ⟨⟨fun _ => he, fun _ => rfl⟩, fun h => absurd h he⟩

/-- C24 (amended) for two sub-reads of which the first fails with `errno` 5 and the
second succeeds: the count is 1 after the first completion and 0 after the second, the
waiter is signalled once, at the second, and the error reported is 5. -/
theorem C24_witness :
    (directHandler 2 [(-1, 5)]).m_to_wait = 1 ∧
    (directHandler 2 [(-1, 5), (4, 0)]).m_to_wait = 0 ∧
    (directHandler 2 [(-1, 5)]).signals = 0 ∧
    (directHandler 2 [(-1, 5), (4, 0)]).signals = 1 ∧
    (directHandler 2 [(-1, 5), (4, 0)]).m_errno = 5 := by
  have h := C24_handler_reports_the_last_error 2 (by decide) [(-1, 5), (4, 0)] rfl
  refine ⟨h.1 1 (by decide), h.1 2 (by decide), h.2.2.1 1 (by decide), h.2.2.1 2 (by decide), ?_⟩
  rw [h.2.2.2.1]
  decide

/-! ## The length of a block -/

theorem File.RequestBlock_find (st : File) (i : Int) (pf : Bool) :
    (st.RequestBlock i pf).m_block_map.find i
      = some (Block.new (i * st.BS)
          (if i = st.sizeInBits - 1 then st.m_fileSize - i * st.BS else st.BS) pf) := by
  rw [File.RequestBlock_map, BlockMap.find_insert, if_pos rfl]

theorem File.RequestBlock_fetches (st : File) (i : Int) (pf : Bool) :
    (st.RequestBlock i pf).m_fetches
      = st.m_fetches ++ [(i, i * st.BS,
          (if i = st.sizeInBits - 1 then st.m_fileSize - i * st.BS else st.BS), pf)] := by
  unfold File.RequestBlock File.DeRegisterPrefetchFile
  dsimp only; split_ifs <;> rfl

theorem rangeSum_blockLen {BS F : Int} (hBS : 0 < BS) (k : Nat) (i : Int) (hi : 0 ≤ i)
    (hk : (i + k) * BS ≤ F + BS) :
    rangeSum (fun j => min BS (F - j * BS)) i k = min F ((i + k) * BS) - min F (i * BS) := by
  induction k generalizing i with
  | zero => simp [rangeSum]
  | succ k ih =>
    unfold rangeSum
    have e1 : (i + ((k + 1 : Nat) : Int)) * BS = (i + 1 + (k : Int)) * BS := by
      push_cast; ring
    have e2 : (i + 1) * BS = i * BS + BS := by ring
    have e3 : (i + 1 + (k : Int)) * BS = i * BS + BS + k * BS := by ring
    have hkb : 0 ≤ (k : Int) * BS := Int.mul_nonneg (Int.ofNat_nonneg k) (le_of_lt hBS)
    rw [e1] at hk ⊢
    rw [ih (i + 1) (by omega) hk, e2]
    rw [e3] at hk
    omega

/-- C22: for a file with base offset 0, positive size and positive block size whose
bitmap has `n = (fileSize - 1) / BS + 1` bits, and every block index `i < n`, the
block `RequestBlock` creates for `i` has the length `min(BS, fileSize - i*BS)`, the fetch
it issues asks for that many bytes from offset `i*BS`, and `WriteBlockToDisk` sets out to
write the same number of bytes for that block; the length is `BS` for every block but the
last, positive for the last, and the lengths of all blocks add up to the file size. -/
theorem C22_fetch_and_write_lengths_agree (st : File) (i : Int) (pf : Bool)
    (hoff : st.m_offset = 0) (hBS : 0 < st.BS) (hsize : 0 < st.m_fileSize)
    (hbits : st.sizeInBits = Int.tdiv (st.m_fileSize - 1) st.BS + 1)
    (hi : i < st.sizeInBits) :
    (∃ blk, (st.RequestBlock i pf).m_block_map.find i = some blk ∧
      blk.m_offset = i * st.BS ∧
      blk.m_size = min st.BS (st.m_fileSize - i * st.BS) ∧
      (st.RequestBlock i pf).writeSize blk = min st.BS (st.m_fileSize - i * st.BS) ∧
      (∀ write, (st.RequestBlock i pf).writeAttempt blk write
        = writeLoop write blk.m_buff (blk.m_offset - (st.RequestBlock i pf).m_offset) 0
            (PREFETCH_MAX_ATTEMPTS + 1).toNat ((st.RequestBlock i pf).writeSize blk) 0 0
            (st.RequestBlock i pf).m_disk 0)) ∧
    (st.RequestBlock i pf).m_fetches
      = st.m_fetches ++ [(i, i * st.BS, min st.BS (st.m_fileSize - i * st.BS), pf)] ∧
    (i < st.sizeInBits - 1 → min st.BS (st.m_fileSize - i * st.BS) = st.BS) ∧
    0 < min st.BS (st.m_fileSize - i * st.BS) ∧
    rangeSum (fun j => min st.BS (st.m_fileSize - j * st.BS)) 0 st.sizeInBits.toNat
      = st.m_fileSize := by
  have e1 : Int.tdiv (st.m_fileSize - 1) st.BS = (st.m_fileSize - 1) / st.BS :=
    Int.tdiv_eq_ediv (by omega) (le_of_lt hBS)
  rw [e1] at hbits
  have q1 : ((st.m_fileSize - 1) / st.BS) * st.BS ≤ st.m_fileSize - 1 :=
    Int.ediv_mul_le _ (by omega)
  have q2 : st.m_fileSize - 1 < ((st.m_fileSize - 1) / st.BS + 1) * st.BS :=
    Int.lt_ediv_add_one_mul_self _ hBS
  have q3 : ((st.m_fileSize - 1) / st.BS + 1) * st.BS
      = ((st.m_fileSize - 1) / st.BS) * st.BS + st.BS := by ring
  have q0 : 0 ≤ (st.m_fileSize - 1) / st.BS := Int.ediv_nonneg (by omega) (le_of_lt hBS)
  have hile : i * st.BS ≤ ((st.m_fileSize - 1) / st.BS) * st.BS :=
    Int.mul_le_mul_of_nonneg_right (by omega) (le_of_lt hBS)
  have hilt : i < st.sizeInBits - 1 →
      i * st.BS + st.BS ≤ ((st.m_fileSize - 1) / st.BS) * st.BS := by
    intro h
    have : (i + 1) * st.BS ≤ ((st.m_fileSize - 1) / st.BS) * st.BS :=
      Int.mul_le_mul_of_nonneg_right (by omega) (le_of_lt hBS)
    have e : (i + 1) * st.BS = i * st.BS + st.BS := by ring
    omega
  have hlen : (if i = st.sizeInBits - 1 then st.m_fileSize - i * st.BS else st.BS)
      = min st.BS (st.m_fileSize - i * st.BS) := by
    by_cases hl : i = st.sizeInBits - 1
    · rw [if_pos hl]
      have : i * st.BS = ((st.m_fileSize - 1) / st.BS) * st.BS := by
        rw [hl, hbits]; ring_nf
      omega
    · rw [if_neg hl]
      have := hilt (by omega)
      omega
  have hbs : (st.RequestBlock i pf).BS = st.BS := File.RequestBlock_BS st i pf
  have hfs : (st.RequestBlock i pf).m_fileSize = st.m_fileSize ∧
      (st.RequestBlock i pf).m_offset = st.m_offset := by
    unfold File.RequestBlock File.DeRegisterPrefetchFile
    dsimp only; split_ifs <;> exact ⟨rfl, rfl⟩
  refine ⟨⟨_, File.RequestBlock_find st i pf, rfl, hlen, ?_, fun write => rfl⟩, ?_, ?_, ?_, ?_⟩
  · unfold File.writeSize
    rw [hbs, hfs.1, hfs.2, hoff]
    show (if i * st.BS - 0 + st.BS > st.m_fileSize then st.m_fileSize - (i * st.BS - 0)
      else st.BS) = _
    by_cases hc : i * st.BS - 0 + st.BS > st.m_fileSize
    · rw [if_pos hc]; omega
    · rw [if_neg hc]; omega
  · rw [File.RequestBlock_fetches, hlen]
  · intro h
    have := hilt h
    omega
  · omega
  · have hn : ((st.sizeInBits.toNat : Nat) : Int) = st.sizeInBits :=
      Int.toNat_of_nonneg (by omega)
    rw [rangeSum_blockLen hBS st.sizeInBits.toNat 0 le_rfl (by rw [hn, hbits, zero_add]; omega),
      hn, hbits, zero_add, zero_mul]
    omega

/-- C22 at block size 4 and file size 10 (three blocks): the lengths are 4, 4 and 2. -/
theorem C22_witness :
    scenarioFile.sizeInBits = Int.tdiv (scenarioFile.m_fileSize - 1) scenarioFile.BS + 1 ∧
    ((scenarioFile.RequestBlock 0 false).m_block_map.find 0).map (fun b => b.m_size) = some 4 ∧
    ((scenarioFile.RequestBlock 1 false).m_block_map.find 1).map (fun b => b.m_size) = some 4 ∧
    (lastBlockFile.m_block_map.find 2).map (fun b => (b.m_size, lastBlockFile.writeSize b))
      = some (2, 2) ∧
    (scenarioFile.RequestBlock 2 false).m_fetches = [(2, 8, 2, false)] ∧
    rangeSum (fun j => min scenarioFile.BS (scenarioFile.m_fileSize - j * scenarioFile.BS)) 0
      scenarioFile.sizeInBits.toNat = 10 := by
  have h := C22_fetch_and_write_lengths_agree scenarioFile 2 false (by decide) (by decide)
    (by decide) (by decide) (by decide)
  exact ⟨by decide, by decide, by decide, by decide, h.2.1, h.2.2.2.2⟩

/-- C26: for a positive block size and a request with `off >= 0`, `size > 0` and `off + size <= fileSize`, for every block `i` of
the request's range the block `RequestBlock` creates for `i` is the one `Read` computes
the copy for (`m_offset / BS` is `i`), and the outputs of `overlap` for it satisfy
`off_in_block >= 0`, `off_in_block + size_to_copy <= ` the length of the block (also for
the shorter last block), `user_off >= 0` and `user_off + size_to_copy <= size`, with
`size_to_copy > 0`. -/
theorem C26_copy_stays_inside_block_and_buffer (st : File) (i : Int) (pf : Bool)
    (off size : Int) (hBS : 0 < st.BS)
    (hoff : 0 ≤ off) (hsize : 0 < size) (hend : off + size ≤ st.m_fileSize)
    (h1 : Int.tdiv off st.BS ≤ i) (h2 : i ≤ Int.tdiv (off + size - 1) st.BS) :
    ∃ blk, (st.RequestBlock i pf).m_block_map.find i = some blk ∧
      Int.tdiv blk.m_offset st.BS = i ∧
      (∃ user_off off_in_block size_to_copy : Int,
        overlap (Int.tdiv blk.m_offset st.BS) st.BS off size
          = some (user_off, off_in_block, size_to_copy) ∧
        0 ≤ off_in_block ∧ off_in_block + size_to_copy ≤ blk.m_size ∧
        0 ≤ user_off ∧ user_off + size_to_copy ≤ size ∧ 0 < size_to_copy) := by
  have e1 : Int.tdiv off st.BS = off / st.BS := Int.tdiv_eq_ediv hoff (le_of_lt hBS)
  have e2 : Int.tdiv (off + size - 1) st.BS = (off + size - 1) / st.BS :=
    Int.tdiv_eq_ediv (by omega) (le_of_lt hBS)
  rw [e1] at h1
  rw [e2] at h2
  have a1 : i * st.BS ≤ off + size - 1 := (Int.le_ediv_iff_mul_le hBS).1 h2
  have a2 : off < (i + 1) * st.BS := (Int.ediv_lt_iff_lt_mul hBS).1 (by omega)
  have a3 : (i + 1) * st.BS = i * st.BS + st.BS := by ring
  have hkey : Int.tdiv (i * st.BS) st.BS = i := Int.mul_tdiv_cancel i (by omega)
  refine ⟨_, File.RequestBlock_find st i pf, hkey, max (i * st.BS) off - off,
    max (i * st.BS) off - i * st.BS, min (i * st.BS + st.BS) (off + size) - max (i * st.BS) off,
    ?_, ?_⟩
  · show overlap (Int.tdiv (i * st.BS) st.BS) st.BS off size = _
    rw [hkey]
    exact overlap_in_range hBS h1 h2
  · show _ ∧ _ ≤ (if i = st.sizeInBits - 1 then st.m_fileSize - i * st.BS else st.BS) ∧ _
    by_cases hl : i = st.sizeInBits - 1
    · rw [if_pos hl]; omega
    · rw [if_neg hl]; omega

/-- C26 at block size 4, file size 10 and the request (7, 3), which ends at the end of the
file: from block 1 one byte is copied from offset 3 in the block to offset 0 of the
buffer, from block 2, which is 2 bytes long, two bytes from offset 0 to offset 1. -/
theorem C26_witness :
    overlap 1 4 7 3 = some (0, 3, 1) ∧ overlap 2 4 7 3 = some (1, 0, 2) ∧
    ∃ blk, (scenarioFile.RequestBlock 2 false).m_block_map.find 2 = some blk ∧
      Int.tdiv blk.m_offset scenarioFile.BS = 2 ∧
      (∃ user_off off_in_block size_to_copy : Int,
        overlap (Int.tdiv blk.m_offset scenarioFile.BS) scenarioFile.BS 7 3
          = some (user_off, off_in_block, size_to_copy) ∧
        0 ≤ off_in_block ∧ off_in_block + size_to_copy ≤ blk.m_size ∧
        0 ≤ user_off ∧ user_off + size_to_copy ≤ 3 ∧ 0 < size_to_copy) :=
  ⟨by decide, by decide,
    C26_copy_stays_inside_block_and_buffer scenarioFile 2 false 7 3 (by decide) (by decide)
      (by decide) (by decide) (by decide) (by decide)⟩

/-! ## What a `Read` leaves alone -/

theorem File.ReadFrame.classify_eq {α : Type} {g : File → α} (hg : File.ReadFrame g)
    (grant : Int → Bool) (n : Nat) (i : Int) (st : File) (l : ReadLists) :
    g (File.classify grant n i st l).1 = g st := by
  induction n generalizing i st l with
  | zero => rfl
  | succ n ih =>
    unfold File.classify
    split
    · rw [ih, hg.1]
    · split_ifs
      · rw [ih]
      · dsimp only
        rw [ih, hg.1, hg.2.2.1]
      · rw [ih]

theorem File.ReadFrame.ReadBlocksFromDisk_eq {α : Type} {g : File → α} (hg : File.ReadFrame g)
    (diskRead : Int → Int → Int) (off len : Int) (blocks : List Int) (st : File) (total : Int)
    (cp : Copies) : g (File.ReadBlocksFromDisk diskRead off len blocks st total cp).1 = g st := by
  induction blocks generalizing st total cp with
  | nil => rfl
  | cons x t ih =>
    unfold File.ReadBlocksFromDisk
    dsimp only
    split_ifs
    · rfl
    · rfl
    · rw [ih, hg.2.2.2.1]

theorem File.ReadFrame.readDisk_eq {α : Type} {g : File → α} (hg : File.ReadFrame g)
    (diskRead : Int → Int → Int) (off len : Int) (l : List Int) (st : File) :
    g (st.readDisk diskRead off len l).1 = g st := by
  unfold File.readDisk
  split_ifs
  · exact hg.ReadBlocksFromDisk_eq diskRead off len l st 0 []
  · rfl

theorem File.ReadFrame.processFinished_eq {α : Type} {g : File → α} (hg : File.ReadFrame g)
    (off len : Int) (l : List Int) (st : File) (bytes : Int) (cp : Copies) :
    g (File.processFinished off len l st bytes cp).1 = g st := by
  induction l generalizing st bytes cp with
  | nil => rfl
  | cons x t ih =>
    unfold File.processFinished
    split
    · exact ih st bytes cp
    · rename_i blk _
      split_ifs
      · rw [ih, hg.2.2.2.2.1]
      · exact hg.2.2.2.2.2 st blk.m_errno st.a_read

theorem File.ReadFrame.releaseAll_eq {α : Type} {g : File → α} (hg : File.ReadFrame g)
    (bs : List Int) (st : File) : g (st.releaseAll bs) = g st := by
  unfold File.releaseAll
  induction bs generalizing st with
  | nil => rfl
  | cons b t ih => rw [List.foldl_cons, ih, hg.2.1]

theorem File.ReadFrame.applyEvents_inv {α : Type} {g : File → α} (I : α → Prop)
    (hev : ∀ (s : File) (e : Event), I (g s) → I (g (s.applyEvent e)))
    (es : List Event) (st : File) (h : I (g st)) : I (g (st.applyEvents es)) := by
  unfold File.applyEvents
  induction es generalizing st with
  | nil => exact h
  | cons e t ih => rw [List.foldl_cons]; exact ih _ (hev st e h)

theorem File.ReadFrame.waitLoop_inv {α : Type} {g : File → α} (hg : File.ReadFrame g)
    (I : α → Prop) (hev : ∀ (s : File) (e : Event), I (g s) → I (g (s.applyEvent e)))
    (off len : Int) (fuel : Nat) (waits : List (List Event)) (st : File) (tp done : List Int)
    (bytes : Int) (cp : Copies) (w : WaitResult) (h : I (g st))
    (hw : File.waitLoop off len fuel waits st tp done bytes cp = some w) : I (g w.st) := by
  induction fuel generalizing waits st tp done bytes cp with
  | zero => simp [File.waitLoop] at hw
  | succ n ih =>
    unfold File.waitLoop at hw
    by_cases hc : tp ≠ [] ∧ bytes ≥ 0
    · rw [if_pos hc] at hw
      dsimp only at hw
      by_cases hf : tp.filter (fun b => st.finished b) = []
      · rw [if_pos hf] at hw
        cases waits with
        | nil => simp at hw
        | cons e es =>
          simp only at hw
          exact ih es (st.applyEvents e) tp done bytes cp
            (File.ReadFrame.applyEvents_inv I hev e st h) hw
      · rw [if_neg hf] at hw
        refine ih waits _ _ _ _ _ ?_ hw
        rw [hg.processFinished_eq]
        exact h
    · rw [if_neg hc] at hw
      simp only [Option.some.injEq] at hw
      subst hw
      exact h

theorem File.ReadFrame.Read_inv {α : Type} {g : File → α} (hg : File.ReadFrame g)
    (I : α → Prop) (hev : ∀ (s : File) (e : Event), I (g s) → I (g (s.applyEvent e)))
    {st : File} {env : ReadEnv} {off len : Int} {r : ReadResult} (h : I (g st))
    (hr : st.Read env off len = some r) : I (g r.st) := by
  have hc : I (g (st.classifyRequest env.grant off len).1) := by
    unfold File.classifyRequest
    rw [hg.classify_eq]
    exact h
  rcases File.Read_cases hr with ⟨_, _, hab⟩ | ⟨_, w, hw, _, hfin⟩
  · rw [hab]
    show I (g (File.releaseAll _ _))
    rw [hg.releaseAll_eq]
    exact hc
  · have hrd : I (g ((st.classifyRequest env.grant off len).1.readDisk env.diskRead off len
        (st.classifyRequest env.grant off len).2.blks_on_disk).1) := by
      rw [hg.readDisk_eq]
      exact hc
    have hwl := hg.waitLoop_inv I hev off len _ _ _ _ _ _ _ w
      (File.ReadFrame.applyEvents_inv I hev env.pre _ hrd) hw
    have hpost := File.ReadFrame.applyEvents_inv I hev env.post _ hwl
    rw [hfin]
    simp only [File.finishRead]
    rw [hg.releaseAll_eq, hg.2.2.2.2.2]
    exact hpost

/-! ## The deferred-write list -/

theorem File.free_block_syncData (st : File) (b : Int) :
    (st.free_block b).syncData = st.syncData := by
  unfold File.free_block File.RegisterPrefetchFile
  split
  · rfl
  · dsimp only; split_ifs <;> rfl

theorem File.inc_ref_count_syncData (st : File) (b : Int) :
    (st.inc_ref_count b).syncData = st.syncData := rfl

theorem File.dec_ref_count_syncData (st : File) (b : Int) :
    (st.dec_ref_count b).syncData = st.syncData := by
  unfold File.dec_ref_count
  split
  · rfl
  · dsimp only; split_ifs
    · rw [File.free_block_syncData]; rfl
    · rfl

theorem File.RequestBlock_syncData (st : File) (i : Int) (pf : Bool) :
    (st.RequestBlock i pf).syncData = st.syncData := by
  unfold File.RequestBlock File.DeRegisterPrefetchFile
  dsimp only; split_ifs <;> rfl

theorem File.ProcessBlockResponse_syncData (st : File) (b res err : Int) :
    (st.ProcessBlockResponse b res err).syncData = st.syncData := by
  unfold File.ProcessBlockResponse
  split
  · rfl
  · dsimp only; split_ifs
    all_goals first
      | rfl
      | (rw [File.free_block_syncData]; rfl)

theorem File.deliver_syncData (st : File) (b res err : Int) (data : List Nat) :
    (st.deliver b res err data).syncData = st.syncData := by
  unfold File.deliver
  split_ifs
  · rw [File.ProcessBlockResponse_syncData]; rfl
  · rfl

theorem File.dropWriteTask_syncData (st : File) (b : Int) :
    (st.dropWriteTask b).syncData = st.syncData := by
  unfold File.dropWriteTask File.BlockRemovedFromWriteQ
  split_ifs
  · rw [File.dec_ref_count_syncData]; rfl
  · rfl

theorem File.Prefetch_syncData (st : File) (g : Bool) :
    (st.Prefetch g).syncData = st.syncData := by
  unfold File.Prefetch File.UnMarkPrefetch
  dsimp only
  split_ifs
  · split
    · show ((st.RequestRAMBlock g).RequestBlock _ true).syncData = st.syncData
      rw [File.RequestBlock_syncData]
      unfold File.RequestRAMBlock
      split_ifs <;> rfl
    · rfl
  · rfl

theorem File.purgeFailed_syncData (s : File) (keys : List Int) :
    (s.purgeFailed keys).syncData = s.syncData := by
  unfold File.purgeFailed
  induction keys generalizing s with
  | nil => rfl
  | cons k t ih =>
    rw [List.foldl_cons, ih]
    split
    · split_ifs
      · rw [File.free_block_syncData]
      · rfl
    · rfl

theorem File.markStopping_syncData (st : File) : st.markStopping.syncData = st.syncData := by
  unfold File.markStopping; split_ifs <;> rfl

theorem File.InitiateClose_syncData (st : File) :
    st.InitiateClose.1.syncData = st.syncData := by
  unfold File.InitiateClose
  dsimp only
  split_ifs
  all_goals first
    | exact File.markStopping_syncData st
    | (rw [File.purgeFailed_syncData]; exact File.markStopping_syncData st)

theorem File.syncData_ReadFrame : File.ReadFrame File.syncData := by
  refine ⟨File.inc_ref_count_syncData, File.dec_ref_count_syncData, fun s i => ?_, fun s i => ?_,
    fun s blk => ?_, fun s e a => rfl⟩
  · rw [File.RequestBlock_syncData]
    rfl
  · unfold File.CheckPrefetchStatDisk
    split_ifs <;> rfl
  · unfold File.CheckPrefetchStatRAM
    split_ifs <;> rfl

theorem File.noteWritten_syncData (st x : File) (pfIdx : Int) (h : x.syncData = st.syncData) :
    (x.noteWritten pfIdx).m_in_sync
        = (st.m_in_sync || decide (st.m_non_flushed_cnt + 1 ≥ 100)) ∧
    (x.noteWritten pfIdx).m_writes_during_sync
        = (if st.m_in_sync = true then st.m_writes_during_sync ++ [pfIdx]
          else st.m_writes_during_sync) ∧
    (x.noteWritten pfIdx).m_non_flushed_cnt
        = (if st.m_in_sync = true then st.m_non_flushed_cnt
          else if st.m_non_flushed_cnt + 1 ≥ 100 then 0 else st.m_non_flushed_cnt + 1) ∧
    (x.noteWritten pfIdx).m_writeCalled
        = (if st.m_in_sync = true then st.m_writeCalled
          else if pfIdx ∈ st.m_writeCalled then st.m_writeCalled
          else pfIdx :: st.m_writeCalled) := by
  unfold File.syncData at h
  simp only [Prod.mk.injEq] at h
  obtain ⟨h1, h2, h3, h4⟩ := h
  unfold File.noteWritten
  by_cases hs : st.m_in_sync = true
  · rw [if_pos (h1.trans hs), if_pos hs, if_pos hs, if_pos hs]
    refine ⟨?_, ?_, h3, h4⟩
    · show x.m_in_sync = _
      rw [h1, hs]; rfl
    · show x.m_writes_during_sync ++ [pfIdx] = _
      rw [h2]
  · have hs0 : st.m_in_sync = false := by simpa using hs
    rw [if_neg (by rw [h1]; exact hs), if_neg hs, if_neg hs, if_neg hs]
    dsimp only
    have hc1 : (x.SetBitWriteCalled pfIdx).m_non_flushed_cnt = st.m_non_flushed_cnt := h3
    have hw1 : (x.SetBitWriteCalled pfIdx).m_writeCalled
        = if pfIdx ∈ st.m_writeCalled then st.m_writeCalled else pfIdx :: st.m_writeCalled := by
      unfold File.SetBitWriteCalled
      simp only [h4]
    have hl1 : (x.SetBitWriteCalled pfIdx).m_writes_during_sync = st.m_writes_during_sync := h2
    have hi1 : (x.SetBitWriteCalled pfIdx).m_in_sync = st.m_in_sync := h1
    rw [hc1]
    by_cases hc : st.m_non_flushed_cnt + 1 ≥ 100
    · rw [if_pos hc, if_pos hc]
      refine ⟨?_, hl1, rfl, hw1⟩
      show true = _
      rw [hs0]; simp [hc]
    · rw [if_neg hc, if_neg hc]
      refine ⟨?_, hl1, ?_, hw1⟩
      · show (x.SetBitWriteCalled pfIdx).m_in_sync = _
        rw [hi1, hs0]; simp [hc]
      · rfl

theorem File.WriteBlockToDisk_syncData_done (st : File) (b : Int) (write : Nat → Int × Int)
    (blk : Block) (hb : st.m_block_map.find b = some blk)
    (hok : (st.writeAttempt blk write).abandoned = false) :
    (st.WriteBlockToDisk b write)
      = (((({ st with m_disk := (st.writeAttempt blk write).disk } : File).markFetched
          (Int.tdiv (blk.m_offset - st.m_offset) st.BS)).dec_ref_count b).noteWritten
            (Int.tdiv (blk.m_offset - st.m_offset) st.BS)) ∧
    ((({ st with m_disk := (st.writeAttempt blk write).disk } : File).markFetched
          (Int.tdiv (blk.m_offset - st.m_offset) st.BS)).dec_ref_count b).syncData
      = st.syncData := by
  refine ⟨?_, ?_⟩
  · unfold File.WriteBlockToDisk
    rw [hb]
    dsimp only
    rw [if_neg (by simp [hok])]
  · rw [File.dec_ref_count_syncData]
    rfl

theorem File.WriteBlockToDisk_syncData_skip (st : File) (b : Int) (write : Nat → Int × Int)
    (h : ∀ blk, st.m_block_map.find b = some blk →
      (st.writeAttempt blk write).abandoned = true) :
    (st.WriteBlockToDisk b write).syncData = st.syncData := by
  unfold File.WriteBlockToDisk
  cases hb : st.m_block_map.find b with
  | none => rfl
  | some blk =>
    dsimp only
    rw [if_pos (h blk hb)]
    rfl

theorem File.Sync_list (st : File) : st.Sync.m_writes_during_sync = [] ∧ st.Sync.m_in_sync = false := by
  unfold File.Sync
  exact ⟨rfl, rfl⟩

theorem File.Deferred_congr {s t : File} (e : t.syncData = s.syncData) (h : s.Deferred) :
    t.Deferred := by
  unfold File.syncData at e
  simp only [Prod.mk.injEq] at e
  unfold File.Deferred
  rw [e.1, e.2.1]
  exact h

theorem File.applyEvent_deferred (s : File) (e : Event) (h : s.Deferred) :
    (s.applyEvent e).Deferred := by
  cases e with
  | response b res err data =>
    exact File.Deferred_congr (File.deliver_syncData s b res err data) h
  | writeBack b write =>
    show (s.runWriteTask b write).Deferred
    unfold File.runWriteTask
    by_cases hq : b ∈ s.c_writeQ
    · rw [if_pos hq]
      have h0 : (s.takeWrite b).Deferred := h
      by_cases hd : ∃ blk, (s.takeWrite b).m_block_map.find b = some blk ∧
          ((s.takeWrite b).writeAttempt blk write).abandoned = false
      · obtain ⟨blk, hb, hok⟩ := hd
        obtain ⟨e1, e2⟩ := File.WriteBlockToDisk_syncData_done (s.takeWrite b) b write blk hb hok
        have hn := File.noteWritten_syncData (s.takeWrite b) _
          (Int.tdiv (blk.m_offset - (s.takeWrite b).m_offset) (s.takeWrite b).BS) e2
        rw [e1]
        unfold File.Deferred
        rw [hn.1, hn.2.1]
        intro hne
        by_cases hs : (s.takeWrite b).m_in_sync = true
        · rw [hs]; rfl
        · rw [if_neg hs] at hne
          exact absurd (h0 hne) hs
      · exact File.Deferred_congr (File.WriteBlockToDisk_syncData_skip (s.takeWrite b) b write
          (fun blk hb => by
            by_contra hc
            exact hd ⟨blk, hb, by simpa using hc⟩)) h0
    · rw [if_neg hq]; exact h
  | removedFromWriteQ b => exact File.Deferred_congr (File.dropWriteTask_syncData s b) h
  | prefetchCall g =>
    exact File.Deferred_congr (File.Prefetch_syncData s.MarkPrefetch g) h
  | sync =>
    intro hne
    exact absurd (File.Sync_list s).1 hne
  | initiateClose => exact File.Deferred_congr (File.InitiateClose_syncData s) h

theorem File.Reachable.deferred {st : File} (h : st.Reachable) : st.Deferred := by
  induction h with
  | fresh bs bits off size maxBlocks _ => intro hne; exact absurd rfl hne
  | event st e _ ih => exact File.applyEvent_deferred st e ih
  | read st env off len r _ hr ih =>
    exact File.syncData_ReadFrame.Read_inv (fun v => v.2.1 ≠ [] → v.1 = true)
      File.applyEvent_deferred ih hr

/-- C25: in every state reached from a freshly opened file by reads and by the steps of
the other threads (write-backs and runs of `Sync` among them) the deferred-write list is
empty or the in-sync flag is set.  A `WriteBlockToDisk` that runs to its end on any
state appends the bitmap index of its block to the deferred-write list and leaves the
counter of unflushed writes and the write-called bits as they are when the in-sync flag
is set, and sets the write-called bit of that index and leaves the list as it is when
the flag is clear. -/
theorem C25_deferred_writes_only_during_sync (st : File) (h : st.Reachable) :
    (st.m_writes_during_sync = [] ∨ st.m_in_sync = true) ∧
    (∀ (s : File) (b : Int) (blk : Block) (write : Nat → Int × Int),
      s.m_block_map.find b = some blk → (s.writeAttempt blk write).abandoned = false →
      (s.m_in_sync = true →
        (s.WriteBlockToDisk b write).m_writes_during_sync
          = s.m_writes_during_sync ++ [Int.tdiv (blk.m_offset - s.m_offset) s.BS] ∧
        (s.WriteBlockToDisk b write).m_non_flushed_cnt = s.m_non_flushed_cnt ∧
        (s.WriteBlockToDisk b write).m_writeCalled = s.m_writeCalled ∧
        (s.WriteBlockToDisk b write).m_in_sync = true) ∧
      (s.m_in_sync = false →
        Int.tdiv (blk.m_offset - s.m_offset) s.BS ∈ (s.WriteBlockToDisk b write).m_writeCalled ∧
        (∀ j ∈ s.m_writeCalled, j ∈ (s.WriteBlockToDisk b write).m_writeCalled) ∧
        (s.WriteBlockToDisk b write).m_writes_during_sync = s.m_writes_during_sync)) := by
  refine ⟨?_, fun s b blk write hb hok => ?_⟩
  · by_cases he : st.m_writes_during_sync = []
    · exact Or.inl he
    · exact Or.inr (h.deferred he)
  · obtain ⟨e1, e2⟩ := File.WriteBlockToDisk_syncData_done s b write blk hb hok
    have hn := File.noteWritten_syncData s _ (Int.tdiv (blk.m_offset - s.m_offset) s.BS) e2
    rw [e1]
    refine ⟨fun hs => ?_, fun hs => ?_⟩
    · rw [hn.1, hn.2.1, hn.2.2.1, hn.2.2.2, if_pos hs, if_pos hs, if_pos hs, hs]
      exact ⟨rfl, rfl, rfl, rfl⟩
    · have hs1 : ¬ s.m_in_sync = true := by simp [hs]
      rw [hn.2.1, hn.2.2.2, if_neg hs1, if_neg hs1]
      refine ⟨?_, fun j hj => ?_, rfl⟩
      · by_cases hm : Int.tdiv (blk.m_offset - s.m_offset) s.BS ∈ s.m_writeCalled
        · rw [if_pos hm]; exact hm
        · rw [if_neg hm]; exact List.mem_cons_self _ _
      · by_cases hm : Int.tdiv (blk.m_offset - s.m_offset) s.BS ∈ s.m_writeCalled
        · rw [if_pos hm]; exact hj
        · rw [if_neg hm]; exact List.mem_cons_of_mem _ hj

/-- C25 on the file of the scenarios with block 0 queued for write-back: the state is
reachable and its deferred-write list is empty; with the in-sync flag clear the
write-back sets the write-called bit 0 and leaves the list empty; with the flag set it
appends index 0 to the list and leaves the write-called bits and the counter. -/
theorem C25_witness :
    downloadedFile.Reachable ∧
    (downloadedFile.m_writes_during_sync = [] ∨ downloadedFile.m_in_sync = true) ∧
    (0 : Int) ∈ (downloadedFile.WriteBlockToDisk 0 writeComplete).m_writeCalled ∧
    (downloadedFile.WriteBlockToDisk 0 writeComplete).m_writes_during_sync = [] ∧
    (downloadedFileInSync.WriteBlockToDisk 0 writeComplete).m_writes_during_sync = [0] ∧
    (downloadedFileInSync.WriteBlockToDisk 0 writeComplete).m_writeCalled = [] ∧
    (downloadedFileInSync.WriteBlockToDisk 0 writeComplete).m_non_flushed_cnt = 0 := by
  have hr : downloadedFile.Reachable :=
    File.Reachable.event _ _ (File.Reachable.event _ _
      (File.Reachable.fresh 4 3 0 10 10 (by decide)))
  have h := C25_deferred_writes_only_during_sync downloadedFile hr
  have hb : downloadedFile.m_block_map.find 0
      = some { Block.new 0 4 true with m_downloaded := true, m_refcnt := 1,
                                       m_buff := [10, 11, 12, 13] } := by decide
  have hb1 : downloadedFileInSync.m_block_map.find 0
      = some { Block.new 0 4 true with m_downloaded := true, m_refcnt := 1,
                                       m_buff := [10, 11, 12, 13] } := by decide
  have h1 := (h.2 downloadedFile 0 _ writeComplete hb (by decide)).2 (by decide)
  have h2 := (h.2 downloadedFileInSync 0 _ writeComplete hb1 (by decide)).1 (by decide)
  exact ⟨hr, h.1, h1.1, h1.2.2, h2.1, h2.2.2.1, h2.2.1⟩

/-! ## The fetched bits -/

theorem File.free_block_fetchData (st : File) (b : Int) :
    (st.free_block b).fetchData = st.fetchData := by
  unfold File.free_block File.RegisterPrefetchFile
  split
  · rfl
  · dsimp only; split_ifs <;> rfl

theorem File.inc_ref_count_fetchData (st : File) (b : Int) :
    (st.inc_ref_count b).fetchData = st.fetchData := rfl

theorem File.dec_ref_count_fetchData (st : File) (b : Int) :
    (st.dec_ref_count b).fetchData = st.fetchData := by
  unfold File.dec_ref_count
  split
  · rfl
  · dsimp only; split_ifs
    · rw [File.free_block_fetchData]; rfl
    · rfl

theorem File.RequestBlock_fetchData (st : File) (i : Int) (pf : Bool) :
    (st.RequestBlock i pf).fetchData = st.fetchData := by
  unfold File.RequestBlock File.DeRegisterPrefetchFile
  dsimp only; split_ifs <;> rfl

theorem File.ProcessBlockResponse_fetchData (st : File) (b res err : Int) :
    (st.ProcessBlockResponse b res err).fetchData = st.fetchData := by
  unfold File.ProcessBlockResponse
  split
  · rfl
  · dsimp only; split_ifs
    all_goals first
      | rfl
      | (rw [File.free_block_fetchData]; rfl)

theorem File.deliver_fetchData (st : File) (b res err : Int) (data : List Nat) :
    (st.deliver b res err data).fetchData = st.fetchData := by
  unfold File.deliver
  split_ifs
  · rw [File.ProcessBlockResponse_fetchData]; rfl
  · rfl

theorem File.dropWriteTask_fetchData (st : File) (b : Int) :
    (st.dropWriteTask b).fetchData = st.fetchData := by
  unfold File.dropWriteTask File.BlockRemovedFromWriteQ
  split_ifs
  · rw [File.dec_ref_count_fetchData]; rfl
  · rfl

theorem File.Prefetch_fetchData (st : File) (g : Bool) :
    (st.Prefetch g).fetchData = st.fetchData := by
  unfold File.Prefetch File.UnMarkPrefetch
  dsimp only
  split_ifs
  · split
    · show ((st.RequestRAMBlock g).RequestBlock _ true).fetchData = st.fetchData
      rw [File.RequestBlock_fetchData]
      unfold File.RequestRAMBlock
      split_ifs <;> rfl
    · rfl
  · rfl

theorem File.purgeFailed_fetchData (s : File) (keys : List Int) :
    (s.purgeFailed keys).fetchData = s.fetchData := by
  unfold File.purgeFailed
  induction keys generalizing s with
  | nil => rfl
  | cons k t ih =>
    rw [List.foldl_cons, ih]
    split
    · split_ifs
      · rw [File.free_block_fetchData]
      · rfl
    · rfl

theorem File.markStopping_fetchData (st : File) : st.markStopping.fetchData = st.fetchData := by
  unfold File.markStopping; split_ifs <;> rfl

theorem File.InitiateClose_fetchData (st : File) :
    st.InitiateClose.1.fetchData = st.fetchData := by
  unfold File.InitiateClose
  dsimp only
  split_ifs
  all_goals first
    | exact File.markStopping_fetchData st
    | (rw [File.purgeFailed_fetchData]; exact File.markStopping_fetchData st)

theorem File.noteWritten_fetchData (st : File) (pfIdx : Int) :
    (st.noteWritten pfIdx).fetchData = st.fetchData := by
  unfold File.noteWritten File.SetBitWriteCalled
  dsimp only
  split_ifs <;> rfl

theorem File.Sync_fetchData (st : File) : st.Sync.fetchData = st.fetchData := by
  have h : ∀ (l : List Int) (s : File),
      (l.foldl (fun s i => s.SetBitWriteCalled (s.offsetIdx i)) s).fetchData = s.fetchData := by
    intro l
    induction l with
    | nil => intro s; rfl
    | cons x t ih => intro s; rw [List.foldl_cons, ih]; rfl
  unfold File.Sync
  exact (h st.m_writes_during_sync st)

theorem File.fetchData_ReadFrame : File.ReadFrame File.fetchData := by
  refine ⟨File.inc_ref_count_fetchData, File.dec_ref_count_fetchData, fun s i => ?_, fun s i => ?_,
    fun s blk => ?_, fun s e a => rfl⟩
  · rw [File.RequestBlock_fetchData]
    unfold File.RequestRAMBlock
    rfl
  · unfold File.CheckPrefetchStatDisk
    split_ifs <;> rfl
  · unfold File.CheckPrefetchStatRAM
    split_ifs <;> rfl

theorem File.Settles.refl (s : File) : s.Settles s :=
  ⟨rfl, List.Sublist.refl _, fun _ blk1 h1 h2 => ⟨blk1, h1, h2⟩⟩

theorem File.Settles.trans {s t u : File} (h1 : s.Settles t) (h2 : t.Settles u) :
    s.Settles u := by
  refine ⟨h2.1.trans h1.1, h2.2.1.trans h1.2.1, fun k blk1 hk hf => ?_⟩
  obtain ⟨blk, hb, hbf⟩ := h2.2.2 k blk1 hk hf
  exact h1.2.2 k blk hb hbf

theorem File.fetchData_bits {s t : File} (h : t.fetchData = s.fetchData) :
    t.a_fetched = s.a_fetched ∧ (∀ k, t.offsetIdx k = s.offsetIdx k) ∧
    (∀ j, t.TestBit j = s.TestBit j) ∧ t.BS = s.BS ∧ t.m_offset = s.m_offset := by
  unfold File.fetchData at h
  simp only [Prod.mk.injEq] at h
  obtain ⟨h1, h2, h3, h4⟩ := h
  refine ⟨h4, fun _ => ?_, fun j => ?_, h1, h2⟩
  · unfold File.offsetIdx; rw [h1, h2]
  · unfold File.TestBit; rw [h3]

theorem File.FetchInv.settles {s t : File} (h : s.FetchInv) (hst : s.Settles t) :
    t.FetchInv := by
  obtain ⟨e1, e2, e3, _, _⟩ := File.fetchData_bits hst.1
  refine ⟨e1.trans h.1, h.2.1.sublist hst.2.1, fun k hk => ?_, fun k blk1 hk hf => ?_⟩
  · rw [e2, e3]
    exact h.2.2.1 k (hst.2.1.subset hk)
  · obtain ⟨blk, hb, hbf⟩ := hst.2.2 k blk1 hk hf
    obtain ⟨a, b⟩ := h.2.2.2 k blk hb hbf
    rw [e2, e3]
    exact ⟨a, fun hm => b (hst.2.1.subset hm)⟩

theorem File.Settles.of_modify {s t : File} (b : Int) (f : Block → Block)
    (hd : t.fetchData = s.fetchData) (hq : List.Sublist t.c_writeQ s.c_writeQ)
    (hm : t.m_block_map = s.m_block_map.modify b f)
    (hf : ∀ x, (f x).is_finished = false → x.is_finished = false) : s.Settles t := by
  refine ⟨hd, hq, fun k blk1 hk hfin => ?_⟩
  rw [hm, BlockMap.find_modify] at hk
  by_cases hkb : k = b
  · rw [if_pos hkb] at hk
    cases hs : s.m_block_map.find k with
    | none => rw [hs] at hk; simp at hk
    | some blk =>
      rw [hs] at hk
      simp only [Option.map_some', Option.some.injEq] at hk
      subst hk
      exact ⟨blk, rfl, hf blk hfin⟩
  · rw [if_neg hkb] at hk
    exact ⟨blk1, hk, hfin⟩

theorem File.Settles.of_erase {s t : File} (i : Int)
    (hd : t.fetchData = s.fetchData) (hq : List.Sublist t.c_writeQ s.c_writeQ)
    (hm : t.m_block_map = s.m_block_map.erase i) : s.Settles t := by
  refine ⟨hd, hq, fun k blk1 hk hfin => ?_⟩
  rw [hm, BlockMap.find_erase] at hk
  by_cases hki : k = i
  · rw [if_pos hki] at hk; simp at hk
  · rw [if_neg hki] at hk
    exact ⟨blk1, hk, hfin⟩

theorem File.Settles.of_eq {s t : File}
    (hd : t.fetchData = s.fetchData) (hq : List.Sublist t.c_writeQ s.c_writeQ)
    (hm : t.m_block_map = s.m_block_map) : s.Settles t :=
  ⟨hd, hq, fun _ blk1 hk hfin => ⟨blk1, hm ▸ hk, hfin⟩⟩

theorem File.inc_ref_count_settles (st : File) (b : Int) : st.Settles (st.inc_ref_count b) :=
  File.Settles.of_modify b _ rfl (List.Sublist.refl _) rfl (fun _ h => h)

theorem File.fillBuffer_settles (st : File) (b : Int) (data : List Nat) :
    st.Settles (st.fillBuffer b data) :=
  File.Settles.of_modify b _ rfl (List.Sublist.refl _) rfl (fun _ h => h)

theorem File.takeWrite_settles (st : File) (b : Int) : st.Settles (st.takeWrite b) :=
  File.Settles.of_eq rfl (List.erase_sublist b st.c_writeQ) rfl

theorem File.free_block_settles (st : File) (b : Int) : st.Settles (st.free_block b) := by
  have hq : (st.free_block b).c_writeQ = st.c_writeQ := File.free_block_writeQ st b
  have hm := File.free_block_map st b
  cases hf : st.m_block_map.find b with
  | none =>
    rw [hf] at hm
    exact File.Settles.of_eq (File.free_block_fetchData st b) (hq ▸ List.Sublist.refl _) hm
  | some blk =>
    rw [hf] at hm
    exact File.Settles.of_erase _ (File.free_block_fetchData st b) (hq ▸ List.Sublist.refl _) hm

theorem File.dec_ref_count_settles (st : File) (b : Int) : st.Settles (st.dec_ref_count b) := by
  unfold File.dec_ref_count
  split
  · exact File.Settles.refl st
  · dsimp only
    have h1 : ∀ bad : Bool, st.Settles ({ st with
        m_block_map := st.m_block_map.modify b (fun x => { x with m_refcnt := x.m_refcnt - 1 }),
        a_refcnt := bad } : File) := fun bad =>
      File.Settles.of_modify b _ rfl (List.Sublist.refl _) rfl (fun _ h => h)
    split_ifs
    · exact (h1 _).trans (File.free_block_settles _ b)
    · exact h1 _

theorem File.releaseAll_settles (bs : List Int) (st : File) : st.Settles (st.releaseAll bs) := by
  unfold File.releaseAll
  induction bs generalizing st with
  | nil => exact File.Settles.refl st
  | cons b t ih =>
    rw [List.foldl_cons]
    exact (File.dec_ref_count_settles st b).trans (ih _)

theorem File.dropWriteTask_settles (st : File) (b : Int) : st.Settles (st.dropWriteTask b) := by
  unfold File.dropWriteTask File.BlockRemovedFromWriteQ
  split_ifs
  · exact (File.takeWrite_settles st b).trans (File.dec_ref_count_settles _ b)
  · exact File.Settles.refl st

theorem File.purgeFailed_settles (keys : List Int) (st : File) :
    st.Settles (st.purgeFailed keys) := by
  induction keys generalizing st with
  | nil => exact File.Settles.refl st
  | cons x t ih =>
    rw [File.purgeFailed_cons]
    split_ifs
    · exact (File.free_block_settles st x).trans (ih _)
    · exact ih st

theorem File.markStopping_settles (st : File) : st.Settles st.markStopping := by
  unfold File.markStopping
  split_ifs
  · exact File.Settles.of_eq rfl (List.Sublist.refl _) rfl
  · exact File.Settles.refl st

theorem File.InitiateClose_settles (st : File) : st.Settles st.InitiateClose.1 := by
  rw [File.InitiateClose_fst]
  split_ifs
  · exact File.markStopping_settles st
  · exact (File.markStopping_settles st).trans (File.purgeFailed_settles _ _)

theorem File.Sync_settles (st : File) : st.Settles st.Sync :=
  File.Settles.of_eq (File.Sync_fetchData st) (by rw [File.Sync_writeQ]) (File.Sync_map st)

theorem File.ReadBlocksFromDisk_settles (diskRead : Int → Int → Int) (off len : Int)
    (blocks : List Int) (st : File) (total : Int) (cp : Copies) :
    st.Settles (File.ReadBlocksFromDisk diskRead off len blocks st total cp).1 := by
  induction blocks generalizing st total cp with
  | nil => exact File.Settles.refl st
  | cons x t ih =>
    unfold File.ReadBlocksFromDisk
    dsimp only
    split_ifs
    · exact File.Settles.refl st
    · exact File.Settles.refl st
    · refine File.Settles.trans ?_ (ih _ _ _)
      unfold File.CheckPrefetchStatDisk
      split_ifs
      · exact File.Settles.of_eq rfl (List.Sublist.refl _) rfl
      · exact File.Settles.refl st

theorem File.readDisk_settles (st : File) (diskRead : Int → Int → Int) (off len : Int)
    (l : List Int) : st.Settles (st.readDisk diskRead off len l).1 := by
  unfold File.readDisk
  split_ifs
  · exact File.ReadBlocksFromDisk_settles diskRead off len l st 0 []
  · exact File.Settles.refl st

theorem File.processFinished_settles (off len : Int) (l : List Int) (st : File) (bytes : Int)
    (cp : Copies) : st.Settles (File.processFinished off len l st bytes cp).1 := by
  induction l generalizing st bytes cp with
  | nil => exact File.Settles.refl st
  | cons x t ih =>
    unfold File.processFinished
    split
    · exact ih st bytes cp
    · rename_i blk _
      split_ifs
      · refine File.Settles.trans ?_ (ih _ _ _)
        unfold File.CheckPrefetchStatRAM
        split_ifs
        · exact File.Settles.of_eq rfl (List.Sublist.refl _) rfl
        · exact File.Settles.refl st
      · exact File.Settles.of_eq rfl (List.Sublist.refl _) rfl

theorem File.RequestBlock_FetchInv {st : File} (i : Int) (pf : Bool) (h : st.FetchInv)
    (hbit : st.TestBit (st.offsetIdx i) = false) (hq : i ∉ st.c_writeQ) :
    (st.RequestBlock i pf).FetchInv := by
  obtain ⟨e1, e2, e3, _, _⟩ := File.fetchData_bits (File.RequestBlock_fetchData st i pf)
  have eq : (st.RequestBlock i pf).c_writeQ = st.c_writeQ := File.RequestBlock_writeQ st i pf
  refine ⟨e1.trans h.1, by rw [eq]; exact h.2.1, fun k hk => ?_, fun k blk1 hk hf => ?_⟩
  · rw [e2, e3]
    exact h.2.2.1 k (eq ▸ hk)
  · rw [e2, e3, eq]
    rw [File.RequestBlock_map, BlockMap.find_insert] at hk
    by_cases hki : k = i
    · rw [hki]; exact ⟨hbit, hq⟩
    · rw [if_neg hki] at hk
      exact h.2.2.2 k blk1 hk hf

theorem File.ProcessBlockResponse_unfinished (st : File) (b res err : Int) (k : Int)
    (blk1 : Block) (hk : (st.ProcessBlockResponse b res err).m_block_map.find k = some blk1)
    (hf : blk1.is_finished = false) (hb : (st.m_block_map.find b).isSome = true) :
    k ≠ b ∧ st.m_block_map.find k = some blk1 := by
  obtain ⟨blk, hblk⟩ := Option.isSome_iff_exists.1 hb
  rw [File.ProcessBlockResponse_map, hblk] at hk
  dsimp only at hk
  have hdl : ∀ m : BlockMap, ∀ f g : Block → Block,
      (∀ x, (g (f x)).is_finished = true) → m.find b = some blk →
      ((m.modify b f).modify b g).find k = some blk1 → k ≠ b ∧ m.find k = some blk1 := by
    intro m f g hfg hm hkk
    rw [BlockMap.find_modify, BlockMap.find_modify] at hkk
    by_cases hkb : k = b
    · rw [if_pos hkb, if_pos hkb, hkb, hm] at hkk
      simp only [Option.map_some', Option.some.injEq] at hkk
      rw [← hkk, hfg] at hf
      exact absurd hf (by simp)
    · rw [if_neg hkb, if_neg hkb] at hkk
      exact ⟨hkb, hkk⟩
  have hd1 : ∀ m : BlockMap, ∀ f : Block → Block,
      (∀ x, (f x).is_finished = true) → m.find b = some blk →
      (m.modify b f).find k = some blk1 → k ≠ b ∧ m.find k = some blk1 := by
    intro m f hfg hm hkk
    rw [BlockMap.find_modify] at hkk
    by_cases hkb : k = b
    · rw [if_pos hkb, hkb, hm] at hkk
      simp only [Option.map_some', Option.some.injEq] at hkk
      rw [← hkk, hfg] at hf
      exact absurd hf (by simp)
    · rw [if_neg hkb] at hkk
      exact ⟨hkb, hkk⟩
  by_cases hr : res ≥ 0
  · rw [if_pos hr] at hk
    by_cases hs : ¬ st.m_stopping = true
    · rw [if_pos hs] at hk
      exact hdl _ _ _ (fun x => by simp [Block.is_finished]) hblk hk
    · rw [if_neg hs] at hk
      by_cases hp : blk.m_prefetch = true ∧ blk.m_refcnt = 0
      · rw [if_pos hp, BlockMap.find_erase] at hk
        by_cases hke : k = Int.tdiv blk.m_offset st.BS
        · rw [if_pos hke] at hk; simp at hk
        · rw [if_neg hke] at hk
          exact hd1 _ _ (fun x => by simp [Block.is_finished]) hblk hk
      · rw [if_neg hp] at hk
        exact hd1 _ _ (fun x => by simp [Block.is_finished]) hblk hk
  · rw [if_neg hr] at hk
    exact hdl _ _ _ (fun x => by simp [Block.is_finished, Block.set_error_and_free]) hblk hk

theorem File.ProcessBlockResponse_FetchInv {st : File} (b res err : Int) (h : st.FetchInv)
    (hin : st.inFlight b = true) : (st.ProcessBlockResponse b res err).FetchInv := by
  obtain ⟨e1, e2, e3, _, _⟩ :=
    File.fetchData_bits (File.ProcessBlockResponse_fetchData st b res err)
  have hb : ∃ blk, st.m_block_map.find b = some blk ∧ blk.is_finished = false := by
    unfold File.inFlight at hin
    cases hf : st.m_block_map.find b with
    | none => rw [hf] at hin; simp at hin
    | some blk => rw [hf] at hin; exact ⟨blk, rfl, by simpa using hin⟩
  obtain ⟨blk, hblk, hunf⟩ := hb
  obtain ⟨hbbit, hbq⟩ := h.2.2.2 b blk hblk hunf
  have hsome : (st.m_block_map.find b).isSome = true := by rw [hblk]; rfl
  have hq := File.ProcessBlockResponse_writeQ st b res err
  have hmem : ∀ k, k ∈ (st.ProcessBlockResponse b res err).c_writeQ → k ∈ st.c_writeQ ∨ k = b := by
    intro k hk
    rw [hq] at hk
    split_ifs at hk
    · rcases List.mem_append.1 hk with h1 | h1
      · exact Or.inl h1
      · exact Or.inr (by simpa using h1)
    · exact Or.inl hk
  refine ⟨e1.trans h.1, ?_, fun k hk => ?_, fun k blk1 hk hf => ?_⟩
  · rw [hq]
    split_ifs
    · exact List.Nodup.append h.2.1 (List.nodup_singleton b) (by
        intro x hx hx1
        have : x = b := by simpa using hx1
        exact hbq (this ▸ hx))
    · exact h.2.1
  · rw [e2, e3]
    rcases hmem k hk with h1 | h1
    · exact h.2.2.1 k h1
    · rw [h1]; exact hbbit
  · obtain ⟨hkb, hko⟩ := File.ProcessBlockResponse_unfinished st b res err k blk1 hk hf hsome
    obtain ⟨a1, a2⟩ := h.2.2.2 k blk1 hko hf
    rw [e2, e3]
    refine ⟨a1, fun hm => ?_⟩
    rcases hmem k hm with h1 | h1
    · exact a2 h1
    · exact hkb h1

theorem File.SetBitFetched_TestBit (st : File) (p j : Int) :
    (st.SetBitFetched p).TestBit j = (decide (j = p) || st.TestBit j) := by
  unfold File.SetBitFetched File.TestBit
  by_cases hp : p ∈ st.m_fetched
  · rw [if_pos hp]
    by_cases hj : j = p
    · subst hj; simp [hp]
    · simp [hj]
  · rw [if_neg hp]
    by_cases hj : j = p
    · subst hj; simp
    · simp [hj]

theorem File.pfIdx_eq {st : File} (hwf : st.WF) (hdiv : ∃ c, st.m_offset = c * st.BS) {b : Int}
    {blk : Block} (hb : st.m_block_map.find b = some blk) :
    Int.tdiv (blk.m_offset - st.m_offset) st.BS = st.offsetIdx b := by
  obtain ⟨c, hc⟩ := hdiv
  have hBS : st.BS ≠ 0 := by have := hwf.1; omega
  unfold File.offsetIdx
  rw [hwf.2 b blk hb, hc, Int.mul_tdiv_cancel c hBS]
  have : b * st.BS - c * st.BS = (b - c) * st.BS := by ring
  rw [this, Int.mul_tdiv_cancel _ hBS]

theorem File.markFetched_FetchInv {st : File} (b : Int) (h : st.FetchInv)
    (hbit : st.TestBit (st.offsetIdx b) = false) (hq : b ∉ st.c_writeQ)
    (hfin : ∀ blk, st.m_block_map.find b = some blk → blk.is_finished = true) :
    (st.markFetched (st.offsetIdx b)).FetchInv := by
  have hoff : ∀ k, (st.markFetched (st.offsetIdx b)).offsetIdx k = st.offsetIdx k := fun _ => rfl
  have hbitk : ∀ k, k ≠ b → (st.markFetched (st.offsetIdx b)).TestBit (st.offsetIdx k)
      = st.TestBit (st.offsetIdx k) := by
    intro k hk
    show (File.SetBitFetched _ _).TestBit _ = _
    rw [File.SetBitFetched_TestBit]
    have : ¬ st.offsetIdx k = st.offsetIdx b := by
      unfold File.offsetIdx; omega
    simp only [this, decide_False, Bool.false_or]
    rfl
  refine ⟨?_, h.2.1, fun k hk => ?_, fun k blk1 hk hf => ?_⟩
  · show (st.a_fetched || st.TestBit (st.offsetIdx b)) = false
    rw [h.1, hbit]; rfl
  · have hkb : k ≠ b := fun e => hq (e ▸ hk)
    rw [hoff, hbitk k hkb]
    exact h.2.2.1 k hk
  · have hk1 : st.m_block_map.find k = some blk1 := hk
    have hkb : k ≠ b := by
      intro e
      rw [e] at hk1
      have := hfin blk1 hk1
      rw [hf] at this
      exact absurd this (by simp)
    rw [hoff, hbitk k hkb]
    exact h.2.2.2 k blk1 hk1 hf

theorem File.runWriteTask_FetchInv {st : File} (b : Int) (write : Nat → Int × Int)
    (hwf : st.WF) (hdiv : ∃ c, st.m_offset = c * st.BS) (h : st.FetchInv) :
    (st.runWriteTask b write).FetchInv := by
  unfold File.runWriteTask
  by_cases hqb : b ∈ st.c_writeQ
  · rw [if_pos hqb]
    have h1 : (st.takeWrite b).FetchInv := h.settles (File.takeWrite_settles st b)
    have hnq : b ∉ (st.takeWrite b).c_writeQ := by
      show b ∉ st.c_writeQ.erase b
      exact fun hm => ((List.Nodup.mem_erase_iff h.2.1).1 hm).1 rfl
    have hbit : (st.takeWrite b).TestBit ((st.takeWrite b).offsetIdx b) = false :=
      h.2.2.1 b hqb
    have hfin : ∀ blk, (st.takeWrite b).m_block_map.find b = some blk →
        blk.is_finished = true := by
      intro blk hblk
      by_contra hc
      have hc1 : blk.is_finished = false := by simpa using hc
      exact (h.2.2.2 b blk hblk hc1).2 hqb
    have hwf1 : (st.takeWrite b).WF := hwf
    have hdiv1 : ∃ c, (st.takeWrite b).m_offset = c * (st.takeWrite b).BS := hdiv
    generalize st.takeWrite b = s at h1 hnq hbit hfin hwf1 hdiv1
    unfold File.WriteBlockToDisk
    cases hblk : s.m_block_map.find b with
    | none => exact h1
    | some blk =>
      dsimp only
      split_ifs
      · exact h1.settles (File.Settles.of_eq rfl (List.Sublist.refl _) rfl)
      · rw [File.pfIdx_eq hwf1 hdiv1 hblk]
        have h0 : ({ s with m_disk := (s.writeAttempt blk write).disk } : File).FetchInv :=
          h1.settles (File.Settles.of_eq rfl (List.Sublist.refl _) rfl)
        have h2 := File.markFetched_FetchInv b h0 hbit hnq hfin
        have h3 := h2.settles (File.dec_ref_count_settles _ b)
        exact h3.settles (File.Settles.of_eq (File.noteWritten_fetchData _ _)
          (by rw [File.noteWritten_writeQ]; exact List.Sublist.refl _) (File.noteWritten_map _ _))
  · rw [if_neg hqb]
    exact h

theorem File.prefetchScan_bit (st : File) (fuel : Nat) (f r : Int)
    (h : st.prefetchScan fuel f = some r) : st.TestBit (st.offsetIdx r) = false := by
  induction fuel generalizing f with
  | zero => simp [File.prefetchScan] at h
  | succ n ih =>
    unfold File.prefetchScan at h
    by_cases h1 : f < st.sizeInBits
    · rw [if_pos h1] at h
      by_cases h2 : ¬ st.TestBit f
      · rw [if_pos h2] at h
        dsimp only at h
        cases hn : st.m_block_map.find (f + Int.tdiv st.m_offset st.BS) with
        | none =>
          rw [hn] at h
          simp only [Option.some.injEq] at h
          rw [← h]
          unfold File.offsetIdx
          have : f + Int.tdiv st.m_offset st.BS - Int.tdiv st.m_offset st.BS = f := by omega
          rw [this]
          simpa using h2
        | some v =>
          rw [hn] at h
          exact ih _ h
      · rw [if_neg h2] at h
        exact ih _ h
    · rw [if_neg h1] at h
      exact absurd h (by simp)

theorem File.Prefetch_FetchInv {st : File} (g : Bool) (h : st.FetchInv)
    (hq : ∀ k, st.m_block_map.find k = none → k ∉ st.c_writeQ) : (st.Prefetch g).FetchInv := by
  unfold File.Prefetch
  dsimp only
  have hun : ∀ s : File, s.FetchInv → s.UnMarkPrefetch.FetchInv := fun s hs =>
    hs.settles (File.Settles.of_eq rfl (List.Sublist.refl _) rfl)
  apply hun
  split_ifs
  · split
    · rename_i f hf
      have h0 : (st.RequestRAMBlock g).FetchInv := by
        refine h.settles (File.Settles.of_eq ?_ (by rw [File.RequestRAMBlock_writeQ])
          (File.RequestRAMBlock_map st g))
        unfold File.RequestRAMBlock
        split_ifs <;> rfl
      have hb : (st.RequestRAMBlock g).TestBit ((st.RequestRAMBlock g).offsetIdx f) = false := by
        have := File.prefetchScan_bit st _ _ _ hf
        unfold File.RequestRAMBlock
        split_ifs <;> exact this
      have hnq : f ∉ (st.RequestRAMBlock g).c_writeQ := by
        rw [File.RequestRAMBlock_writeQ]
        exact hq f (File.prefetchScan_none st _ _ _ hf)
      exact (File.RequestBlock_FetchInv f true h0 hb hnq).settles
        (File.Settles.of_eq rfl (List.Sublist.refl _) rfl)
    · exact h.settles (File.Settles.of_eq rfl (List.Sublist.refl _) rfl)
  · exact h

theorem File.RefInv.not_queued {st : File} {H : List Int} (h : st.RefInv H) (k : Int)
    (hk : st.m_block_map.find k = none) : k ∉ st.c_writeQ :=
  List.count_eq_zero.1 (h.2.2 k hk).1

theorem File.applyEvent_FetchInv {st : File} {H : List Int} (e : Event) (hwf : st.WF)
    (hdiv : ∃ c, st.m_offset = c * st.BS) (href : st.RefInv H) (h : st.FetchInv) :
    (st.applyEvent e).FetchInv := by
  cases e with
  | response b res err data =>
    show (st.deliver b res err data).FetchInv
    unfold File.deliver
    by_cases hin : st.inFlight b = true
    · rw [if_pos hin]
      refine File.ProcessBlockResponse_FetchInv b res err
        (h.settles (File.fillBuffer_settles st b data)) ?_
      unfold File.inFlight File.fillBuffer
      simp only
      rw [BlockMap.find_modify, if_pos rfl]
      unfold File.inFlight at hin
      cases hf : st.m_block_map.find b with
      | none => rw [hf] at hin; simp at hin
      | some blk =>
        rw [hf] at hin
        simpa [Block.is_finished] using hin
    · rw [if_neg hin]; exact h
  | writeBack b write => exact File.runWriteTask_FetchInv b write hwf hdiv h
  | removedFromWriteQ b => exact h.settles (File.dropWriteTask_settles st b)
  | prefetchCall g =>
    show (st.MarkPrefetch.Prefetch g).FetchInv
    exact File.Prefetch_FetchInv g
      (h.settles (File.Settles.of_eq rfl (List.Sublist.refl _) rfl))
      (fun k hk => href.not_queued k hk)
  | sync => exact h.settles (File.Sync_settles st)
  | initiateClose => exact h.settles (File.InitiateClose_settles st)

theorem File.WriteBlockToDisk_offset (st : File) (b : Int) (write : Nat → Int × Int) :
    (st.WriteBlockToDisk b write).m_offset = st.m_offset := by
  have hn : ∀ (s : File) (p : Int), (s.noteWritten p).m_offset = s.m_offset := fun s p =>
    (File.fetchData_bits (File.noteWritten_fetchData s p)).2.2.2.2
  have hd : ∀ (s : File), (s.dec_ref_count b).m_offset = s.m_offset := fun s =>
    (File.fetchData_bits (File.dec_ref_count_fetchData s b)).2.2.2.2
  unfold File.WriteBlockToDisk
  split
  · rfl
  · dsimp only
    split_ifs
    · rfl
    · rw [hn, hd]
      rfl

theorem File.applyEvent_geom (st : File) (e : Event) :
    (st.applyEvent e).BS = st.BS ∧ (st.applyEvent e).m_offset = st.m_offset := by
  have hfd : ∀ t : File, t.fetchData = st.fetchData → t.BS = st.BS ∧ t.m_offset = st.m_offset :=
    fun t ht => ⟨(File.fetchData_bits ht).2.2.2.1, (File.fetchData_bits ht).2.2.2.2⟩
  cases e with
  | response b res err data => exact hfd _ (File.deliver_fetchData st b res err data)
  | writeBack b write =>
    refine ⟨File.applyEvent_BS st _, ?_⟩
    show (st.runWriteTask b write).m_offset = _
    unfold File.runWriteTask
    split_ifs
    · exact File.WriteBlockToDisk_offset (st.takeWrite b) b write
    · rfl
  | removedFromWriteQ b => exact hfd _ (File.dropWriteTask_fetchData st b)
  | prefetchCall g => exact hfd _ (File.Prefetch_fetchData st.MarkPrefetch g)
  | sync => exact hfd _ (File.Sync_fetchData st)
  | initiateClose => exact hfd _ (File.InitiateClose_fetchData st)

theorem File.applyEvents_FetchInv {st : File} {H : List Int} (es : List Event) (hwf : st.WF)
    (hdiv : ∃ c, st.m_offset = c * st.BS) (href : st.RefInv H) (h : st.FetchInv) :
    (st.applyEvents es).FetchInv ∧ ∃ c, (st.applyEvents es).m_offset = c * (st.applyEvents es).BS := by
  unfold File.applyEvents
  induction es generalizing st with
  | nil => exact ⟨h, hdiv⟩
  | cons e t ih =>
    rw [List.foldl_cons]
    refine ih (File.applyEvent_WF e hwf) ?_ (File.applyEvent_RefInv e hwf href)
      (File.applyEvent_FetchInv e hwf hdiv href h)
    obtain ⟨c, hc⟩ := hdiv
    exact ⟨c, by rw [(File.applyEvent_geom st e).1, (File.applyEvent_geom st e).2]; exact hc⟩

theorem File.divides_of_fetchData {s t : File} (e : t.fetchData = s.fetchData)
    (h : ∃ c, s.m_offset = c * s.BS) : ∃ c, t.m_offset = c * t.BS := by
  obtain ⟨c, hc⟩ := h
  obtain ⟨_, _, _, e1, e2⟩ := File.fetchData_bits e
  exact ⟨c, by rw [e1, e2]; exact hc⟩

theorem File.classify_FetchInv (grant : Int → Bool) (n : Nat) (i : Int) (st : File)
    (l : ReadLists) (hwf : st.WF) (href : st.RefInv l.blks_to_process) (h : st.FetchInv) :
    (File.classify grant n i st l).1.FetchInv := by
  induction n generalizing i st l with
  | zero => exact h
  | succ n ih =>
    unfold File.classify
    split
    · rename_i blk hf
      exact ih _ _ _ (File.inc_ref_count_WF i hwf)
        (File.inc_ref_count_RefInv i href (by rw [hf]; rfl))
        (h.settles (File.inc_ref_count_settles st i))
    · rename_i hf
      split_ifs with hbit hg
      · exact ih _ _ _ hwf href h
      · dsimp only
        have h0 : (st.RequestRAMBlock true).RefInv l.blks_to_process :=
          File.RefInv_congr st href (by simp) (by simp) (by simp) (fun _ => rfl)
        have h1 := File.RequestBlock_RefInv i false h0 (by rw [File.RequestRAMBlock_map]; exact hf)
        have h2 := File.inc_ref_count_RefInv i h1 (by
          rw [File.RequestBlock_map, BlockMap.find_insert, if_pos rfl]; rfl)
        have f0 : (st.RequestRAMBlock true).FetchInv :=
          h.settles (File.Settles.of_eq rfl (by rw [File.RequestRAMBlock_writeQ])
            (File.RequestRAMBlock_map st true))
        have f1 : ((st.RequestRAMBlock true).RequestBlock i false).FetchInv :=
          File.RequestBlock_FetchInv i false f0 (by
            show st.TestBit (st.offsetIdx i) = false
            simpa using hbit) (by
            rw [File.RequestRAMBlock_writeQ]
            exact href.not_queued i hf)
        refine ih _ _ _ (File.inc_ref_count_WF i (File.RequestBlock_WF i false
          (File.WF_congr st hwf (by simp) (by simp)))) ?_
          (f1.settles (File.inc_ref_count_settles _ i))
        exact File.RefInv_congr _ h2 rfl rfl rfl (fun k => by
          simp only [List.count_append, List.count_cons, List.count_nil]
          omega)
      · exact ih _ _ _ hwf href h

theorem File.waitLoop_FetchInv (off len : Int) (fuel : Nat) (waits : List (List Event))
    (st : File) (tp done : List Int) (bytes : Int) (cp : Copies) (w : WaitResult)
    (hwf : st.WF) (hdiv : ∃ c, st.m_offset = c * st.BS) (href : st.RefInv (done ++ tp))
    (h : st.FetchInv)
    (hw : File.waitLoop off len fuel waits st tp done bytes cp = some w) :
    w.st.FetchInv ∧ ∃ c, w.st.m_offset = c * w.st.BS := by
  induction fuel generalizing waits st tp done bytes cp with
  | zero => simp [File.waitLoop] at hw
  | succ n ih =>
    unfold File.waitLoop at hw
    by_cases hc : tp ≠ [] ∧ bytes ≥ 0
    · rw [if_pos hc] at hw
      dsimp only at hw
      by_cases hf : tp.filter (fun b => st.finished b) = []
      · rw [if_pos hf] at hw
        cases waits with
        | nil => simp at hw
        | cons e es =>
          simp only at hw
          have he := File.applyEvents_FetchInv e hwf hdiv href h
          exact ih es (st.applyEvents e) tp done bytes cp (File.applyEvents_WF e hwf) he.2
            (File.applyEvents_RefInv e hwf href) he.1 hw
      · rw [if_neg hf] at hw
        obtain ⟨f1, f2, f3, f4⟩ := File.processFinished_frame off len
          (tp.filter (fun b => st.finished b)) st bytes cp
        have hs := File.processFinished_settles off len
          (tp.filter (fun b => st.finished b)) st bytes cp
        refine ih waits _ _ _ _ _ (File.WF_congr st hwf f1 f2)
          (File.divides_of_fetchData hs.1 hdiv) ?_ (h.settles hs) hw
        refine File.RefInv_congr st href f4 f2 f3 (fun k => ?_)
        have e1 := count_filter_add (fun b => st.finished b) tp k
        simp only [List.count_append]
        omega
    · rw [if_neg hc] at hw
      simp only [Option.some.injEq] at hw
      subst hw
      exact ⟨h, hdiv⟩

theorem File.Read_FetchInv {st : File} {env : ReadEnv} {off len : Int} {r : ReadResult}
    (hwf : st.WF) (hdiv : ∃ c, st.m_offset = c * st.BS) (href : st.RefInv [])
    (h : st.FetchInv) (hr : st.Read env off len = some r) : r.st.FetchInv := by
  obtain ⟨hcWF, hcR⟩ := File.classifyRequest_RefInv env.grant off len hwf href
  have hcF : (st.classifyRequest env.grant off len).1.FetchInv :=
    File.classify_FetchInv _ _ _ _ _ hwf href h
  have hcD : ∃ c, (st.classifyRequest env.grant off len).1.m_offset
      = c * (st.classifyRequest env.grant off len).1.BS :=
    File.divides_of_fetchData (File.fetchData_ReadFrame.classify_eq _ _ _ _ _) hdiv
  rcases File.Read_cases hr with ⟨_, _, hab⟩ | ⟨_, w, hw, _, hfin⟩
  · rw [hab]
    exact hcF.settles (File.releaseAll_settles _ _)
  · have hrd := File.readDisk_spec (st.classifyRequest env.grant off len).1 env.diskRead off len
      (st.classifyRequest env.grant off len).2.blks_on_disk
    have hrdf := File.readDisk_frame (st.classifyRequest env.grant off len).1 env.diskRead off len
      (st.classifyRequest env.grant off len).2.blks_on_disk
    have hrds := File.readDisk_settles (st.classifyRequest env.grant off len).1 env.diskRead
      off len (st.classifyRequest env.grant off len).2.blks_on_disk
    have hrdWF : ((st.classifyRequest env.grant off len).1.readDisk env.diskRead off len
        (st.classifyRequest env.grant off len).2.blks_on_disk).1.WF :=
      File.WF_congr _ hcWF hrd.1 hrd.2.1
    have hrdR : ((st.classifyRequest env.grant off len).1.readDisk env.diskRead off len
        (st.classifyRequest env.grant off len).2.blks_on_disk).1.RefInv
          ([] ++ (st.classifyRequest env.grant off len).2.blks_to_process) :=
      File.RefInv_congr _ hcR hrdf.2 hrd.2.1 hrdf.1 (fun _ => by rw [List.nil_append])
    have hpre := File.applyEvents_FetchInv env.pre hrdWF
      (File.divides_of_fetchData hrds.1 hcD) hrdR (hcF.settles hrds)
    have hwWF := (File.waitLoop_spec off len _ _ _ _ _ _ _ w
      (File.applyEvents_WF env.pre hrdWF) hw).1
    have hwR := File.waitLoop_RefInv off len _ _ _ _ _ _ _ w
      (File.applyEvents_WF env.pre hrdWF) (File.applyEvents_RefInv env.pre hrdWF hrdR) hw
    have hwF := File.waitLoop_FetchInv off len _ _ _ _ _ _ _ w
      (File.applyEvents_WF env.pre hrdWF) hpre.2 (File.applyEvents_RefInv env.pre hrdWF hrdR)
      hpre.1 hw
    have hpost := File.applyEvents_FetchInv env.post hwWF hwF.2 hwR hwF.1
    rw [hfin]
    simp only [File.finishRead]
    exact (hpost.1.settles (File.Settles.of_eq rfl (List.Sublist.refl _) rfl)).settles
      (File.releaseAll_settles _ _)

theorem File.Read_geom {st : File} {env : ReadEnv} {off len : Int} {r : ReadResult}
    (hr : st.Read env off len = some r) : r.st.BS = st.BS ∧ r.st.m_offset = st.m_offset := by
  have hfd := File.fetchData_ReadFrame
  have hg : File.ReadFrame (fun s : File => (s.BS, s.m_offset)) :=
    ⟨fun s b => congrArg (fun d => (d.1, d.2.1)) (hfd.1 s b),
     fun s b => congrArg (fun d => (d.1, d.2.1)) (hfd.2.1 s b),
     fun s i => congrArg (fun d => (d.1, d.2.1)) (hfd.2.2.1 s i),
     fun s i => congrArg (fun d => (d.1, d.2.1)) (hfd.2.2.2.1 s i),
     fun s blk => congrArg (fun d => (d.1, d.2.1)) (hfd.2.2.2.2.1 s blk),
     fun _ _ _ => rfl⟩
  have := hg.Read_inv (fun v => v = (st.BS, st.m_offset)) (fun s e hs => by
    have he := File.applyEvent_geom s e
    show ((s.applyEvent e).BS, (s.applyEvent e).m_offset) = _
    rw [he.1, he.2]
    exact hs) rfl hr
  simp only [Prod.mk.injEq] at this
  exact this

theorem File.fresh_FetchInv (bs bits off size : Int) (maxBlocks : Nat) :
    (File.fresh bs bits off size maxBlocks).FetchInv :=
  ⟨rfl, List.nodup_nil, fun k hk => by simp [File.fresh] at hk,
    fun k blk hk => by simp [File.fresh, BlockMap.find] at hk⟩

theorem File.Reachable.fetchInv {st : File} (h : st.Reachable) :
    (∃ c, st.m_offset = c * st.BS) → st.FetchInv := by
  induction h with
  | fresh bs bits off size maxBlocks _ =>
    exact fun _ => File.fresh_FetchInv bs bits off size maxBlocks
  | event st e hst ih =>
    intro hdiv
    have hd : ∃ c, st.m_offset = c * st.BS := by
      obtain ⟨c, hc⟩ := hdiv
      rw [(File.applyEvent_geom st e).1, (File.applyEvent_geom st e).2] at hc
      exact ⟨c, hc⟩
    exact File.applyEvent_FetchInv e hst.inv.1 hd hst.inv.2 (ih hd)
  | read st env off len r hst hr ih =>
    intro hdiv
    have hd : ∃ c, st.m_offset = c * st.BS := by
      obtain ⟨c, hc⟩ := hdiv
      rw [(File.Read_geom hr).1, (File.Read_geom hr).2] at hc
      exact ⟨c, hc⟩
    exact File.Read_FetchInv hst.inv.1 hd hst.inv.2 (ih hd) hr

theorem File.classify_fetches (grant : Int → Bool) (n : Nat) (i : Int) (st : File)
    (l : ReadLists) :
    ∀ e ∈ (File.classify grant n i st l).1.m_fetches, e ∈ st.m_fetches ∨
      (st.TestBit (st.offsetIdx e.1) = false ∧ st.m_block_map.find e.1 = none) := by
  induction n generalizing i st l with
  | zero => exact fun e he => Or.inl he
  | succ n ih =>
    have hinc : ∀ (s : File) (k : Int), (s.inc_ref_count i).m_block_map.find k = none →
        s.m_block_map.find k = none := by
      intro s k hk
      rw [File.inc_ref_count_map, BlockMap.find_modify] at hk
      by_cases hki : k = i
      · rw [if_pos hki] at hk
        cases hs : s.m_block_map.find k with
        | none => rfl
        | some v => rw [hs] at hk; simp at hk
      · rw [if_neg hki] at hk; exact hk
    unfold File.classify
    split
    · intro e he
      rcases ih _ _ _ e he with h1 | h1
      · exact Or.inl h1
      · exact Or.inr ⟨h1.1, hinc st e.1 h1.2⟩
    · rename_i hf
      split_ifs with hbit hg
      · exact ih _ _ _
      · dsimp only
        intro e he
        rcases ih _ _ _ e he with h1 | h1
        · have h2 : e ∈ ((st.RequestRAMBlock true).RequestBlock i false).m_fetches := h1
          rw [File.RequestBlock_fetches] at h2
          rcases List.mem_append.1 h2 with h3 | h3
          · exact Or.inl h3
          · have : e.1 = i := by
              simp only [List.mem_singleton] at h3
              rw [h3]
            rw [this]
            exact Or.inr ⟨by simpa using hbit, hf⟩
        · have hfd : (((st.RequestRAMBlock true).RequestBlock i false).inc_ref_count i).fetchData
              = st.fetchData := by
            rw [File.inc_ref_count_fetchData, File.RequestBlock_fetchData]
            rfl
          obtain ⟨_, e2, e3, _, _⟩ := File.fetchData_bits hfd
          refine Or.inr ⟨by rw [← e2, ← e3]; exact h1.1, ?_⟩
          have h2 := hinc _ e.1 h1.2
          rw [File.RequestBlock_map, BlockMap.find_insert] at h2
          by_cases hei : e.1 = i
          · rw [if_pos hei] at h2; simp at h2
          · rw [if_neg hei] at h2; exact h2
      · exact ih _ _ _

theorem File.Prefetch_fetches (st : File) (g : Bool) :
    (st.Prefetch g).m_fetches = st.m_fetches ∨
    ∃ i len, (st.Prefetch g).m_fetches = st.m_fetches ++ [(i, i * st.BS, len, true)] ∧
      st.TestBit (st.offsetIdx i) = false ∧ st.m_block_map.find i = none := by
  unfold File.Prefetch
  dsimp only
  split_ifs
  · cases hf : st.prefetchScan st.sizeInBits.toNat 0 with
    | none => exact Or.inl rfl
    | some f =>
      have hr : (st.RequestRAMBlock g).m_fetches = st.m_fetches ∧
          (st.RequestRAMBlock g).BS = st.BS ∧
          (st.RequestRAMBlock g).sizeInBits = st.sizeInBits ∧
          (st.RequestRAMBlock g).m_fileSize = st.m_fileSize := by
        unfold File.RequestRAMBlock
        split_ifs <;> exact ⟨rfl, rfl, rfl, rfl⟩
      refine Or.inr ⟨f, (if f = st.sizeInBits - 1 then st.m_fileSize - f * st.BS else st.BS), ?_,
        File.prefetchScan_bit st _ _ _ hf, File.prefetchScan_none st _ _ _ hf⟩
      show ((st.RequestRAMBlock g).RequestBlock f true).m_fetches = _
      rw [File.RequestBlock_fetches, hr.1, hr.2.1, hr.2.2.1, hr.2.2.2]
  · exact Or.inl rfl

/-- C21: for a file whose base offset is a multiple of the block size, in every state
reached from the freshly opened file by reads and by the steps of the other threads
(each fetch completes once, each write task is run or dropped once) the assertion of
`WriteBlockToDisk` on the fetched bit has never failed and does not fail in the next
write-back: no block has two write tasks, and the bit that the write-back of a queued
block tests is unset.  A fetch is issued, by the classification of `Read` and by
`Prefetch`, only for an index whose fetched bit is unset and that has no map entry. -/
theorem C21_fetched_bit_set_once (st : File) (h : st.Reachable)
    (hdiv : ∃ c, st.m_offset = c * st.BS) :
    st.a_fetched = false ∧
    (∀ (b : Int) (write : Nat → Int × Int),
      (st.applyEvent (Event.writeBack b write)).a_fetched = false) ∧
    st.c_writeQ.Nodup ∧
    (∀ (b : Int) (blk : Block), b ∈ st.c_writeQ → st.m_block_map.find b = some blk →
      st.TestBit (Int.tdiv (blk.m_offset - st.m_offset) st.BS) = false) ∧
    (∀ (grant : Int → Bool) (off len : Int),
      ∀ e ∈ (st.classifyRequest grant off len).1.m_fetches, e ∈ st.m_fetches ∨
        (st.TestBit (st.offsetIdx e.1) = false ∧ st.m_block_map.find e.1 = none)) ∧
    (∀ g : Bool, (st.Prefetch g).m_fetches = st.m_fetches ∨
      ∃ i len, (st.Prefetch g).m_fetches = st.m_fetches ++ [(i, i * st.BS, len, true)] ∧
        st.TestBit (st.offsetIdx i) = false ∧ st.m_block_map.find i = none) := by
  have hF := h.fetchInv hdiv
  refine ⟨hF.1, fun b write => ?_, hF.2.1, fun b blk hq hb => ?_,
    fun grant off len => File.classify_fetches _ _ _ _ _, File.Prefetch_fetches st⟩
  · have hr := File.Reachable.event st (Event.writeBack b write) h
    refine (hr.fetchInv ?_).1
    obtain ⟨c, hc⟩ := hdiv
    exact ⟨c, by
      rw [(File.applyEvent_geom st _).1, (File.applyEvent_geom st _).2]; exact hc⟩
  · rw [File.pfIdx_eq h.inv.1 hdiv hb]
    exact hF.2.2.1 b hq

/-- C21 on the file of the scenarios (base offset 0): after the prefetch of block 0, the
completion of its fetch and its write-back the fetched bit of block 0 is set and the
assertion has not failed; before the write-back the bit was unset. -/
theorem C21_witness :
    downloadedFile.TestBit 0 = false ∧
    (downloadedFile.applyEvent (Event.writeBack 0 writeComplete)).TestBit 0 = true ∧
    (downloadedFile.applyEvent (Event.writeBack 0 writeComplete)).a_fetched = false ∧
    ((downloadedFile.applyEvent (Event.writeBack 0 writeComplete)).applyEvent
      (Event.prefetchCall true)).m_fetches = [(0, 0, 4, true), (1, 4, 4, true)] := by
  have hr : downloadedFile.Reachable :=
    File.Reachable.event _ _ (File.Reachable.event _ _
      (File.Reachable.fresh 4 3 0 10 10 (by decide)))
  have h := C21_fetched_bit_set_once downloadedFile hr ⟨0, by decide⟩
  exact ⟨by decide, by decide, h.2.1 0 writeComplete, by decide⟩

end XrdFileCache
